import Mathlib

/-!
Verification of the rune repository's core claims.

Shallow embedding of two source components:

* `crates/text-buffer/src/metric.rs` — the metric B-tree (`Internal`,
  `Metric`, insert / delete / delete_range / search / add / remove).
* `src/core/object/tagged.rs` — the tagged-pointer object model
  (fixnum tagging, sum-view conversions, `int_to_char`, handle equality,
  display of cyclic structures).

Modelling conventions:

* Rust `usize` is modelled as `Nat`.  `usize` subtraction panics on
  underflow in a debug build, so it is modelled as the partial
  `Metric.sub?` (`none` = panic).  Addition is modelled as plain `Nat`
  addition.
* Every Rust function that can panic (`unreachable!`, `todo!`, failed
  `assert!`, out-of-bounds indexing, arithmetic underflow) is modelled in
  the `Option` monad; `none` means the call does not return normally.
* Rust `Vec`/`SmallVec` indexing operations are modelled by guarded
  helpers (`setAt?`, `insAt?`, `rmAt?`, `drain?`) that return `none`
  exactly when the Rust operation would panic.
* The Rust `Internal` struct stores `metrics: Vec<Metric>` together with
  `children: Children` where `Children` is either a vector of internal
  nodes or a vector of (empty) `Leaf` structs.  It is modelled by the
  mutual inductive `Internal`/`IList` below: constructor `leaves ms c`
  is a node with `Children::Leaf` of length `c`, constructor `node ms cs`
  is a node with `Children::Internal`.
-/

/-- Guarded `l[i] = a` assignment: Rust panics when `i` is out of bounds. -/
def setAt? (l : List α) (i : Nat) (a : α) : Option (List α) :=
  if i < l.length then some (l.set i a) else none

/-- Guarded `Vec::insert`: Rust allows `i = len`, panics beyond. -/
def insAt? (l : List α) (i : Nat) (a : α) : Option (List α) :=
  if i ≤ l.length then some (l.insertIdx i a) else none

/-- Guarded `Vec::remove`: returns the removed element and the rest. -/
def rmAt? (l : List α) (i : Nat) : Option (α × List α) :=
  match l.get? i with
  | some x => some (x, l.eraseIdx i)
  | none => none

/-- Guarded `Vec::drain(a..b)` (keeping the rest): panics when `a > b` or
`b > len`. -/
def drain? (l : List α) (a b : Nat) : Option (List α) :=
  if a ≤ b ∧ b ≤ l.length then some (l.take a ++ l.drop b) else none

/-- `Metric` from metric.rs: a pair of byte and char counts. -/
structure Metric where
  bytes : Nat
  chars : Nat
deriving DecidableEq, Repr

instance : Add Metric := ⟨fun a b => ⟨a.bytes + b.bytes, a.chars + b.chars⟩⟩

/-- `Metric::default()`. -/
def mzero : Metric := ⟨0, 0⟩

/-- Rust `Metric - Metric` (componentwise `usize` subtraction, which
panics on underflow in a debug build). -/
def Metric.sub? (a b : Metric) : Option Metric :=
  if b.bytes ≤ a.bytes ∧ b.chars ≤ a.chars then
    some ⟨a.bytes - b.bytes, a.chars - b.chars⟩
  else none

/-- `metrics.iter().sum()`. -/
def msum (l : List Metric) : Metric := l.foldl (· + ·) mzero

/-- `const MAX: usize = 4`. -/
def MAXC : Nat := 4

/-- `const MIN: usize = MAX / 2`. -/
def MINC : Nat := 2

mutual
/-- The `Internal` node of metric.rs.  `leaves ms c` is a node whose
`children` is `Children::Leaf` with `c` (empty) leaf structs; `node ms cs`
is a node whose `children` is `Children::Internal`. -/
inductive Internal where
  | leaves (metrics : List Metric) (count : Nat)
  | node (metrics : List Metric) (children : IList)
deriving DecidableEq, Repr
/-- A vector of boxed internal nodes (`SmallVec<[Box<Internal>; MAX]>`). -/
inductive IList where
  | nil
  | cons (hd : Internal) (tl : IList)
deriving DecidableEq, Repr
end

namespace IList

/-- Convert to a plain list (for stating specifications). -/
def toL : IList → List Internal
  | .nil => []
  | .cons c cs => c :: toL cs

/-- Convert from a plain list. -/
def ofL : List Internal → IList
  | [] => .nil
  | c :: cs => .cons c (ofL cs)

/-- `children.len()`. -/
def len (cs : IList) : Nat := cs.toL.length

/-- `children[i]` (checked). -/
def get? (cs : IList) (i : Nat) : Option Internal := cs.toL.get? i

/-- `children[i] = c` (checked). -/
def set? (cs : IList) (i : Nat) (c : Internal) : Option IList :=
  (setAt? cs.toL i c).map ofL

/-- `children.insert(i, c)` (checked). -/
def ins? (cs : IList) (i : Nat) (c : Internal) : Option IList :=
  (insAt? cs.toL i c).map ofL

/-- `children.remove(i)` (checked). -/
def rm? (cs : IList) (i : Nat) : Option (Internal × IList) :=
  (rmAt? cs.toL i).map (fun p => (p.1, ofL p.2))

/-- `children.drain(a..b)` keeping the rest (checked). -/
def drainAt? (cs : IList) (a b : Nat) : Option IList :=
  (drain? cs.toL a b).map ofL

/-- `left_children.append(right_children)`. -/
def append (cs ds : IList) : IList := ofL (cs.toL ++ ds.toL)

end IList

namespace Internal

/-- The `metrics` field. -/
def metricsOf : Internal → List Metric
  | .leaves ms _ => ms
  | .node ms _ => ms

/-- `fn metrics(&self) -> Metric`: sum of this node's summary vector. -/
def total (t : Internal) : Metric := msum t.metricsOf

/-- `fn len(&self)`: the children count. -/
def clen : Internal → Nat
  | .leaves _ c => c
  | .node _ cs => cs.len

end Internal

/-- `fn new_root()`: a leaf-holding root with one sentinel leaf of metric
`(0,0)`. -/
def newRoot : Internal := .leaves [mzero] 1

mutual
/-- Structural well-formedness at height `h` (the amended invariant):
summary vector mirrors the children (`metrics.len() == children.len()`
and, for internal-holding nodes, `metrics[i] == children[i].metrics()`),
every node has at most `MAX` children, and every leaf sits at depth
exactly `h`. -/
def wfH : Internal → Nat → Bool
  | .leaves ms c, h => ms.length == c && decide (ms.length ≤ MAXC) && h == 1
  | .node ms cs, h =>
    decide (ms = cs.toL.map Internal.total) && decide (cs.len ≤ MAXC) &&
      decide (2 ≤ h) && wfL cs (h - 1)
/-- `wfH` for every node of a child vector. -/
def wfL : IList → Nat → Bool
  | .nil, _ => true
  | .cons c cs, h => wfH c h && wfL cs h
end

/-- A tree is well formed when all its leaves sit at one common depth. -/
def wfTree (t : Internal) : Prop := ∃ h, wfH t h = true

mutual
/-- The spec's §3.3 invariant, which additionally demands that every
non-root node has at least `MIN` children (`isRoot` marks the root). -/
def wfSpecH : Internal → Nat → Bool → Bool
  | .leaves ms c, h, isRoot =>
    ms.length == c && decide (ms.length ≤ MAXC) && h == 1 &&
      (isRoot || decide (MINC ≤ c))
  | .node ms cs, h, isRoot =>
    decide (ms = cs.toL.map Internal.total) && decide (cs.len ≤ MAXC) &&
      decide (2 ≤ h) && (isRoot || decide (MINC ≤ cs.len)) && wfSpecL cs (h - 1)
/-- `wfSpecH` for every node of a child vector (children are non-root). -/
def wfSpecL : IList → Nat → Bool
  | .nil, _ => true
  | .cons c cs, h => wfSpecH c h false && wfSpecL cs h
end

/-- The spec's invariant for a whole tree. -/
def wfSpec (t : Internal) : Prop := ∃ h, wfSpecH t h true = true

mutual
/-- The invariant every visited node's `assert_invariants` demands, held
recursively: `wfH` strengthened with "internal-holding nodes have at
least `MIN` children" and "leaf-holding nodes are non-empty" at every
node (the condition under which the tree operations run without
panicking). -/
def wfA : Internal → Nat → Bool
  | .leaves ms c, h =>
    ms.length == c && decide (ms.length ≤ MAXC) && h == 1 && !ms.isEmpty
  | .node ms cs, h =>
    decide (ms = cs.toL.map Internal.total) && decide (cs.len ≤ MAXC) &&
      decide (MINC ≤ cs.len) && decide (2 ≤ h) && wfAL cs (h - 1)
/-- `wfA` for every node of a child vector. -/
def wfAL : IList → Nat → Bool
  | .nil, _ => true
  | .cons c cs, h => wfA c h && wfAL cs h
end

/-- `metrics[i] += x` (checked). -/
def addAt? (ms : List Metric) (i : Nat) (x : Metric) : Option (List Metric) :=
  match ms.get? i with
  | some m => setAt? ms i (m + x)
  | none => none

/-- `metrics[i] -= x` (checked index and checked `usize` subtraction). -/
def subAt? (ms : List Metric) (i : Nat) (x : Metric) : Option (List Metric) :=
  match ms.get? i with
  | some m =>
    match m.sub? x with
    | some m' => setAt? ms i m'
    | none => none
  | none => none

/-- `fn assert_invariants(&self)`: the (always-on) entry assertion of every
public metric-tree operation.  It checks one level only: summary length
equals children count, at most `MAX` entries, at least `MIN` children for
internal-holding nodes (merely non-empty for leaf-holding nodes), and each
internal summary entry equals the child's own summary sum. -/
def assertInv : Internal → Bool
  | .leaves ms c => ms.length == c && decide (ms.length ≤ MAXC) && !ms.isEmpty
  | .node ms cs =>
    ms.length == cs.len && decide (ms.length ≤ MAXC) &&
      decide (MINC ≤ ms.length) && decide (cs.toL.map Internal.total = ms)

/-- The `Node` enum of metric.rs: a stolen child, either an internal node
or a leaf (the `Leaf` struct is empty, so the leaf variant carries no
payload). -/
inductive RNode where
  | int (t : Internal)
  | leaf
deriving DecidableEq, Repr

/-- `fn steal_greatest(&mut self)`: returns the outcome (`none` of the
inner option when the node refuses to give a child) and the updated node;
the outer `Option` is `none` when the Rust code would panic
(`unreachable!` on an internal node with fewer than 2 children or an empty
leaf node). -/
def stealGreatest : Internal → Option (Option (RNode × Metric) × Internal)
  | .node ms cs =>
    match cs.len with
    | 0 | 1 => none
    | 2 => some (none, .node ms cs)
    | _ =>
      match ms.getLast?, cs.rm? (cs.len - 1) with
      | some m, some (c, cs') => some (some (.int c, m), .node (ms.dropLast) cs')
      | _, _ => none
  | .leaves ms c =>
    match c with
    | 0 => none
    | 1 => some (none, .leaves ms c)
    | _ =>
      match ms.getLast? with
      | some m => some (some (.leaf, m), .leaves ms.dropLast (c - 1))
      | none => none

/-- `fn steal_least(&mut self)`. -/
def stealLeast : Internal → Option (Option (RNode × Metric) × Internal)
  | .node ms cs =>
    match cs.len with
    | 0 | 1 => none
    | 2 => some (none, .node ms cs)
    | _ =>
      match ms.head?, cs.rm? 0 with
      | some m, some (c, cs') => some (some (.int c, m), .node ms.tail cs')
      | _, _ => none
  | .leaves ms c =>
    match c with
    | 0 => none
    | 1 => some (none, .leaves ms c)
    | _ =>
      match ms.head? with
      | some m => some (some (.leaf, m), .leaves ms.tail (c - 1))
      | none => none

/-- `fn merge_node(&mut self, node: Node, metric: Metric, idx: usize)`. -/
def mergeNode : Internal → RNode → Metric → Nat → Option Internal
  | .node ms cs, .int n, metric, idx =>
    match insAt? ms idx metric, cs.ins? idx n with
    | some ms', some cs' => some (.node ms' cs')
    | _, _ => none
  | .leaves ms c, .leaf, metric, _ =>
    match c with
    | 0 => some (.leaves (ms ++ [metric]) 1)
    | 1 =>
      match addAt? ms 0 metric with
      | some ms' => some (.leaves ms' 1)
      | none => none
    | _ => none
  | _, _, _, _ => none

/-- `fn merge_sibling(&mut self, right: &mut Self)`: the left node absorbs
the right one (the caller then removes the right node from its parent). -/
def mergeSibling : Internal → Internal → Option Internal
  | .node lms lcs, .node rms rcs => some (.node (lms ++ rms) (lcs.append rcs))
  | .leaves lms lc, .leaves rms rc =>
    if lc == 1 && rc == 1 && lms.length == 1 && rms.length == 1 then
      match lms.head?, rms.head? with
      | some lm, some rm => some (.leaves [lm + rm] 1)
      | _, _ => none
    else none
  | _, _ => none

/-- `NonZeroUsize::new`. -/
def nzNew (n : Nat) : Option Nat := if n = 0 then none else some n

/-- The loop body of `try_steal_left`, iterated `needed` times. -/
def stealLeftLoop (leftIdx idx : Nat) :
    Nat → Nat → IList → List Metric → Option (Option Nat × IList × List Metric)
  | _, 0, cs, ms => some (none, cs, ms)
  | i, n + 1, cs, ms =>
    match cs.get? leftIdx with
    | none => none
    | some leftC =>
      match stealGreatest leftC with
      | none => none
      | some (none, leftC') =>
        -- refusal: `return NonZeroUsize::new(needed - i)`
        match cs.set? leftIdx leftC' with
        | some cs' => some (nzNew (n + 1), cs', ms)
        | none => none
      | some (some (nd, nm), leftC') =>
        match cs.set? leftIdx leftC' with
        | none => none
        | some cs1 =>
          match cs1.get? idx with
          | none => none
          | some c =>
            match mergeNode c nd nm 0 with
            | none => none
            | some c' =>
              match cs1.set? idx c' with
              | none => none
              | some cs2 =>
                match addAt? ms idx nm with
                | none => none
                | some ms1 =>
                  match subAt? ms1 leftIdx nm with
                  | none => none
                  | some ms2 => stealLeftLoop leftIdx idx (i + 1) n cs2 ms2

/-- `fn try_steal_left(children, metrics, idx, needed)`: first component of
the result is the residual need (`none` when fully satisfied). -/
def tryStealLeft (cs : IList) (ms : List Metric) (idx needed : Nat) :
    Option (Option Nat × IList × List Metric) :=
  if idx < cs.len ∧ idx < ms.length ∧ needed ≤ MINC ∧ 0 < needed then
    match idx with
    | 0 => some (nzNew needed, cs, ms)
    | i + 1 => stealLeftLoop i (i + 1) 0 needed cs ms
  else none

/-- The loop body of `try_steal_right`, iterated `needed` times. -/
def stealRightLoop (idx rightIdx : Nat) :
    Nat → Nat → IList → List Metric → Option (Option Nat × IList × List Metric)
  | _, 0, cs, ms => some (none, cs, ms)
  | i, n + 1, cs, ms =>
    match cs.get? rightIdx with
    | none => none
    | some rightC =>
      match stealLeast rightC with
      | none => none
      | some (none, rightC') =>
        match cs.set? rightIdx rightC' with
        | some cs' => some (nzNew (n + 1), cs', ms)
        | none => none
      | some (some (nd, nm), rightC') =>
        match cs.set? rightIdx rightC' with
        | none => none
        | some cs1 =>
          match cs1.get? idx with
          | none => none
          | some c =>
            match mergeNode c nd nm c.metricsOf.length with
            | none => none
            | some c' =>
              match cs1.set? idx c' with
              | none => none
              | some cs2 =>
                match addAt? ms idx nm with
                | none => none
                | some ms1 =>
                  match subAt? ms1 rightIdx nm with
                  | none => none
                  | some ms2 => stealRightLoop idx rightIdx (i + 1) n cs2 ms2

/-- `fn try_steal_right(children, metrics, idx, needed)`. -/
def tryStealRight (cs : IList) (ms : List Metric) (idx needed : Nat) :
    Option (Option Nat × IList × List Metric) :=
  if cs.len = ms.length ∧ needed ≤ MINC ∧ 0 < needed then
    if idx + 1 ≥ cs.len then some (nzNew needed, cs, ms)
    else stealRightLoop idx (idx + 1) 0 needed cs ms
  else none

/-- `fn merge_children(children, metrics, idx)`: merge the child at `idx`
with its left neighbour (right neighbour when `idx == 0`) and report the
residual need of this node. -/
def mergeChildren (cs : IList) (ms : List Metric) (idx : Nat) :
    Option (Option Nat × IList × List Metric) :=
  let rightIdx := if idx ≠ 0 then idx else idx + 1
  match cs.get? (rightIdx - 1), cs.get? rightIdx with
  | some left, some right =>
    match mergeSibling left right with
    | none => none
    | some merged =>
      match cs.set? (rightIdx - 1) merged with
      | none => none
      | some cs1 =>
        match cs1.rm? rightIdx with
        | none => none
        | some (_, cs2) =>
          match rmAt? ms rightIdx with
          | none => none
          | some (metric, ms1) =>
            match addAt? ms1 (rightIdx - 1) metric with
            | none => none
            | some ms2 => some (nzNew (MINC - cs2.len), cs2, ms2)
  | _, _ => none

/-- `fn get_delete_indices(&self, start, end)`: scan the summary vector,
reducing `start` and `end` and locating the child containing each; the
Rust `unwrap` panics (→ `none`) when an index is not found. -/
def gdiGo : List Metric → Metric → Metric → Nat → Option Nat →
    Option (Nat × Nat × Metric × Metric)
  | [], _, _, _, _ => none
  | m :: ms, start, e, idx, startIdx =>
    let startIdx' :=
      if startIdx.isNone ∧ (start.chars < m.chars ∨ start.chars = 0) then
        some idx
      else startIdx
    if e.chars ≤ m.chars then
      match startIdx' with
      | some si => some (si, idx, start, e)
      | none => none
    else
      match (if startIdx'.isNone then start.sub? m else some start), e.sub? m with
      | some start', some e' => gdiGo ms start' e' (idx + 1) startIdx'
      | _, _ => none

/-- `fn get_delete_indices` wrapper. -/
def getDeleteIndices (ms : List Metric) (start e : Metric) :
    Option (Nat × Nat × Metric × Metric) :=
  gdiGo ms start e 0 none

/-- The loop of `search_impl` at a leaf-holding node (the `Children::Leaf`
arm returns the running `sum` when the needle falls inside a leaf). -/
def searchLf (byChar : Bool) : List Metric → Nat → Metric → Option Metric
  | [], _, sum => some sum
  | m :: ms, needle, sum =>
    if needle == 0 then some sum
    else
      let pos := if byChar then m.chars else m.bytes
      if needle < pos then some sum
      else searchLf byChar ms (needle - pos) (sum + m)

/-- The loop of `search_impl` at an internal-holding node once the child
vector has been exhausted (descending would index out of bounds). -/
def searchNil (byChar : Bool) : List Metric → Nat → Metric → Option Metric
  | [], _, sum => some sum
  | m :: ms, needle, sum =>
    if needle == 0 then some sum
    else
      let pos := if byChar then m.chars else m.bytes
      if needle < pos then none
      else searchNil byChar ms (needle - pos) (sum + m)

mutual
/-- `fn search_impl<const TYPE: u8>(&self, needle: usize) -> Metric`
(`byChar = true` is `Self::CHAR`, `false` is `Self::BYTE`). -/
def searchImpl (byChar : Bool) : Internal → Nat → Option Metric
  | .leaves ms c, needle =>
    if assertInv (.leaves ms c) then searchLf byChar ms needle mzero else none
  | .node ms cs, needle =>
    if assertInv (.node ms cs) then searchIn byChar ms cs needle mzero else none
termination_by structural t _ => t
/-- The loop of `search_impl` at an internal-holding node. -/
def searchIn (byChar : Bool) :
    List Metric → IList → Nat → Metric → Option Metric
  | ms, .nil, needle, sum => searchNil byChar ms needle sum
  | [], .cons _ _, _, sum => some sum
  | m :: ms, .cons c cs, needle, sum =>
    if needle == 0 then some sum
    else
      let pos := if byChar then m.chars else m.bytes
      if needle < pos then (searchImpl byChar c needle).map (fun r => sum + r)
      else searchIn byChar ms cs (needle - pos) (sum + m)
termination_by structural _ cs _ _ => cs
end

/-- `pub(crate) fn search_byte(&self, bytes: usize)`. -/
def searchByte (t : Internal) (n : Nat) : Option Metric := searchImpl false t n

/-- `pub(crate) fn search_char(&self, chars: usize)`. -/
def searchChar (t : Internal) (n : Nat) : Option Metric := searchImpl true t n

/-- The loop of `fn add` at a leaf-holding node: locate the entry with
`char_pos <= metric.chars` and add `new` to it; falling off the end is the
`unreachable!`. -/
def addLf (new : Metric) : List Metric → Nat → Option (List Metric)
  | [], _ => none
  | m :: ms, charPos =>
    if charPos ≤ m.chars then some ((m + new) :: ms)
    else (addLf new ms (charPos - m.chars)).map (m :: ·)

/-- The loop of `fn add` at an internal-holding node once the child
vector has been exhausted (the recursion target would be out of bounds,
so every outcome is a panic). -/
def addNil : List Metric → Nat → Option (List Metric × IList)
  | [], _ => none
  | m :: ms, charPos =>
    if charPos ≤ m.chars then none
    else (addNil ms (charPos - m.chars)).map (fun p => (m :: p.1, p.2))

mutual
/-- `fn add(&mut self, char_pos: usize, new: Metric)`. -/
def addOp : Internal → Nat → Metric → Option Internal
  | .leaves ms c, charPos, new =>
    if assertInv (.leaves ms c) then
      (addLf new ms charPos).map (fun ms' => .leaves ms' c)
    else none
  | .node ms cs, charPos, new =>
    if assertInv (.node ms cs) then
      (addIn new ms cs charPos).map (fun p => .node p.1 p.2)
    else none
termination_by structural t _ _ => t
/-- The loop of `fn add` at an internal-holding node: update the summary
entry and recurse into the child. -/
def addIn (new : Metric) :
    List Metric → IList → Nat → Option (List Metric × IList)
  | ms, .nil, charPos => addNil ms charPos
  | [], .cons _ _, _ => none
  | m :: ms, .cons c cs, charPos =>
    if charPos ≤ m.chars then
      (addOp c charPos new).map (fun c' => ((m + new) :: ms, .cons c' cs))
    else
      (addIn new ms cs (charPos - m.chars)).map
        (fun p => (m :: p.1, .cons c p.2))
termination_by structural _ cs _ => cs
end

/-- The loop of `fn remove` at a leaf-holding node (`*metric -= update`
with checked `usize` subtraction). -/
def removeLf (update : Metric) : List Metric → Nat → Option (List Metric)
  | [], _ => none
  | m :: ms, charPos =>
    if charPos ≤ m.chars then (m.sub? update).map (· :: ms)
    else (removeLf update ms (charPos - m.chars)).map (m :: ·)

mutual
/-- `fn remove(&mut self, char_pos: usize, update: Metric)`. -/
def removeOp : Internal → Nat → Metric → Option Internal
  | .leaves ms c, charPos, update =>
    if assertInv (.leaves ms c) then
      (removeLf update ms charPos).map (fun ms' => .leaves ms' c)
    else none
  | .node ms cs, charPos, update =>
    if assertInv (.node ms cs) then
      (removeIn update ms cs charPos).map (fun p => .node p.1 p.2)
    else none
termination_by structural t _ _ => t
/-- The loop of `fn remove` at an internal-holding node (the exhausted
child vector case reuses `addNil`, whose outcome is a panic either way). -/
def removeIn (update : Metric) :
    List Metric → IList → Nat → Option (List Metric × IList)
  | ms, .nil, charPos => addNil ms charPos
  | [], .cons _ _, _ => none
  | m :: ms, .cons c cs, charPos =>
    if charPos ≤ m.chars then
      match m.sub? update, removeOp c charPos update with
      | some m', some c' => some (m' :: ms, .cons c' cs)
      | _, _ => none
    else
      (removeIn update ms cs (charPos - m.chars)).map
        (fun p => (m :: p.1, .cons c p.2))
termination_by structural _ cs _ => cs
end

/-- `fn insert_leaf(children, metrics, idx, needle)`: split the leaf at
`idx` into a `needle` part and the remainder, inserting a fresh leaf;
overflow splits the node at `MAX / 2`.  Returns the updated summary
vector, the updated leaf count, and the overflow node. -/
def insertLeaf (ms : List Metric) (count idx : Nat) (needle : Metric) :
    Option (List Metric × Nat × Option Internal) :=
  match ms.get? idx with
  | none => none
  | some mIdx =>
    match mIdx.sub? needle with
    | none => none
    | some newMetric =>
      match setAt? ms idx needle with
      | none => none
      | some ms1 =>
        let idx1 := idx + 1
        if count < MAXC then
          match insAt? ms1 idx1 newMetric with
          | none => none
          | some ms2 =>
            if idx1 ≤ count then some (ms2, count + 1, none) else none
        else if count = MAXC then
          let middle := MAXC / 2
          if middle ≤ ms1.length then
            let leftMs := ms1.take middle
            let rightMs := ms1.drop middle
            if idx1 < middle then
              match insAt? leftMs idx1 newMetric with
              | none => none
              | some lms =>
                some (lms, middle + 1, some (.leaves rightMs (count - middle)))
            else
              match insAt? rightMs (idx1 - middle) newMetric with
              | none => none
              | some rms =>
                some (leftMs, middle, some (.leaves rms (count - middle + 1)))
          else none
        else none

/-- `fn push_leaf(children, metrics, metric)`: append a trailing leaf,
splitting off a singleton right node on overflow. -/
def pushLeaf (ms : List Metric) (count : Nat) (metric : Metric) :
    Option (List Metric × Nat × Option Internal) :=
  if count < MAXC then some (ms ++ [metric], count + 1, none)
  else if count = MAXC then some (ms, count, some (.leaves [metric] 1))
  else none

/-- `fn insert_internal(children, metrics, idx, new_child)`: refresh the
summary of the (already updated) child at `idx`, then insert `new_child`
after it, splitting the node at `MAX / 2` on overflow. -/
def insertInternal (ms : List Metric) (cs : IList) (idx : Nat)
    (newChild : Internal) : Option (List Metric × IList × Option Internal) :=
  let len := cs.len
  match cs.get? idx with
  | none => none
  | some cIdx =>
    match setAt? ms idx cIdx.total with
    | none => none
    | some ms1 =>
      let idx1 := idx + 1
      if len < MAXC then
        match insAt? ms1 idx1 newChild.total, cs.ins? idx1 newChild with
        | some ms2, some cs2 => some (ms2, cs2, none)
        | _, _ => none
      else if len = MAXC then
        let middle := MAXC / 2
        if middle ≤ ms1.length then
          let leftMs := ms1.take middle
          let rightMs := ms1.drop middle
          let leftCs := IList.ofL (cs.toL.take middle)
          let rightCs := IList.ofL (cs.toL.drop middle)
          if idx1 < middle then
            match insAt? leftMs idx1 newChild.total,
                leftCs.ins? idx1 newChild with
            | some lms, some lcs =>
              some (lms, lcs, some (.node rightMs rightCs))
            | _, _ => none
          else
            match insAt? rightMs (idx1 - middle) newChild.total,
                rightCs.ins? (idx1 - middle) newChild with
            | some rms, some rcs => some (leftMs, leftCs, some (.node rms rcs))
            | _, _ => none
        else none
      else none

/-- The outcome of the descent loop of `insert_impl`: which child was
recursed into (or which leaf position was found) and what remains to be
applied at this node. -/
inductive InsAct where
  | noOv (idx : Nat) (c' : Internal) (inRange : Bool)
  | ovAct (idx : Nat) (c' : Internal) (nc : Internal)
  | leafIns (idx : Nat) (needleAt : Metric)
  | leafPush (residual : Metric)
deriving DecidableEq, Repr

/-- Shift an action's index by one (walking one element further). -/
def InsAct.shift : InsAct → InsAct
  | .noOv i c r => .noOv (i + 1) c r
  | .ovAct i c n => .ovAct (i + 1) c n
  | .leafIns i m => .leafIns (i + 1) m
  | .leafPush r => .leafPush r

/-- The descent loop of `insert_impl` over a leaf-holding node: find the
first entry with `needle.chars < metric.chars` (else the last entry, the
append path, where the needle is first reduced by the last metric). -/
def insGoL : List Metric → Metric → Option InsAct
  | [], _ => none
  | [m], needle =>
    if needle.chars < m.chars then some (.leafIns 0 needle)
    else (needle.sub? m).map .leafPush
  | m :: m2 :: ms, needle =>
    if needle.chars < m.chars then some (.leafIns 0 needle)
    else
      match needle.sub? m with
      | none => none
      | some needle' => (insGoL (m2 :: ms) needle').map InsAct.shift

/-- Apply an `insert_impl` action at a leaf-holding node. -/
def applyInsLeaf (ms : List Metric) (count : Nat) :
    InsAct → Option (Internal × Option Internal)
  | .leafIns idx needleAt =>
    (insertLeaf ms count idx needleAt).map
      (fun r => (.leaves r.1 r.2.1, r.2.2))
  | .leafPush residual =>
    (pushLeaf ms count residual).map (fun r => (.leaves r.1 r.2.1, r.2.2))
  | _ => none

/-- Apply an `insert_impl` action at an internal-holding node: write back
the updated child; on overflow run `insert_internal`, otherwise refresh
the last summary entry when the append path was taken (`!in_range`). -/
def applyInsNode (ms : List Metric) (cs : IList) :
    InsAct → Option (Internal × Option Internal)
  | .noOv idx c' inRange =>
    match cs.set? idx c' with
    | none => none
    | some cs1 =>
      if inRange then some (.node ms cs1, none)
      else
        match cs1.toL.getLast? with
        | none => none
        | some lastC =>
          match setAt? ms idx lastC.total with
          | none => none
          | some ms1 => some (.node ms1 cs1, none)
  | .ovAct idx c' nc =>
    match cs.set? idx c' with
    | none => none
    | some cs1 =>
      match insertInternal ms cs1 idx nc with
      | none => none
      | some r => some (.node r.1 r.2.1, r.2.2)
  | _ => none

/-- The descent loop of `insert_impl` once the child vector has been
exhausted (recursing into the found child would index out of bounds, so
every outcome is a panic). -/
def insGoNil : List Metric → Metric → Option InsAct
  | [], _ => none
  | [_], _ => none
  | m :: m2 :: ms, needle =>
    if needle.chars < m.chars then none
    else
      match needle.sub? m with
      | none => none
      | some needle' => (insGoNil (m2 :: ms) needle').map InsAct.shift

mutual
/-- `fn insert_impl(&mut self, needle: Metric) -> Option<Box<Internal>>`:
returns the updated node and the overflow sibling. -/
def insertImpl : Internal → Metric → Option (Internal × Option Internal)
  | .leaves ms c, needle =>
    if assertInv (.leaves ms c) then
      match insGoL ms needle with
      | none => none
      | some act => applyInsLeaf ms c act
    else none
  | .node ms cs, needle =>
    if assertInv (.node ms cs) then
      match insGoI ms cs needle with
      | none => none
      | some act => applyInsNode ms cs act
    else none
termination_by structural t _ => t
/-- The descent loop of `insert_impl` over an internal-holding node. -/
def insGoI : List Metric → IList → Metric → Option InsAct
  | ms, .nil, needle => insGoNil ms needle
  | [], .cons _ _, _ => none
  | [m], .cons c _, needle =>
    match insertImpl c needle with
    | none => none
    | some (c', some nc) => some (.ovAct 0 c' nc)
    | some (c', none) => some (.noOv 0 c' (needle.chars < m.chars))
  | m :: m2 :: ms, .cons c cs, needle =>
    if needle.chars < m.chars then
      match insertImpl c needle with
      | none => none
      | some (c', some nc) => some (.ovAct 0 c' nc)
      | some (c', none) => some (.noOv 0 c' true)
    else
      match needle.sub? m with
      | none => none
      | some needle' => (insGoI (m2 :: ms) cs needle').map InsAct.shift
termination_by structural _ cs _ => cs
end

/-- `pub(crate) fn insert(self: &mut Box<Self>, needle: Metric)`: on root
overflow, a new root is created with the old root and the overflow as its
two children. -/
def insertTree (t : Internal) (needle : Metric) : Option Internal :=
  (insertImpl t needle).map fun p =>
    match p.2 with
    | none => p.1
    | some right =>
      .node [p.1.total, right.total] (.cons p.1 (.cons right .nil))

/-- The merge-with-sibling step of `delete_impl` (the fall-through after
both steals refuse): merge the underfull child at `idx` with its left
neighbour (right neighbour when `idx == 0`), then report whether this node
itself fell below `MIN`. -/
def delMergeStep (ms : List Metric) (cs : IList) (idx : Nat) :
    Option (Bool × List Metric × IList) :=
  let rightIdx := if idx ≠ 0 then idx else idx + 1
  match cs.get? (rightIdx - 1), cs.get? rightIdx with
  | some left, some right =>
    match mergeSibling left right with
    | none => none
    | some merged =>
      match cs.set? (rightIdx - 1) merged with
      | none => none
      | some cs1 =>
        match cs1.rm? rightIdx with
        | none => none
        | some (_, cs2) =>
          match rmAt? ms rightIdx with
          | none => none
          | some (rightMetric, ms1) =>
            match addAt? ms1 (rightIdx - 1) rightMetric with
            | none => none
            | some ms2 => some (decide (cs2.len < MINC), ms2, cs2)
  | _, _ => none

/-- The steal-from-right step of `delete_impl`, falling through to the
merge step when the right sibling is absent or refuses. -/
def delRightStep (ms : List Metric) (cs : IList) (idx : Nat) :
    Option (Bool × List Metric × IList) :=
  match cs.get? (idx + 1) with
  | none => delMergeStep ms cs idx
  | some rightC =>
    match stealLeast rightC with
    | none => none
    | some (none, rightC') =>
      match cs.set? (idx + 1) rightC' with
      | none => none
      | some cs1 => delMergeStep ms cs1 idx
    | some (some (nd, nm), rightC') =>
      match cs.set? (idx + 1) rightC' with
      | none => none
      | some cs1 =>
        match cs1.get? idx with
        | none => none
        | some c =>
          match mergeNode c nd nm c.metricsOf.length with
          | none => none
          | some c' =>
            match cs1.set? idx c' with
            | none => none
            | some cs2 =>
              match addAt? ms idx nm with
              | none => none
              | some ms1 =>
                match subAt? ms1 (idx + 1) nm with
                | none => none
                | some ms2 => some (false, ms2, cs2)

/-- The rebalancing cascade of `delete_impl` after the child at `idx`
reported that it needs a merge: steal the greatest child of the left
sibling, else the least child of the right sibling, else merge with a
sibling. -/
def delRebalance (ms : List Metric) (cs : IList) (idx : Nat) :
    Option (Bool × List Metric × IList) :=
  match idx with
  | 0 => delRightStep ms cs 0
  | i + 1 =>
    match cs.get? i with
    | none => none
    | some leftC =>
      match stealGreatest leftC with
      | none => none
      | some (none, leftC') =>
        match cs.set? i leftC' with
        | none => none
        | some cs1 => delRightStep ms cs1 (i + 1)
      | some (some (nd, nm), leftC') =>
        match cs.set? i leftC' with
        | none => none
        | some cs1 =>
          match cs1.get? (i + 1) with
          | none => none
          | some c =>
            match mergeNode c nd nm 0 with
            | none => none
            | some c' =>
              match cs1.set? (i + 1) c' with
              | none => none
              | some cs2 =>
                match addAt? ms (i + 1) nm with
                | none => none
                | some ms1 =>
                  match subAt? ms1 i nm with
                  | none => none
                  | some ms2 => some (false, ms2, cs2)

/-- The leaf arm of `delete_impl`: remove the leaf at `idx`, folding its
metric into a neighbour; a node holding a single leaf asks its parent for
a merge instead. -/
def delLeaf (ms : List Metric) (count idx : Nat) :
    Option (Bool × List Metric × Nat) :=
  if count > 1 then
    match ms.get? idx with
    | none => none
    | some metric =>
      match (if idx = 0 then addAt? ms (idx + 1) metric
             else addAt? ms (idx - 1) metric) with
      | none => none
      | some ms1 =>
        match rmAt? ms1 idx with
        | none => none
        | some (_, ms2) => some (false, ms2, count - 1)
  else some (true, ms, count)

/-- The descent loop of `delete_impl` over a leaf-holding node: index of
the first entry with `pos.chars < metric.chars` (`pos` is reduced along
the way; falling off the end is the `unreachable!`). -/
def delFindL : List Metric → Metric → Option Nat
  | [], _ => none
  | m :: ms, pos =>
    if pos.chars < m.chars then some 0
    else
      match pos.sub? m with
      | none => none
      | some pos' => (delFindL ms pos').map (· + 1)

/-- The descent loop of `delete_impl` once the child vector has been
exhausted (every outcome is a panic). -/
def delGoNil : List Metric → Metric → Option (Nat × Bool × Internal)
  | [], _ => none
  | m :: ms, pos =>
    if pos.chars < m.chars then none
    else
      match pos.sub? m with
      | none => none
      | some pos' =>
        (delGoNil ms pos').map (fun r => (r.1 + 1, r.2.1, r.2.2))

mutual
/-- `fn delete_impl(&mut self, pos: Metric) -> bool`: the boolean reports
whether this node needs to be merged by its parent. -/
def deleteImpl : Internal → Metric → Option (Bool × Internal)
  | .leaves ms c, pos =>
    if assertInv (.leaves ms c) then
      match delFindL ms pos with
      | none => none
      | some idx =>
        (delLeaf ms c idx).map (fun r => (r.1, .leaves r.2.1 r.2.2))
    else none
  | .node ms cs, pos =>
    if assertInv (.node ms cs) then
      match delGo ms cs pos with
      | none => none
      | some (idx, b, c') =>
        match cs.set? idx c' with
        | none => none
        | some cs1 =>
          if b then
            (delRebalance ms cs1 idx).map (fun r => (r.1, .node r.2.1 r.2.2))
          else some (false, .node ms cs1)
    else none
termination_by structural t _ => t
/-- The descent loop of `delete_impl` over an internal-holding node:
find the first entry with `pos.chars < metric.chars`, recurse into that
child and return its outcome. -/
def delGo : List Metric → IList → Metric → Option (Nat × Bool × Internal)
  | ms, .nil, pos => delGoNil ms pos
  | [], .cons _ _, _ => none
  | m :: ms, .cons c cs, pos =>
    if pos.chars < m.chars then
      (deleteImpl c pos).map (fun r => (0, r.1, r.2))
    else
      match pos.sub? m with
      | none => none
      | some pos' =>
        (delGo ms cs pos').map (fun r => (r.1 + 1, r.2.1, r.2.2))
termination_by structural _ cs _ => cs
end

/-- `fn delete(self: &mut Box<Self>, pos: Metric)`: shrink the height when
the root is left needing a merge (the leaf-holding root case is the
`todo!("delete final node")`). -/
def deleteTree (t : Internal) (pos : Metric) : Option Internal :=
  match deleteImpl t pos with
  | none => none
  | some (false, t') => some t'
  | some (true, t') =>
    match t' with
    | .node ms cs =>
      if ms.length = 1 then
        if cs.len = 1 then cs.get? 0 else none
      else none
    | .leaves _ _ => none

mutual
/-- `fn delete_range(&mut self, start: Metric, end: Metric)
-> Option<NonZeroUsize>`: returns the residual need reported to the
parent and the updated node.  The two `todo!()` arms for a one-sided edge
underflow and the `todo!("merge again")` arm are panics (`none`). -/
def deleteRange : Internal → Metric → Metric → Option (Option Nat × Internal)
  | .leaves ms c, start, e =>
    if assertInv (.leaves ms c) ∧ start.chars ≤ e.chars then
      match getDeleteIndices ms start e with
      | none => none
      | some (si, ei, start', e') =>
        match ms.get? ei with
        | none => none
        | some endMetric =>
          let startDelete := if start'.bytes = 0 then si else si + 1
          let endDelete := if e'.bytes ≠ endMetric.bytes then ei else ei + 1
          if startDelete < endDelete then
            match subAt? ms ei e' with
            | none => none
            | some ms1 =>
              match setAt? ms1 si start' with
              | none => none
              | some ms2 =>
                if endDelete ≤ c then
                  match drain? ms2 startDelete endDelete with
                  | none => none
                  | some ms3 =>
                    let c' := c - (endDelete - startDelete)
                    some (nzNew (if c' = 0 then 1 else 0), .leaves ms3 c')
                else none
          else
            match (if si = ei then
                     match e'.sub? start' with
                     | none => none
                     | some d => subAt? ms si d
                   else
                     match subAt? ms ei e' with
                     | none => none
                     | some ms1 => setAt? ms1 si start') with
            | none => none
            | some ms3 =>
              some (nzNew (if c = 0 then 1 else 0), .leaves ms3 c)
    else none
  | .node ms cs, start, e =>
    if assertInv (.node ms cs) ∧ start.chars ≤ e.chars then
      match getDeleteIndices ms start e with
      | none => none
      | some (si, ei, start', e') =>
        if si = ei then
          match drOne si cs start' e' with
          | none => none
          | some (needRes, c') =>
            match cs.set? si c' with
            | none => none
            | some cs1 =>
              match setAt? ms si c'.total with
              | none => none
              | some ms1 =>
                match needRes with
                | none => some (none, .node ms1 cs1)
                | some needed =>
                  match tryStealLeft cs1 ms1 si needed with
                  | none => none
                  | some (none, cs2, ms2) => some (none, .node ms2 cs2)
                  | some (some needed1, cs2, ms2) =>
                    match tryStealRight cs2 ms2 si needed1 with
                    | none => none
                    | some (none, cs3, ms3) => some (none, .node ms3 cs3)
                    | some (some _, cs3, ms3) =>
                      match mergeChildren cs3 ms3 si with
                      | none => none
                      | some (res, cs4, ms4) => some (res, .node ms4 cs4)
        else
          match ms.get? ei with
          | none => none
          | some eiMetric =>
            let metricBytes := eiMetric.bytes
            let startDelete := if start'.bytes = 0 then si else si + 1
            let endDelete := if e'.bytes ≠ metricBytes then ei else ei + 1
            -- Both edge recursions are performed on the original child
            -- vector.  In Rust the right-edge call runs after the
            -- left-edge processing, but that processing only touches the
            -- children at `si - 1` and `si`, and `si < ei`, so the child
            -- seen at `ei` is the same value.
            match (if startDelete > si then
                     match ms.get? si with
                     | none => none
                     | some siMetric => (drOne si cs start' siMetric).map some
                   else some none :
                    Option (Option (Option Nat × Internal))) with
            | none => none
            | some resLeft =>
              match (if endDelete ≤ ei then (drOne ei cs mzero e').map some
                     else some none :
                      Option (Option (Option Nat × Internal))) with
              | none => none
              | some resRight =>
                match (match resLeft with
                       | none => some (none, ms, cs)
                       | some (needRes, cL) =>
                         match cs.set? si cL with
                         | none => none
                         | some csA =>
                           match setAt? ms si cL.total with
                           | none => none
                           | some msA =>
                             match needRes with
                             | none => some (none, msA, csA)
                             | some x =>
                               match tryStealLeft csA msA si x with
                               | none => none
                               | some (res, csB, msB) => some (res, msB, csB) :
                        Option (Option Nat × List Metric × IList)) with
                | none => none
                | some (leftNeeded, ms1, cs1) =>
                  match (match resRight with
                         | none => some (none, ms1, cs1)
                         | some (needRes, cR) =>
                           match cs1.set? ei cR with
                           | none => none
                           | some csA =>
                             match setAt? ms1 ei cR.total with
                             | none => none
                             | some msA =>
                               match needRes with
                               | none => some (none, msA, csA)
                               | some x =>
                                 match tryStealRight csA msA ei x with
                                 | none => none
                                 | some (res, csB, msB) => some (res, msB, csB) :
                          Option (Option Nat × List Metric × IList)) with
                  | none => none
                  | some (rightNeeded, ms2, cs2) =>
                    match (if startDelete < endDelete then
                             match cs2.drainAt? startDelete endDelete,
                                 drain? ms2 startDelete endDelete with
                             | some csD, some msD => some (msD, csD)
                             | _, _ => none
                           else some (ms2, cs2) :
                            Option (List Metric × IList)) with
                    | none => none
                    | some (ms3, cs3) =>
                      match leftNeeded, rightNeeded with
                      | none, none => some (none, .node ms3 cs3)
                      | none, some _ => none
                      | some _, none => none
                      | some _, some _ =>
                        if ei = si + 1 + (endDelete - startDelete) then
                          match mergeChildren cs3 ms3 (si + 1) with
                          | none => none
                          | some (_, cs4, ms4) =>
                            match cs4.get? si with
                            | none => none
                            | some cAtSi =>
                              if cAtSi.clen < MINC then none
                              else some (nzNew (MINC - cs4.len), .node ms4 cs4)
                        else none
    else none
termination_by structural t _ _ => t
/-- Walk to the child at the given index and run `delete_range` on it
(`children[idx].delete_range(start, end)`). -/
def drOne : Nat → IList → Metric → Metric → Option (Option Nat × Internal)
  | _, .nil, _, _ => none
  | 0, .cons c _, s, e => deleteRange c s e
  | n + 1, .cons _ cs, s, e => drOne n cs s e
termination_by structural _ cs _ _ => cs
end

/-!
Embedding of `src/core/object/tagged.rs`.

A `Gc<T>` is a single machine word: the low byte is the tag, the upper 56
bits are the payload (`Gc::from_ptr` stores `(addr << 8) | tag`,
`Gc::untag_ptr` recovers the payload with an arithmetic shift right by 8).
The word is modelled as its `u64` bit pattern (a `Nat` below `2^64`);
`i64` values are modelled as `Int` with explicit two's-complement
conversions.
-/

/-- `u64` bit pattern of an `i64` value (two's complement). -/
def toBits (v : Int) : Nat := (v % 2 ^ 64).toNat

/-- `i64` value of a `u64` bit pattern (two's complement). -/
def ofBits (n : Nat) : Int :=
  if n < 2 ^ 63 then (n : Int) else (n : Int) - 2 ^ 64

/-- The `Tag` enum of tagged.rs (`Symbol` must be 0 so that `nil` is the
all-zero handle). -/
inductive Tag where
  | symbol
  | int
  | float
  | cons
  | string
  | byteString
  | vec
  | record
  | hashTable
  | subrFn
  | byteFn
  | buffer
deriving DecidableEq, Repr

/-- The numeric discriminant of a tag. -/
def Tag.tagVal : Tag → Nat
  | .symbol => 0
  | .int => 1
  | .float => 2
  | .cons => 3
  | .string => 4
  | .byteString => 5
  | .vec => 6
  | .record => 7
  | .hashTable => 8
  | .subrFn => 9
  | .byteFn => 10
  | .buffer => 11

/-- A raw tagged word (the `ptr` field of `Gc<T>`, as its bit pattern). -/
structure GcRaw where
  ptr : Nat
deriving DecidableEq, Repr

/-- `Gc::from_ptr(ptr, tag)`: `(addr << 8) | tag` on the 64-bit address.
The shifted address has a zero low byte and every tag value is below 256,
so the bitwise-or is written as addition inside the wrap. -/
def fromPtr (addr : Nat) (tag : Tag) : GcRaw :=
  ⟨(addr * 2 ^ 8) % 2 ^ 64 + tag.tagVal⟩

/-- `Gc::untag_ptr`, address part: `((x as isize) >> 8) as usize` — an
arithmetic shift right by 8 of the word, as a bit pattern again. -/
def untagAddr (h : GcRaw) : Nat := toBits (Int.ediv (ofBits h.ptr) (2 ^ 8))

/-- `Gc::get_tag`: the low byte of the word. -/
def getTagVal (h : GcRaw) : Nat := h.ptr % 2 ^ 8

/-- `const MAX_FIXNUM: i64 = i64::MAX >> 8` (arithmetic shift). -/
def MAX_FIXNUM : Int := 2 ^ 55 - 1

/-- `const MIN_FIXNUM: i64 = i64::MIN >> 8` (arithmetic shift). -/
def MIN_FIXNUM : Int := -(2 ^ 55)

/-- `i64::clamp(MIN_FIXNUM, MAX_FIXNUM)`. -/
def clampFix (v : Int) : Int := max MIN_FIXNUM (min MAX_FIXNUM v)

/-- `<i64 as TaggedPtr>::get_ptr`: clamp to the fixnum range ("prevent
wrapping"), then reinterpret as a machine address (`value as usize`). -/
def i64GetPtr (v : Int) : Nat := toBits (clampFix v)

/-- `TagType::tag` for `i64`: the default `tag` goes through `tag_ptr`,
i.e. `Gc::from_ptr(get_ptr(v), Tag::Int)`. -/
def tagInt (v : Int) : GcRaw := fromPtr (i64GetPtr v) .int

/-- `<i64 as TaggedPtr>::from_obj_ptr`: `ptr.addr() as i64`. -/
def i64FromObjPtr (addr : Nat) : Int := ofBits addr

/-- `Gc::<i64>::untag`: `untag_ptr` then `from_obj_ptr`. -/
def untagInt (h : GcRaw) : Int := i64FromObjPtr (untagAddr h)

/-- Modelled from the spec: the `Type` expected-type enum of the error
module (`core/error.rs` is not part of the provided sources; §7 of the
spec describes the `TypeError` taxonomy and tagged.rs names the variants
`Type::Char`, `Type::Number`, `Type::List`, `Type::Func` …). -/
inductive Ty where
  | char
  | int
  | number
  | list
  | func
  | symbol
  | string
  | cons
  | vec
  | record
  | hashTable
  | buffer
deriving DecidableEq, Repr

/-- Modelled from the spec: `TypeError::new(expected, value)` — "a handle
was narrowed to an incompatible variant.  Carries expected type and the
value" (§7; `core/error.rs` is not part of the provided sources). -/
structure TypeError where
  expected : Ty
  value : GcRaw
deriving DecidableEq, Repr

/-- A well-formed handle, as the pair that tagging is injective on: its
tag and its 56-bit payload (`Obj.toRaw` recovers the word).  `nil` is the
symbol whose payload is 0 (`NIL` is the all-zero word). -/
structure Obj where
  tag : Tag
  addr : Nat
deriving DecidableEq, Repr

/-- The raw tagged word of a handle. -/
def Obj.toRaw (h : Obj) : GcRaw := fromPtr h.addr h.tag

/-- `Gc::ptr_eq`: `self.ptr == other.ptr`. -/
def gcPtrEq (a b : Obj) : Bool := a.toRaw == b.toRaw

/-- `impl PartialEq for Gc<T>`: raw bit patterns first, falling back to
structural comparison of the untagged values.  The structural comparison
(`ObjectType`'s `PartialEq`, which dereferences heap payloads) is the
`structEq` parameter. -/
def gcEq (structEq : Obj → Obj → Bool) (a b : Obj) : Bool :=
  a.toRaw == b.toRaw || structEq a b

/-- `impl TryFrom<Object> for Number`: accept on tags `Int` and `Float`,
else a `TypeError` carrying `Type::Number` and the value. -/
def tryFromNumber (h : Obj) : Except TypeError Obj :=
  match h.tag with
  | .int | .float => .ok h
  | _ => .error ⟨.number, h.toRaw⟩

/-- `impl TryFrom<Object> for List`: the match is on `value.untag()`,
accepting `ObjectType::NIL` (the symbol whose payload is the nil symbol,
at offset 0) and `ObjectType::Cons`, else a `TypeError` carrying
`Type::List` and the value. -/
def tryFromList (h : Obj) : Except TypeError Obj :=
  match h.tag, h.addr with
  | .symbol, 0 => .ok h
  | .cons, _ => .ok h
  | _, _ => .error ⟨.list, h.toRaw⟩

/-- `impl TryFrom<Object> for Function`: accept on tags `ByteFn`,
`SubrFn`, `Cons` and `Symbol`, else a `TypeError` carrying `Type::Func`
and the value. -/
def tryFromFunction (h : Obj) : Except TypeError Obj :=
  match h.tag with
  | .byteFn | .subrFn | .cons | .symbol => .ok h
  | _ => .error ⟨.func, h.toRaw⟩

/-- `pub(crate) fn int_to_char(int: i64) -> Result<char, TypeError>`:
`u32::try_from` then `char::from_u32`; both failures return the same
`TypeError` carrying `Type::Char` and the tagged integer.  The resulting
`char` is modelled as its scalar value. -/
def int_to_char (v : Int) : Except TypeError Nat :=
  let err : TypeError := ⟨.char, tagInt v⟩
  if 0 ≤ v ∧ v ≤ 2 ^ 32 - 1 then
    let x := v.toNat
    if x < 0xD800 ∨ (0xE000 ≤ x ∧ x ≤ 0x10FFFF) then .ok x else .error err
  else .error err

/-- `impl TagType for char`: `tag(i64::from(self as u32))`.  The `char`
argument is its scalar value. -/
def tagChar (c : Nat) : GcRaw := tagInt c

/-!
Embedding of cyclic display (claim C8).

`ObjectType::display_walk` (tagged.rs) dispatches on the variant and
threads a visited-pointer set; the cons arm lives in `core/cons.rs`,
which is not part of the provided sources.  The cons printer is therefore
modelled from the spec: "Display of cyclic structures uses an integer
back-reference notation of the form `#N` keyed by first-visit order"
(§4.1), with the dotted-pair form of scenario S6 (`display(c)` of
`(1 . c)` yields `(1 . #0)`).
-/

/-- A display-level Lisp value: an integer, the nil symbol, or a
reference to a cons cell in a finite store (the address is an index). -/
inductive LObj where
  | int (n : Int)
  | nilSym
  | consRef (a : Nat)
deriving DecidableEq, Repr

/-- A finite heap of cons cells: `store[a] = (car, cdr)`. -/
def ConsStore := List (LObj × LObj)

/-- The back-reference number of an address: its position in the
first-visit list. -/
def seenIdx (seen : List Nat) (a : Nat) : Option Nat :=
  match seen with
  | [] => none
  | b :: rest => if b = a then some 0 else (seenIdx rest a).map (· + 1)

/-- The set of store addresses not yet visited (termination measure of
the display walk). -/
def unvisited (store : ConsStore) (seen : List Nat) : Nat :=
  ((Finset.range (List.length store)).filter (fun a => a ∉ seen)).card

/-- Modelled from the spec: the cons display walk.  Integers print
themselves; a cons that was already visited prints as `#N` where `N` is
its first-visit position; otherwise the cons is added to the visited list
and printed as `(car . cdr)`.  Returns the printed string together with
the extended visited list (the sublist relation witnesses that the
visited list only grows, which also bounds the recursion). -/
def displayWalk (store : ConsStore) :
    LObj → (seen : List Nat) → { p : String × List Nat // seen.Sublist p.2 }
  | .int n, seen => ⟨(toString n, seen), List.Sublist.refl _⟩
  | .nilSym, seen => ⟨("nil", seen), List.Sublist.refl _⟩
  | .consRef a, seen =>
    match hs : seenIdx seen a with
    | some i => ⟨("#" ++ toString i, seen), List.Sublist.refl _⟩
    | none =>
      match hg : store.get? a with
      | none => ⟨("#<dead>", seen), List.Sublist.refl _⟩
      | some (car, cdr) =>
        match displayWalk store car (seen ++ [a]) with
        | ⟨(s1, seen2), h2⟩ =>
          match displayWalk store cdr seen2 with
          | ⟨(s2, seen3), h3⟩ =>
            ⟨("(" ++ s1 ++ " . " ++ s2 ++ ")", seen3),
              (((List.sublist_append_left seen [a]).trans h2).trans h3)⟩
termination_by o seen => unvisited store seen
decreasing_by
  · -- the car call: `a` is fresh and in range
    have hgen : ∀ (s : List Nat) (x : Nat), x ∈ s →
        (seenIdx s x).isSome = true := by
      intro s
      induction s with
      | nil => intro x hx; simp at hx
      | cons b rest ih =>
        intro x hx
        by_cases hb : b = x
        · simp [seenIdx, hb]
        · have hx' : x ∈ rest := by
            rcases List.mem_cons.mp hx with h | h
            · exact absurd h.symm hb
            · exact h
          have := ih x hx'
          simp only [seenIdx, if_neg hb]
          simpa using this
    have hnew : a ∉ seen := by
      intro hmem
      have := hgen seen a hmem
      rw [hs] at this
      simp at this
    have hlt : a < List.length store := List.get?_eq_some.mp hg |>.1
    unfold unvisited
    refine Finset.card_lt_card ?_
    refine Finset.ssubset_iff_of_subset ?_ |>.mpr ?_
    · intro x hx
      simp only [Finset.mem_filter, Finset.mem_range, List.mem_append] at hx ⊢
      exact ⟨hx.1, fun hm => hx.2 (Or.inl hm)⟩
    · refine ⟨a, ?_, ?_⟩
      · simp only [Finset.mem_filter, Finset.mem_range]
        exact ⟨hlt, hnew⟩
      · simp only [Finset.mem_filter, Finset.mem_range, List.mem_append,
          not_and, not_not]
        intro _
        exact Or.inr (List.mem_singleton_self a)
  · -- the cdr call: the visited list only grew past `seen ++ [a]`
    have hgen : ∀ (s : List Nat) (x : Nat), x ∈ s →
        (seenIdx s x).isSome = true := by
      intro s
      induction s with
      | nil => intro x hx; simp at hx
      | cons b rest ih =>
        intro x hx
        by_cases hb : b = x
        · simp [seenIdx, hb]
        · have hx' : x ∈ rest := by
            rcases List.mem_cons.mp hx with h | h
            · exact absurd h.symm hb
            · exact h
          have := ih x hx'
          simp only [seenIdx, if_neg hb]
          simpa using this
    have hnew : a ∉ seen := by
      intro hmem
      have := hgen seen a hmem
      rw [hs] at this
      simp at this
    have hlt : a < List.length store := List.get?_eq_some.mp hg |>.1
    have hmono : unvisited store seen2 ≤ unvisited store (seen ++ [a]) := by
      unfold unvisited
      refine Finset.card_le_card ?_
      intro x hx
      simp only [Finset.mem_filter, Finset.mem_range] at hx ⊢
      exact ⟨hx.1, fun hm => hx.2 (h2.subset hm)⟩
    have hstep : unvisited store (seen ++ [a]) < unvisited store seen := by
      unfold unvisited
      refine Finset.card_lt_card ?_
      refine Finset.ssubset_iff_of_subset ?_ |>.mpr ?_
      · intro x hx
        simp only [Finset.mem_filter, Finset.mem_range, List.mem_append] at hx ⊢
        exact ⟨hx.1, fun hm => hx.2 (Or.inl hm)⟩
      · refine ⟨a, ?_, ?_⟩
        · simp only [Finset.mem_filter, Finset.mem_range]
          exact ⟨hlt, hnew⟩
        · simp only [Finset.mem_filter, Finset.mem_range, List.mem_append,
            not_and, not_not]
          intro _
          exact Or.inr (List.mem_singleton_self a)
    omega


mutual
/-- The in-order list of leaf metrics of a tree. -/
def leafList : Internal → List Metric
  | .leaves ms _ => ms
  | .node _ cs => leafListL cs
/-- The in-order list of leaf metrics under a child vector. -/
def leafListL : IList → List Metric
  | .nil => []
  | .cons c cs => leafList c ++ leafListL cs
end

/-- Every zero-char leaf also has zero bytes (true of any real text
chunk, since every character occupies at least one byte). -/
def leafBytesOk (t : Internal) : Bool :=
  (leafList t).all (fun m => m.chars != 0 || m.bytes == 0)

/-!
Spec-side delete procedures for claim C4.  `specStealGreatest` /
`specStealLeast` / `specMergeSibling` … follow the amended description of
the rebalancing; the `claim*` variants follow the claim's words verbatim
(steal only from a sibling with more than `MIN` children, merge by
absorbing the sibling's children, shrink the root whenever it is left
with a single child).
-/

/-- Amended description of `steal_greatest`: a node can spare its
rightmost child iff it holds more than `MIN` children (internal-holding)
or more than one leaf (leaf-holding); a node at 0 or 1 internal children
(or 0 leaves) is a panic. -/
def specStealGreatest : Internal → Option (Option (RNode × Metric) × Internal)
  | .node ms cs =>
    if cs.len ≤ 1 then none
    else if MINC < cs.len then
      match ms.getLast?, cs.rm? (cs.len - 1) with
      | some m, some (c, cs') => some (some (.int c, m), .node ms.dropLast cs')
      | _, _ => none
    else some (none, .node ms cs)
  | .leaves ms c =>
    if c = 0 then none
    else if 1 < c then
      match ms.getLast? with
      | some m => some (some (.leaf, m), .leaves ms.dropLast (c - 1))
      | none => none
    else some (none, .leaves ms c)

/-- Amended description of `steal_least` (leftmost child). -/
def specStealLeast : Internal → Option (Option (RNode × Metric) × Internal)
  | .node ms cs =>
    if cs.len ≤ 1 then none
    else if MINC < cs.len then
      match ms.head?, cs.rm? 0 with
      | some m, some (c, cs') => some (some (.int c, m), .node ms.tail cs')
      | _, _ => none
    else some (none, .node ms cs)
  | .leaves ms c =>
    if c = 0 then none
    else if 1 < c then
      match ms.head? with
      | some m => some (some (.leaf, m), .leaves ms.tail (c - 1))
      | none => none
    else some (none, .leaves ms c)

/-- The claim's steal rule: the sibling must hold more than `MIN`
children, whatever its kind. -/
def claimStealGreatest : Internal → Option (Option (RNode × Metric) × Internal)
  | .node ms cs =>
    if MINC < cs.len then
      match ms.getLast?, cs.rm? (cs.len - 1) with
      | some m, some (c, cs') => some (some (.int c, m), .node ms.dropLast cs')
      | _, _ => none
    else some (none, .node ms cs)
  | .leaves ms c =>
    if MINC < c then
      match ms.getLast? with
      | some m => some (some (.leaf, m), .leaves ms.dropLast (c - 1))
      | none => none
    else some (none, .leaves ms c)

/-- The claim's steal rule, leftmost child. -/
def claimStealLeast : Internal → Option (Option (RNode × Metric) × Internal)
  | .node ms cs =>
    if MINC < cs.len then
      match ms.head?, cs.rm? 0 with
      | some m, some (c, cs') => some (some (.int c, m), .node ms.tail cs')
      | _, _ => none
    else some (none, .node ms cs)
  | .leaves ms c =>
    if MINC < c then
      match ms.head? with
      | some m => some (some (.leaf, m), .leaves ms.tail (c - 1))
      | none => none
    else some (none, .leaves ms c)

/-- The claim's merge rule: the merged node absorbs the sibling's
children and summaries. -/
def claimMergeSibling : Internal → Internal → Option Internal
  | .node lms lcs, .node rms rcs => some (.node (lms ++ rms) (lcs.append rcs))
  | .leaves lms lc, .leaves rms rc => some (.leaves (lms ++ rms) (lc + rc))
  | _, _ => none

/-- Amended description of `merge_sibling`: internal-holding nodes absorb
the sibling's children and summaries; leaf-holding nodes merge only when
each holds a single leaf, combining the two leaves into one and summing
their metrics. -/
def specMergeSibling : Internal → Internal → Option Internal
  | .node lms lcs, .node rms rcs => some (.node (lms ++ rms) (lcs.append rcs))
  | .leaves lms lc, .leaves rms rc =>
    if lc = 1 ∧ rc = 1 ∧ lms.length = 1 ∧ rms.length = 1 then
      match lms.head?, rms.head? with
      | some lm, some rm => some (.leaves [lm + rm] 1)
      | _, _ => none
    else none
  | _, _ => none

/-- Amended rebalancing, step 3: merge the underfull child with its left
sibling when one exists, otherwise with its right sibling. -/
def specMergeStep (ms : List Metric) (cs : IList) (idx : Nat) :
    Option (Bool × List Metric × IList) :=
  let rightIdx := if idx ≠ 0 then idx else idx + 1
  match cs.get? (rightIdx - 1), cs.get? rightIdx with
  | some left, some right =>
    match specMergeSibling left right with
    | none => none
    | some merged =>
      match cs.set? (rightIdx - 1) merged with
      | none => none
      | some cs1 =>
        match cs1.rm? rightIdx with
        | none => none
        | some (_, cs2) =>
          match rmAt? ms rightIdx with
          | none => none
          | some (rightMetric, ms1) =>
            match addAt? ms1 (rightIdx - 1) rightMetric with
            | none => none
            | some ms2 => some (decide (cs2.len < MINC), ms2, cs2)
  | _, _ => none

/-- Amended rebalancing, step 2: steal the leftmost child of the right
sibling when it can spare one; otherwise fall through to the merge. -/
def specRightStep (ms : List Metric) (cs : IList) (idx : Nat) :
    Option (Bool × List Metric × IList) :=
  match cs.get? (idx + 1) with
  | none => specMergeStep ms cs idx
  | some rightC =>
    match specStealLeast rightC with
    | none => none
    | some (none, rightC') =>
      match cs.set? (idx + 1) rightC' with
      | none => none
      | some cs1 => specMergeStep ms cs1 idx
    | some (some (nd, nm), rightC') =>
      match cs.set? (idx + 1) rightC' with
      | none => none
      | some cs1 =>
        match cs1.get? idx with
        | none => none
        | some c =>
          match mergeNode c nd nm c.metricsOf.length with
          | none => none
          | some c' =>
            match cs1.set? idx c' with
            | none => none
            | some cs2 =>
              match addAt? ms idx nm with
              | none => none
              | some ms1 =>
                match subAt? ms1 (idx + 1) nm with
                | none => none
                | some ms2 => some (false, ms2, cs2)

/-- Amended rebalancing cascade: steal the rightmost child of the left
sibling when it can spare one, else steal from the right sibling, else
merge with a sibling. -/
def specRebalance (ms : List Metric) (cs : IList) (idx : Nat) :
    Option (Bool × List Metric × IList) :=
  match idx with
  | 0 => specRightStep ms cs 0
  | i + 1 =>
    match cs.get? i with
    | none => none
    | some leftC =>
      match specStealGreatest leftC with
      | none => none
      | some (none, leftC') =>
        match cs.set? i leftC' with
        | none => none
        | some cs1 => specRightStep ms cs1 (i + 1)
      | some (some (nd, nm), leftC') =>
        match cs.set? i leftC' with
        | none => none
        | some cs1 =>
          match cs1.get? (i + 1) with
          | none => none
          | some c =>
            match mergeNode c nd nm 0 with
            | none => none
            | some c' =>
              match cs1.set? (i + 1) c' with
              | none => none
              | some cs2 =>
                match addAt? ms (i + 1) nm with
                | none => none
                | some ms1 =>
                  match subAt? ms1 i nm with
                  | none => none
                  | some ms2 => some (false, ms2, cs2)

mutual
/-- The amended description of `delete_impl`: the same descent, with the
rebalancing cascade as described in the amended claim. -/
def specDeleteImpl : Internal → Metric → Option (Bool × Internal)
  | .leaves ms c, pos =>
    if assertInv (.leaves ms c) then
      match delFindL ms pos with
      | none => none
      | some idx =>
        (delLeaf ms c idx).map (fun r => (r.1, .leaves r.2.1 r.2.2))
    else none
  | .node ms cs, pos =>
    if assertInv (.node ms cs) then
      match specDelGo ms cs pos with
      | none => none
      | some (idx, b, c') =>
        match cs.set? idx c' with
        | none => none
        | some cs1 =>
          if b then
            (specRebalance ms cs1 idx).map (fun r => (r.1, .node r.2.1 r.2.2))
          else some (false, .node ms cs1)
    else none
termination_by structural t _ => t
/-- The descent of the amended `delete_impl`. -/
def specDelGo : List Metric → IList → Metric → Option (Nat × Bool × Internal)
  | ms, .nil, pos => delGoNil ms pos
  | [], .cons _ _, _ => none
  | m :: ms, .cons c cs, pos =>
    if pos.chars < m.chars then
      (specDeleteImpl c pos).map (fun r => (0, r.1, r.2))
    else
      match pos.sub? m with
      | none => none
      | some pos' =>
        (specDelGo ms cs pos').map (fun r => (r.1 + 1, r.2.1, r.2.2))
termination_by structural _ cs _ => cs
end

/-- The amended description of `delete`: when the root reports a needed
merge it holds a single child; a root holding internal children is
replaced by that child (shrinking the height by one), a root holding a
single leaf is an unimplemented panic. -/
def specDeleteTree (t : Internal) (pos : Metric) : Option Internal :=
  match specDeleteImpl t pos with
  | none => none
  | some (false, t') => some t'
  | some (true, t') =>
    match t' with
    | .node ms cs =>
      if ms.length = 1 then
        if cs.len = 1 then cs.get? 0 else none
      else none
    | .leaves _ _ => none

/-- The claim's rebalancing, merge step: absorb a sibling (left when
present, else right); the parent's child count drops by one. -/
def claimMergeStep (ms : List Metric) (cs : IList) (idx : Nat) :
    Option (Bool × List Metric × IList) :=
  let rightIdx := if idx ≠ 0 then idx else idx + 1
  match cs.get? (rightIdx - 1), cs.get? rightIdx with
  | some left, some right =>
    match claimMergeSibling left right with
    | none => none
    | some merged =>
      match cs.set? (rightIdx - 1) merged with
      | none => none
      | some cs1 =>
        match cs1.rm? rightIdx with
        | none => none
        | some (_, cs2) =>
          match rmAt? ms rightIdx with
          | none => none
          | some (rightMetric, ms1) =>
            match addAt? ms1 (rightIdx - 1) rightMetric with
            | none => none
            | some ms2 => some (decide (cs2.len < MINC), ms2, cs2)
  | _, _ => none

/-- The claim's rebalancing, step 2 (right sibling with more than `MIN`
children). -/
def claimRightStep (ms : List Metric) (cs : IList) (idx : Nat) :
    Option (Bool × List Metric × IList) :=
  match cs.get? (idx + 1) with
  | none => claimMergeStep ms cs idx
  | some rightC =>
    match claimStealLeast rightC with
    | none => none
    | some (none, rightC') =>
      match cs.set? (idx + 1) rightC' with
      | none => none
      | some cs1 => claimMergeStep ms cs1 idx
    | some (some (nd, nm), rightC') =>
      match cs.set? (idx + 1) rightC' with
      | none => none
      | some cs1 =>
        match cs1.get? idx with
        | none => none
        | some c =>
          match mergeNode c nd nm c.metricsOf.length with
          | none => none
          | some c' =>
            match cs1.set? idx c' with
            | none => none
            | some cs2 =>
              match addAt? ms idx nm with
              | none => none
              | some ms1 =>
                match subAt? ms1 (idx + 1) nm with
                | none => none
                | some ms2 => some (false, ms2, cs2)

/-- The claim's rebalancing cascade (steal only from a sibling with more
than `MIN` children, whatever its kind). -/
def claimRebalance (ms : List Metric) (cs : IList) (idx : Nat) :
    Option (Bool × List Metric × IList) :=
  match idx with
  | 0 => claimRightStep ms cs 0
  | i + 1 =>
    match cs.get? i with
    | none => none
    | some leftC =>
      match claimStealGreatest leftC with
      | none => none
      | some (none, leftC') =>
        match cs.set? i leftC' with
        | none => none
        | some cs1 => claimRightStep ms cs1 (i + 1)
      | some (some (nd, nm), leftC') =>
        match cs.set? i leftC' with
        | none => none
        | some cs1 =>
          match cs1.get? (i + 1) with
          | none => none
          | some c =>
            match mergeNode c nd nm 0 with
            | none => none
            | some c' =>
              match cs1.set? (i + 1) c' with
              | none => none
              | some cs2 =>
                match addAt? ms (i + 1) nm with
                | none => none
                | some ms1 =>
                  match subAt? ms1 i nm with
                  | none => none
                  | some ms2 => some (false, ms2, cs2)

mutual
/-- `delete_impl` as the claim words it. -/
def claimDeleteImpl : Internal → Metric → Option (Bool × Internal)
  | .leaves ms c, pos =>
    if assertInv (.leaves ms c) then
      match delFindL ms pos with
      | none => none
      | some idx =>
        (delLeaf ms c idx).map (fun r => (r.1, .leaves r.2.1 r.2.2))
    else none
  | .node ms cs, pos =>
    if assertInv (.node ms cs) then
      match claimDelGo ms cs pos with
      | none => none
      | some (idx, b, c') =>
        match cs.set? idx c' with
        | none => none
        | some cs1 =>
          if b then
            (claimRebalance ms cs1 idx).map (fun r => (r.1, .node r.2.1 r.2.2))
          else some (false, .node ms cs1)
    else none
termination_by structural t _ => t
/-- The descent of the claim's `delete_impl`. -/
def claimDelGo : List Metric → IList → Metric → Option (Nat × Bool × Internal)
  | ms, .nil, pos => delGoNil ms pos
  | [], .cons _ _, _ => none
  | m :: ms, .cons c cs, pos =>
    if pos.chars < m.chars then
      (claimDeleteImpl c pos).map (fun r => (0, r.1, r.2))
    else
      match pos.sub? m with
      | none => none
      | some pos' =>
        (claimDelGo ms cs pos').map (fun r => (r.1 + 1, r.2.1, r.2.2))
termination_by structural _ cs _ => cs
end

/-- `delete` as the claim words it: whenever the root is left with a
single child, the root is replaced by that child, shrinking the height
by one (a root holding a single leaf cannot become the root, which the
claim leaves unspecified — modelled as a panic). -/
def claimDeleteTree (t : Internal) (pos : Metric) : Option Internal :=
  match claimDeleteImpl t pos with
  | none => none
  | some (_, t') =>
    if t'.clen = 1 then
      match t' with
      | .node _ cs => cs.get? 0
      | .leaves _ _ => none
    else some t'

/-!  General lemmas: metric algebra, list bridges, invariant views. -/

theorem Metric.ext' {a b : Metric} (hb : a.bytes = b.bytes)
    (hc : a.chars = b.chars) : a = b := by
  cases a; cases b; simp_all

@[simp] theorem Metric.add_bytes (a b : Metric) :
    (a + b).bytes = a.bytes + b.bytes := rfl

@[simp] theorem Metric.add_chars (a b : Metric) :
    (a + b).chars = a.chars + b.chars := rfl

@[simp] theorem mzero_bytes : mzero.bytes = 0 := rfl

@[simp] theorem mzero_chars : mzero.chars = 0 := rfl

theorem Metric.add_assoc' (a b c : Metric) : a + b + c = a + (b + c) := by
  apply Metric.ext' <;> simp [Nat.add_assoc]

theorem Metric.add_comm' (a b : Metric) : a + b = b + a := by
  apply Metric.ext' <;> simp [Nat.add_comm]

@[simp] theorem Metric.zero_add' (a : Metric) : mzero + a = a := by
  apply Metric.ext' <;> simp

@[simp] theorem Metric.add_zero' (a : Metric) : a + mzero = a := by
  apply Metric.ext' <;> simp

theorem Metric.sub?_eq_some {a b m : Metric} :
    a.sub? b = some m ↔
      b.bytes ≤ a.bytes ∧ b.chars ≤ a.chars ∧
        m = ⟨a.bytes - b.bytes, a.chars - b.chars⟩ := by
  unfold Metric.sub?
  split <;> simp_all <;> tauto

theorem Metric.sub?_add {a b m : Metric} (h : a.sub? b = some m) :
    b + m = a := by
  rw [Metric.sub?_eq_some] at h
  obtain ⟨h1, h2, rfl⟩ := h
  apply Metric.ext' <;> simp <;> omega

theorem Metric.add_sub? (a b : Metric) : (a + b).sub? b = some a := by
  rw [Metric.sub?_eq_some]
  refine ⟨by simp, by simp, ?_⟩
  apply Metric.ext' <;> simp

@[simp] theorem msum_nil : msum [] = mzero := rfl

theorem msum_foldl (z : Metric) (l : List Metric) :
    l.foldl (· + ·) z = z + msum l := by
  induction l generalizing z with
  | nil => simp [msum]
  | cons m ms ih =>
    simp only [List.foldl_cons]
    rw [ih (z + m)]
    have h2 : msum (m :: ms) = m + msum ms := by
      show List.foldl _ mzero (m :: ms) = _
      simp only [List.foldl_cons, Metric.zero_add']
      exact ih m
    rw [h2, Metric.add_assoc']

@[simp] theorem msum_cons (m : Metric) (l : List Metric) :
    msum (m :: l) = m + msum l := by
  show List.foldl _ mzero (m :: l) = m + msum l
  simp only [List.foldl_cons, Metric.zero_add']
  exact msum_foldl m l

@[simp] theorem msum_append (a b : List Metric) :
    msum (a ++ b) = msum a + msum b := by
  induction a with
  | nil => simp
  | cons m ms ih => simp [ih, Metric.add_assoc']

@[simp] theorem msum_singleton (m : Metric) : msum [m] = m := by simp

/-- Plain induction over child vectors (the mutual recursor needs both
motives spelled out). -/
theorem ilist_ind (P : IList → Prop) (hnil : P .nil)
    (hcons : ∀ c cs, P cs → P (.cons c cs)) : ∀ cs, P cs :=
  fun cs =>
    @IList.rec (fun _ => True) P (fun _ _ => trivial) (fun _ _ _ => trivial)
      hnil (fun hd tl _ ht => hcons hd tl ht) cs

/-- Strong induction over trees: a property holding for all children of
an internal-holding node holds for the node. -/
theorem internal_ind (P : Internal → Prop)
    (hl : ∀ ms c, P (.leaves ms c))
    (hn : ∀ ms cs, (∀ c ∈ cs.toL, P c) → P (.node ms cs)) : ∀ t, P t :=
  fun t =>
    @Internal.rec P (fun cs => ∀ c ∈ cs.toL, P c) hl hn
      (by intro c hc; simp [IList.toL] at hc)
      (fun hd tl hh ht => by
        intro c hc
        rcases List.mem_cons.mp hc with rfl | h
        · exact hh
        · exact ht _ h)
      t

@[simp] theorem IList.toL_ofL (l : List Internal) : (IList.ofL l).toL = l := by
  induction l with
  | nil => rfl
  | cons c cs ih => simp [IList.ofL, IList.toL, ih]

@[simp] theorem IList.ofL_toL (cs : IList) : IList.ofL cs.toL = cs := by
  induction cs using ilist_ind with
  | hnil => rfl
  | hcons c cs ih => simp [IList.ofL, IList.toL, ih]

@[simp] theorem IList.toL_nil : (IList.nil).toL = [] := rfl

@[simp] theorem IList.toL_cons (c : Internal) (cs : IList) :
    (IList.cons c cs).toL = c :: cs.toL := rfl

theorem setAt?_eq_some {l l' : List α} {i : Nat} {a : α} :
    setAt? l i a = some l' ↔ i < l.length ∧ l' = l.set i a := by
  unfold setAt?
  split <;> simp_all <;> tauto

theorem insAt?_eq_some {l l' : List α} {i : Nat} {a : α} :
    insAt? l i a = some l' ↔ i ≤ l.length ∧ l' = l.insertIdx i a := by
  unfold insAt?
  split <;> simp_all <;> tauto

theorem rmAt?_eq_some {l l' : List α} {i : Nat} {a : α} :
    rmAt? l i = some (a, l') ↔
      l.get? i = some a ∧ l' = l.eraseIdx i := by
  unfold rmAt?
  cases h : l.get? i with
  | none => simp [h]
  | some x =>
    simp only [h, Option.some.injEq, Prod.mk.injEq]
    constructor
    · rintro ⟨rfl, rfl⟩
      exact ⟨rfl, rfl⟩
    · rintro ⟨hx, rfl⟩
      cases hx
      exact ⟨rfl, rfl⟩

theorem addAt?_eq_some {ms ms' : List Metric} {i : Nat} {x : Metric} :
    addAt? ms i x = some ms' ↔
      ∃ m, ms.get? i = some m ∧ ms' = ms.set i (m + x) := by
  unfold addAt?
  cases h : ms.get? i with
  | none => simp [h]
  | some m0 =>
    have hlen : i < ms.length := (List.get?_eq_some.mp h).1
    simp only [setAt?_eq_some, hlen, true_and, h, Option.some.injEq]
    constructor
    · rintro rfl
      exact ⟨m0, rfl, rfl⟩
    · rintro ⟨m1, hm1, rfl⟩
      cases hm1
      rfl

theorem subAt?_eq_some {ms ms' : List Metric} {i : Nat} {x : Metric} :
    subAt? ms i x = some ms' ↔
      ∃ m m', ms.get? i = some m ∧ m.sub? x = some m' ∧ ms' = ms.set i m' := by
  unfold subAt?
  cases h : ms.get? i with
  | none => simp [h]
  | some m0 =>
    cases h2 : m0.sub? x with
    | none =>
      simp only [h, h2]
      constructor
      · rintro ⟨⟩
      · rintro ⟨m1, m2, hm1, hm2, _⟩
        cases Option.some.inj hm1
        simp [h2] at hm2
    | some m0' =>
      have hlen : i < ms.length := (List.get?_eq_some.mp h).1
      simp only [h, h2, setAt?_eq_some, hlen, true_and, Option.some.injEq]
      constructor
      · rintro rfl
        exact ⟨m0, m0', rfl, h2, rfl⟩
      · rintro ⟨m1, m2, hm1, hm2, rfl⟩
        cases hm1
        rw [h2] at hm2
        cases Option.some.inj hm2
        rfl

theorem wfL_iff {cs : IList} {h : Nat} :
    wfL cs h = true ↔ ∀ c ∈ cs.toL, wfH c h = true := by
  induction cs using ilist_ind with
  | hnil => simp [wfL]
  | hcons c cs ih => simp [wfL, ih, Bool.and_eq_true]

theorem wfH_leaves_iff {ms : List Metric} {c h : Nat} :
    wfH (.leaves ms c) h = true ↔
      ms.length = c ∧ ms.length ≤ MAXC ∧ h = 1 := by
  simp [wfH, Bool.and_eq_true]
  tauto

theorem wfH_node_iff {ms : List Metric} {cs : IList} {h : Nat} :
    wfH (.node ms cs) h = true ↔
      ms = cs.toL.map Internal.total ∧ cs.len ≤ MAXC ∧ 2 ≤ h ∧
        ∀ c ∈ cs.toL, wfH c (h - 1) = true := by
  simp [wfH, Bool.and_eq_true, wfL_iff]
  tauto

theorem wfAL_iff {cs : IList} {h : Nat} :
    wfAL cs h = true ↔ ∀ c ∈ cs.toL, wfA c h = true := by
  induction cs using ilist_ind with
  | hnil => simp [wfAL]
  | hcons c cs ih => simp [wfAL, ih, Bool.and_eq_true]

theorem wfA_leaves_iff {ms : List Metric} {c h : Nat} :
    wfA (.leaves ms c) h = true ↔
      ms.length = c ∧ ms.length ≤ MAXC ∧ h = 1 ∧ ms ≠ [] := by
  simp [wfA, Bool.and_eq_true]
  tauto

theorem wfA_node_iff {ms : List Metric} {cs : IList} {h : Nat} :
    wfA (.node ms cs) h = true ↔
      ms = cs.toL.map Internal.total ∧ cs.len ≤ MAXC ∧ MINC ≤ cs.len ∧
        2 ≤ h ∧ ∀ c ∈ cs.toL, wfA c (h - 1) = true := by
  simp [wfA, Bool.and_eq_true, wfAL_iff]
  tauto

theorem wfA_assertInv {t : Internal} {h : Nat} (hw : wfA t h = true) :
    assertInv t = true := by
  cases t with
  | leaves ms c =>
    rw [wfA_leaves_iff] at hw
    obtain ⟨h1, h2, _, h4⟩ := hw
    have h2' : c ≤ MAXC := h1 ▸ h2
    simp [assertInv, h1, h4, h2']
  | node ms cs =>
    rw [wfA_node_iff] at hw
    obtain ⟨hms, hmax, hmin, _, _⟩ := hw
    have hlen : ms.length = cs.len := by
      rw [hms]; simp [IList.len]
    simp [assertInv, hlen, hms.symm]
    omega

theorem wfA_wfH {t : Internal} {h : Nat} (hw : wfA t h = true) :
    wfH t h = true := by
  induction t using internal_ind generalizing h with
  | hl ms c =>
    rw [wfA_leaves_iff] at hw
    rw [wfH_leaves_iff]
    tauto
  | hn ms cs ih =>
    rw [wfA_node_iff] at hw
    rw [wfH_node_iff]
    exact ⟨hw.1, hw.2.1, hw.2.2.2.1, fun c hc => ih c hc (hw.2.2.2.2 c hc)⟩

theorem leafListL_eq (cs : IList) :
    leafListL cs = (cs.toL.map leafList).flatten := by
  induction cs using ilist_ind with
  | hnil => simp [leafListL]
  | hcons c cs ih => simp [leafListL, ih]

/-- Under `wfA`, a node's summary sum is the sum of its leaf metrics. -/
theorem total_eq_leafList {t : Internal} {h : Nat} (hw : wfA t h = true) :
    Internal.total t = msum (leafList t) := by
  induction t using internal_ind generalizing h with
  | hl ms c => rfl
  | hn ms cs ih =>
    rw [wfA_node_iff] at hw
    obtain ⟨hms, _, _, _, hall⟩ := hw
    show msum ms = msum (leafListL cs)
    rw [hms, leafListL_eq]
    have key : ∀ l : List Internal,
        (∀ c ∈ l, Internal.total c = msum (leafList c)) →
        msum (l.map Internal.total) = msum (l.map leafList).flatten := by
      intro l hl
      induction l with
      | nil => simp
      | cons c rest ihl =>
        simp only [List.map_cons, List.flatten_cons, msum_cons, msum_append]
        rw [hl c (by simp)]
        congr 1
        exact ihl (fun c hc => hl c (by simp [hc]))
    exact key cs.toL (fun c hc => ih c hc (hall c hc))

theorem msum_chars (l : List Metric) :
    (msum l).chars = (l.map Metric.chars).sum := by
  induction l with
  | nil => simp
  | cons m ms ih => simp [ih]

theorem msum_zero_chars {l : List Metric}
    (hb : ∀ m ∈ l, m.chars = 0 → m.bytes = 0)
    (hc : (msum l).chars = 0) : msum l = mzero := by
  induction l with
  | nil => rfl
  | cons m ms ih =>
    simp only [msum_cons, Metric.add_chars] at hc
    have hmc : m.chars = 0 := by omega
    have hrest : (msum ms).chars = 0 := by omega
    have := ih (fun x hx => hb x (by simp [hx])) hrest
    have hmb := hb m (by simp) hmc
    simp only [msum_cons]
    rw [this]
    apply Metric.ext' <;> simp [hmb, hmc]

theorem searchLf_boundary (j : Nat) (ms : List Metric) (sum : Metric)
    (hb : ∀ m ∈ ms, m.chars = 0 → m.bytes = 0) :
    searchLf true ms (msum (ms.take j)).chars sum =
      some (sum + msum (ms.take j)) := by
  induction ms generalizing j sum with
  | nil => simp [searchLf]
  | cons m rest ih =>
    cases j with
    | zero => simp [searchLf]
    | succ j' =>
      simp only [List.take_succ_cons, msum_cons, Metric.add_chars]
      by_cases hz : m.chars + (msum (rest.take j')).chars = 0
      · have hmc : m.chars = 0 := by omega
        have hrc : (msum (rest.take j')).chars = 0 := by omega
        have hrz : msum (rest.take j') = mzero :=
          msum_zero_chars
            (fun x hx => hb x (by simp [List.mem_of_mem_take hx]))
            hrc
        have hmb : m.bytes = 0 := hb m (by simp) hmc
        have hval : m + msum (rest.take j') = mzero := by
          rw [hrz]
          apply Metric.ext' <;> simp [hmb, hmc]
        rw [searchLf]
        simp [hz, hval]
      · rw [searchLf]
        have h1 : ((m.chars + (msum (rest.take j')).chars : Nat) == 0)
            = false := by
          simpa using hz
        have hnlt : ¬ (m.chars + (msum (rest.take j')).chars < m.chars) := by
          omega
        simp only [h1, Bool.false_eq_true, if_false, if_true]
        rw [if_neg hnlt]
        have hsub : m.chars + (msum (rest.take j')).chars - m.chars =
            (msum (rest.take j')).chars := by omega
        rw [hsub, ih j' (sum + m) (fun x hx => hb x (by simp [hx]))]
        rw [Metric.add_assoc']

theorem msum_take_le_chars (l : List Metric) (j : Nat) :
    (msum (l.take j)).chars ≤ (msum l).chars := by
  conv_rhs => rw [← List.take_append_drop j l]
  simp only [msum_append, Metric.add_chars]
  omega

theorem msum_take_of_chars_eq {l : List Metric} {j : Nat}
    (hb : ∀ m ∈ l, m.chars = 0 → m.bytes = 0)
    (h : (msum (l.take j)).chars = (msum l).chars) :
    msum (l.take j) = msum l := by
  conv_rhs => rw [← List.take_append_drop j l]
  rw [msum_append]
  have hd : (msum (l.drop j)).chars = 0 := by
    have := congrArg Metric.chars
      (msum_append (l.take j) (l.drop j))
    rw [List.take_append_drop] at this
    simp only [Metric.add_chars] at this
    omega
  have hz : msum (l.drop j) = mzero :=
    msum_zero_chars (fun x hx => hb x (List.mem_of_mem_drop hx)) hd
  rw [hz, Metric.add_zero']

theorem searchIn_boundary (hgt : Nat) :
    ∀ (cs : IList),
    (∀ c ∈ cs.toL, ∀ j : Nat,
      searchImpl true c (msum ((leafList c).take j)).chars =
        some (msum ((leafList c).take j))) →
    (∀ c ∈ cs.toL, wfA c hgt = true) →
    (∀ m ∈ leafListL cs, m.chars = 0 → m.bytes = 0) →
    ∀ (j : Nat) (sum : Metric),
    searchIn true (cs.toL.map Internal.total) cs
        (msum ((leafListL cs).take j)).chars sum =
      some (sum + msum ((leafListL cs).take j)) := by
  intro cs
  induction cs using ilist_ind with
  | hnil =>
    intro _ _ _ j sum
    simp [leafListL, searchIn, searchNil]
  | hcons c cs' ih =>
    intro hchild hwf hb j sum
    have hT : Internal.total c = msum (leafList c) :=
      total_eq_leafList (hwf c (by simp))
    have hbc : ∀ m ∈ leafList c, m.chars = 0 → m.bytes = 0 := by
      intro m hm
      exact hb m (by simp [leafListL, hm])
    have hbr : ∀ m ∈ leafListL cs', m.chars = 0 → m.bytes = 0 := by
      intro m hm
      exact hb m (by simp [leafListL, hm])
    have hsplit : (leafListL (IList.cons c cs')).take j =
        (leafList c).take j ++ (leafListL cs').take (j - (leafList c).length) := by
      simp [leafListL, List.take_append_eq_append_take]
    rw [hsplit]
    set llc := leafList c with hllc
    set rest := leafListL cs' with hrest
    have hkchars : (msum (llc.take j ++ rest.take (j - llc.length))).chars =
        (msum (llc.take j)).chars + (msum (rest.take (j - llc.length))).chars := by
      simp
    by_cases hz : (msum (llc.take j ++ rest.take (j - llc.length))).chars = 0
    · -- fast path
      have hzm : msum (llc.take j ++ rest.take (j - llc.length)) = mzero := by
        refine msum_zero_chars ?_ hz
        intro x hx
        rcases List.mem_append.mp hx with h | h
        · exact hbc x (List.mem_of_mem_take h)
        · exact hbr x (List.mem_of_mem_take h)
      rw [hz]
      simp only [IList.toL_cons, List.map_cons]
      rw [searchIn]
      simp [hzm]
    · simp only [IList.toL_cons, List.map_cons]
      rw [searchIn]
      have hpos : (if true = true then (Internal.total c).chars
          else (Internal.total c).bytes) = (Internal.total c).chars := rfl
      have hne : ((msum (llc.take j ++ rest.take (j - llc.length))).chars == 0)
          = false := by simpa using hz
      simp only [hne, Bool.false_eq_true, if_false, if_true]
      by_cases hlt : (msum (llc.take j ++ rest.take (j - llc.length))).chars <
          (Internal.total c).chars
      · -- descend into the child
        have hjlt : j < llc.length := by
          by_contra hge
          push_neg at hge
          rw [List.take_of_length_le hge, hT] at hlt
          simp only [msum_append, Metric.add_chars] at hlt
          omega
        have hj0 : j - llc.length = 0 := by omega
        rw [hj0] at hlt ⊢
        simp only [List.take_zero, List.append_nil]
        rw [if_pos (by simpa using hlt)]
        rw [hchild c (by simp) j]
        rfl
      · -- consume this child and walk on
        rw [if_neg (by simpa using hlt)]
        push_neg at hlt
        have hstep : msum (llc.take j ++ rest.take (j - llc.length)) =
            Internal.total c + msum (rest.take (j - llc.length)) := by
          rcases Nat.lt_or_ge j llc.length with hjlt | hjge
          · have hj0 : j - llc.length = 0 := by omega
            rw [hj0]
            simp only [List.take_zero, List.append_nil, Metric.add_zero']
            rw [hT]
            refine msum_take_of_chars_eq hbc ?_
            have h1 := msum_take_le_chars llc j
            rw [hj0] at hlt
            simp only [List.take_zero, List.append_nil] at hlt
            rw [hT] at hlt
            omega
          · rw [List.take_of_length_le hjge, msum_append, hT]
        rw [hstep]
        have hneedle : (Internal.total c + msum (rest.take (j - llc.length))).chars
            - (Internal.total c).chars =
            (msum (rest.take (j - llc.length))).chars := by
          simp
        rw [hneedle]
        have := ih (fun d hd => hchild d (by simp [hd]))
          (fun d hd => hwf d (by simp [hd])) hbr
          (j - llc.length) (sum + Internal.total c)
        rw [this]
        rw [Metric.add_assoc']

theorem searchImpl_boundary {t : Internal} {hgt : Nat}
    (hw : wfA t hgt = true) (hb : leafBytesOk t = true) :
    ∀ j : Nat, searchChar t ((msum ((leafList t).take j)).chars) =
      some (msum ((leafList t).take j)) := by
  induction t using internal_ind generalizing hgt with
  | hl ms c =>
    intro j
    show searchImpl true (.leaves ms c) _ = _
    rw [searchImpl]
    rw [if_pos (wfA_assertInv hw)]
    have hb' : ∀ m ∈ ms, m.chars = 0 → m.bytes = 0 := by
      intro m hm hc
      have := (List.all_eq_true.mp hb) m hm
      simp [hc] at this
      exact this
    have := searchLf_boundary j ms mzero hb'
    rw [show leafList (.leaves ms c) = ms from rfl]
    rw [this, Metric.zero_add']
  | hn ms cs ih =>
    intro j
    show searchImpl true (.node ms cs) _ = _
    rw [searchImpl]
    rw [if_pos (wfA_assertInv hw)]
    rw [wfA_node_iff] at hw
    obtain ⟨hms, _, _, _, hall⟩ := hw
    have hbl : ∀ m ∈ leafListL cs, m.chars = 0 → m.bytes = 0 := by
      intro m hm hc
      have := (List.all_eq_true.mp hb) m hm
      simp [hc] at this
      exact this
    have hchild : ∀ c ∈ cs.toL, ∀ j : Nat,
        searchImpl true c (msum ((leafList c).take j)).chars =
          some (msum ((leafList c).take j)) := by
      intro c hc j'
      refine ih c hc (hall c hc) ?_ j'
      unfold leafBytesOk
      rw [List.all_eq_true]
      intro m hm
      have hmem : m ∈ leafListL cs := by
        rw [leafListL_eq]
        exact List.mem_flatten.mpr ⟨leafList c, List.mem_map_of_mem _ hc, hm⟩
      have := hbl m hmem
      rcases Nat.eq_zero_or_pos m.chars with hz | hp
      · simp [hz, this hz]
      · simp [Nat.pos_iff_ne_zero.mp hp]
    have := searchIn_boundary (hgt - 1) cs hchild hall hbl j mzero
    rw [show leafList (.node ms cs) = leafListL cs from rfl]
    rw [hms]
    rw [this, Metric.zero_add']

/-- Claim C1 (counterexample): the claim asserts
`search_by_chars(k).chars == k` for every `k ∈ [0, total_chars]`, but for
the tree obtained by inserting the metric `(20, 10)` into a fresh tree
(leaves `(0,0)` and `(20,10)`), searching for the mid-leaf position
`k = 5` returns the cumulative metric `(0,0)` of the preceding leaves,
whose `chars` component is `0`, not `5`. -/
theorem C1_counterexample :
    insertTree newRoot ⟨20, 10⟩ =
      some (.leaves [⟨0, 0⟩, ⟨20, 10⟩] 2) ∧
    5 ≤ (Internal.total (.leaves [⟨0, 0⟩, ⟨20, 10⟩] 2)).chars ∧
    searchChar (.leaves [⟨0, 0⟩, ⟨20, 10⟩] 2) 5 = some ⟨0, 0⟩ ∧
    (⟨0, 0⟩ : Metric).chars ≠ 5 := by
  refine ⟨by decide, by decide, by decide, by decide⟩

/-- Claim C1 (amended): for every tree satisfying the maintained
structural invariant (`wfA`) whose leaves carry no bytes on zero-char
leaves, `search_by_chars` is exact on the char positions that are
cumulative leaf boundaries: searching for the char count of any leaf
prefix returns exactly that prefix's metric sum (hence `.chars == k`
there), and in particular searching for the total char count returns the
total metric of the tree (the inclusive-left / exclusive-right boundary
rule makes the search consume a child whose summary equals the remaining
needle instead of descending). -/
theorem C1_search_boundary (t : Internal) (hgt : Nat)
    (hw : wfA t hgt = true) (hb : leafBytesOk t = true) :
    (∀ j : Nat, searchChar t ((msum ((leafList t).take j)).chars) =
      some (msum ((leafList t).take j))) ∧
    searchChar t (Internal.total t).chars = some (Internal.total t) := by
  refine ⟨searchImpl_boundary hw hb, ?_⟩
  have h := searchImpl_boundary hw hb (leafList t).length
  rw [List.take_length] at h
  rw [total_eq_leafList hw]
  exact h

/-- Witness for `C1_search_boundary` at the two-leaf tree from the
counterexample: the leaf boundary `k = 10` (the total) is found exactly. -/
theorem C1_search_boundary_witness :
    wfA (.leaves [⟨0, 0⟩, ⟨20, 10⟩] 2) 1 = true ∧
    leafBytesOk (.leaves [⟨0, 0⟩, ⟨20, 10⟩] 2) = true ∧
    searchChar (.leaves [⟨0, 0⟩, ⟨20, 10⟩] 2) 10 = some ⟨20, 10⟩ := by
  refine ⟨by decide, by decide, ?_⟩
  have h := (C1_search_boundary (.leaves [⟨0, 0⟩, ⟨20, 10⟩] 2) 1
    (by decide) (by decide)).2
  simpa using h

theorem addNil_none : ∀ (ms : List Metric) (p : Nat), addNil ms p = none := by
  intro ms
  induction ms with
  | nil => intro p; rfl
  | cons m rest ih =>
    intro p
    rw [addNil]
    split
    · rfl
    · rw [ih]
      rfl

theorem addLf_spec {d : Metric} :
    ∀ {ms : List Metric} {p : Nat} {ms' : List Metric},
    addLf d ms p = some ms' →
    removeLf d ms' p = some ms ∧ msum ms' = msum ms + d ∧
      ms'.length = ms.length := by
  intro ms
  induction ms with
  | nil => intro p ms' h; simp [addLf] at h
  | cons m rest ih =>
    intro p ms' h
    rw [addLf] at h
    split at h
    · rename_i hle
      cases h
      refine ⟨?_, ?_, by simp⟩
      · rw [removeLf]
        rw [if_pos (by simp; omega)]
        rw [Metric.add_sub?]
        rfl
      · simp only [msum_cons]
        apply Metric.ext' <;> simp <;> omega
    · rename_i hgt
      rw [Option.map_eq_some'] at h
      obtain ⟨r, hr, rfl⟩ := h
      obtain ⟨h1, h2, h3⟩ := ih hr
      refine ⟨?_, ?_, by simp [h3]⟩
      · rw [removeLf]
        rw [if_neg hgt, h1]
        rfl
      · simp only [msum_cons, h2]
        apply Metric.ext' <;> simp <;> omega

theorem addIn_spec {d : Metric} :
    ∀ (cs : IList)
    (HS : ∀ c ∈ cs.toL, ∀ (p : Nat) (c' : Internal),
      addOp c p d = some c' →
      removeOp c' p d = some c ∧ Internal.total c' = Internal.total c + d)
    {ms : List Metric} {p : Nat} {ms1 : List Metric} {cs1 : IList},
    addIn d ms cs p = some (ms1, cs1) →
    removeIn d ms1 cs1 p = some (ms, cs) ∧
    (ms = cs.toL.map Internal.total → ms1 = cs1.toL.map Internal.total) ∧
    msum ms1 = msum ms + d ∧ ms1.length = ms.length ∧ cs1.len = cs.len := by
  intro cs
  induction cs using ilist_ind with
  | hnil =>
    intro _ ms p ms1 cs1 h
    rw [addIn, addNil_none] at h
    cases h
  | hcons c cs' ih =>
    intro HS ms p ms1 cs1 h
    cases ms with
    | nil => simp [addIn] at h
    | cons m msr =>
      rw [addIn] at h
      split at h
      · rename_i hle
        rw [Option.map_eq_some'] at h
        obtain ⟨c', hc', heq⟩ := h
        cases heq
        obtain ⟨hrm, htot⟩ := HS c (by simp) p c' hc'
        refine ⟨?_, ?_, ?_, by simp, by simp [IList.len]⟩
        · rw [removeIn]
          rw [if_pos (by simp; omega)]
          rw [Metric.add_sub?, hrm]
        · intro hms
          simp only [IList.toL_cons, List.map_cons] at hms ⊢
          have h1 : m = Internal.total c := (List.cons.injEq _ _ _ _ ▸ hms).1
          have h2 : msr = cs'.toL.map Internal.total :=
            (List.cons.injEq _ _ _ _ ▸ hms).2
          rw [htot, ← h1, ← h2]
        · simp only [msum_cons]
          apply Metric.ext' <;> simp <;> omega
      · rename_i hgt
        rw [Option.map_eq_some'] at h
        obtain ⟨r, hr, heq⟩ := h
        cases heq
        obtain ⟨h1, h2, h3, h4, h5⟩ :=
          ih (fun c hc => HS c (by simp [hc])) hr
        refine ⟨?_, ?_, ?_, by simp [h4],
          by simp only [IList.len, IList.toL_cons, List.length_cons] at h5 ⊢; omega⟩
        · rw [removeIn]
          rw [if_neg hgt, h1]
          rfl
        · intro hms
          simp only [IList.toL_cons, List.map_cons] at hms ⊢
          have hm : m = Internal.total c := (List.cons.injEq _ _ _ _ ▸ hms).1
          have hmsr : msr = cs'.toL.map Internal.total :=
            (List.cons.injEq _ _ _ _ ▸ hms).2
          rw [← hm, h2 hmsr]
        · simp only [msum_cons, h3]
          apply Metric.ext' <;> simp <;> omega

theorem addOp_spec {d : Metric} :
    ∀ (t : Internal) (p : Nat) (t' : Internal),
    addOp t p d = some t' →
    removeOp t' p d = some t ∧ Internal.total t' = Internal.total t + d := by
  intro t
  induction t using internal_ind with
  | hl ms c =>
    intro p t' h
    rw [addOp] at h
    split at h
    · rename_i hinv
      rw [Option.map_eq_some'] at h
      obtain ⟨ms', hms', heq⟩ := h
      cases heq
      obtain ⟨h1, h2, h3⟩ := addLf_spec hms'
      constructor
      · rw [removeOp]
        have hinv' : assertInv (.leaves ms' c) = true := by
          unfold assertInv at hinv ⊢
          simp only [Bool.and_eq_true, Bool.not_eq_true',
            List.isEmpty_eq_false] at hinv ⊢
          obtain ⟨⟨ha, hb⟩, hc⟩ := hinv
          refine ⟨⟨by rw [h3]; exact ha, by rw [h3]; exact hb⟩, ?_⟩
          intro hnil
          rw [hnil] at h3
          simp only [List.length_nil] at h3
          exact hc (List.length_eq_zero.mp h3.symm)
        rw [if_pos hinv', h1]
        rfl
      · exact h2
    · cases h
  | hn ms cs ih =>
    intro p t' h
    rw [addOp] at h
    split at h
    · rename_i hinv
      rw [Option.map_eq_some'] at h
      obtain ⟨r, hr, heq⟩ := h
      cases heq
      obtain ⟨h1, h2, h3, h4, h5⟩ := addIn_spec cs
        (fun c hc p c' hcc => ih c hc p c' hcc) hr
      have hassert := hinv
      unfold assertInv at hassert
      simp only [Bool.and_eq_true, beq_iff_eq, decide_eq_true_eq] at hassert
      obtain ⟨⟨⟨hlen, hmax⟩, hmin⟩, hmap⟩ := hassert
      constructor
      · rw [removeOp]
        have hinv' : assertInv (.node r.1 r.2) = true := by
          unfold assertInv
          simp only [Bool.and_eq_true, beq_iff_eq, decide_eq_true_eq]
          have hm' := h2 hmap.symm
          refine ⟨⟨⟨?_, ?_⟩, ?_⟩, ?_⟩
          · rw [h4, h5, hlen]
          · rw [h4]; exact hmax
          · rw [h4]; exact hmin
          · exact hm'.symm
        rw [if_pos hinv', h1]
        rfl
      · show msum r.1 = msum ms + d
        exact h3
    · cases h

/-- Claim C5: `add(p, d)` followed by `remove(p, d)` restores every
summary in the tree bitwise (whenever the `add` returns normally, so does
the `remove`, and the original tree is recovered exactly). -/
theorem C5_add_remove_inverse (t : Internal) (p : Nat) (d : Metric)
    (t' : Internal) (h : addOp t p d = some t') :
    removeOp t' p d = some t :=
  (addOp_spec t p t' h).1

/-- Witness for `C5_add_remove_inverse` on a concrete two-level tree. -/
theorem C5_add_remove_inverse_witness :
    addOp (.node [⟨4, 2⟩, ⟨8, 4⟩]
        (.cons (.leaves [⟨2, 1⟩, ⟨2, 1⟩] 2)
          (.cons (.leaves [⟨4, 2⟩, ⟨4, 2⟩] 2) .nil))) 3 ⟨2, 1⟩ =
      some (.node [⟨4, 2⟩, ⟨10, 5⟩]
        (.cons (.leaves [⟨2, 1⟩, ⟨2, 1⟩] 2)
          (.cons (.leaves [⟨6, 3⟩, ⟨4, 2⟩] 2) .nil))) ∧
    removeOp (.node [⟨4, 2⟩, ⟨10, 5⟩]
        (.cons (.leaves [⟨2, 1⟩, ⟨2, 1⟩] 2)
          (.cons (.leaves [⟨6, 3⟩, ⟨4, 2⟩] 2) .nil))) 3 ⟨2, 1⟩ =
      some (.node [⟨4, 2⟩, ⟨8, 4⟩]
        (.cons (.leaves [⟨2, 1⟩, ⟨2, 1⟩] 2)
          (.cons (.leaves [⟨4, 2⟩, ⟨4, 2⟩] 2) .nil))) := by
  refine ⟨by decide, ?_⟩
  exact C5_add_remove_inverse _ 3 ⟨2, 1⟩ _ (by decide)

theorem ediv_as_div (a b : Int) : Int.ediv a b = a / b := rfl

theorem untag_tag_eq_clamp (v : Int) : untagInt (tagInt v) = clampFix v := by
  have hp : (tagInt v).ptr =
      ((clampFix v % 2 ^ 64).toNat * 2 ^ 8) % 2 ^ 64 + 1 := rfl
  have hc1 : MIN_FIXNUM ≤ clampFix v := le_max_left _ _
  have hc2 : clampFix v ≤ MAX_FIXNUM := by
    rw [clampFix]
    rcases le_total MIN_FIXNUM (min MAX_FIXNUM v) with h | h
    · rw [max_eq_right h]; exact min_le_left _ _
    · rw [max_eq_left h]; unfold MIN_FIXNUM MAX_FIXNUM; norm_num
  unfold MIN_FIXNUM at hc1
  unfold MAX_FIXNUM at hc2
  unfold untagInt i64FromObjPtr untagAddr toBits
  rw [hp]
  simp only [ediv_as_div]
  unfold ofBits
  set c := clampFix v
  split_ifs <;> omega

/-- Claim C2: for an `i64` value inside `[MIN_FIXNUM, MAX_FIXNUM]` the
tag/untag round trip is the identity, and for any `i64` value the round
trip yields the value clamped (saturated) to that range — never a wrapped
value. -/
theorem C2_fixnum_roundtrip (v : Int) (h1 : -(2 ^ 63) ≤ v)
    (h2 : v < 2 ^ 63) :
    untagInt (tagInt v) = clampFix v ∧
    (MIN_FIXNUM ≤ v ∧ v ≤ MAX_FIXNUM → untagInt (tagInt v) = v) := by
  refine ⟨untag_tag_eq_clamp v, fun ⟨ha, hb⟩ => ?_⟩
  rw [untag_tag_eq_clamp v]
  unfold clampFix MIN_FIXNUM MAX_FIXNUM at *
  omega

/-- Witness for `C2_fixnum_roundtrip`: an in-range value round-trips to
itself and an out-of-range value saturates. -/
theorem C2_fixnum_roundtrip_witness :
    (-(2 ^ 63) ≤ (5 : Int) ∧ (5 : Int) < 2 ^ 63 ∧
      untagInt (tagInt 5) = 5) ∧
    (-(2 ^ 63) ≤ (2 ^ 60 : Int) ∧ (2 ^ 60 : Int) < 2 ^ 63 ∧
      untagInt (tagInt (2 ^ 60)) = clampFix (2 ^ 60)) := by
  refine ⟨⟨by norm_num, by norm_num, ?_⟩, ⟨by norm_num, by norm_num, ?_⟩⟩
  · exact (C2_fixnum_roundtrip 5 (by norm_num) (by norm_num)).2
      ⟨by decide, by decide⟩
  · exact (C2_fixnum_roundtrip (2 ^ 60) (by norm_num) (by norm_num)).1

/-- Claim C7: each sum view (`Number`, `List`, `Function`) accepts a
handle exactly when its tag is in the view's accepted set ({Int, Float},
{nil symbol, Cons}, {ByteFn, SubrFn, Cons, Symbol} respectively), and on
a mismatch returns a `TypeError` carrying the expected type and the
offending value. -/
theorem C7_sum_view_dispatch (h : Obj) :
    tryFromNumber h =
      (if h.tag = .int ∨ h.tag = .float then .ok h
       else .error ⟨.number, h.toRaw⟩) ∧
    tryFromList h =
      (if (h.tag = .symbol ∧ h.addr = 0) ∨ h.tag = .cons then .ok h
       else .error ⟨.list, h.toRaw⟩) ∧
    tryFromFunction h =
      (if h.tag = .byteFn ∨ h.tag = .subrFn ∨ h.tag = .cons ∨
          h.tag = .symbol then .ok h
       else .error ⟨.func, h.toRaw⟩) := by
  obtain ⟨t, a⟩ := h
  cases t <;>
    first
    | (rcases a with _ | a <;>
        simp [tryFromNumber, tryFromList, tryFromFunction])
    | simp [tryFromNumber, tryFromList, tryFromFunction]

/-- Claim C9: `ptr_eq(a, b)` implies `a == b` under handle equality
(which tries the raw bit patterns first and only falls back to the
structural comparison), and handle equality is reflexive for every
structural comparison. -/
theorem C9_ptr_eq_implies_eq (structEq : Obj → Obj → Bool) (a b : Obj)
    (h : gcPtrEq a b = true) :
    gcEq structEq a b = true ∧ gcEq structEq a a = true := by
  unfold gcPtrEq at h
  unfold gcEq
  simp only [Bool.or_eq_true]
  exact ⟨Or.inl h, Or.inl (by simp)⟩

/-- Witness for `C9_ptr_eq_implies_eq` with a structural comparison that
never succeeds: the raw-bits fast path decides equality on its own. -/
theorem C9_ptr_eq_implies_eq_witness :
    gcPtrEq ⟨.int, 5⟩ ⟨.int, 5⟩ = true ∧
    gcEq (fun _ _ => false) ⟨.int, 5⟩ ⟨.int, 5⟩ = true :=
  ⟨by decide,
    (C9_ptr_eq_implies_eq (fun _ _ => false) ⟨.int, 5⟩ ⟨.int, 5⟩
      (by decide)).1⟩

/-- Claim C10: `int_to_char(n)` succeeds exactly when `n` is
non-negative, fits in a `u32` and is a valid Unicode scalar value, and
otherwise returns a `TypeError` naming `Char` and carrying the tagged
integer; tagging a char as an integer and converting back round-trips. -/
theorem C10_int_to_char_spec (v : Int) (c : Nat)
    (hc : c < 0xD800 ∨ (0xE000 ≤ c ∧ c ≤ 0x10FFFF)) :
    int_to_char v =
      (if 0 ≤ v ∧ v ≤ 2 ^ 32 - 1 ∧
          (v.toNat < 0xD800 ∨ (0xE000 ≤ v.toNat ∧ v.toNat ≤ 0x10FFFF))
       then .ok v.toNat else .error ⟨.char, tagInt v⟩) ∧
    int_to_char (untagInt (tagChar c)) = .ok c := by
  constructor
  · simp only [int_to_char]
    split_ifs with h1 h2 h3 <;> first | rfl | (exfalso; omega)
  · have h1 : untagInt (tagChar c) = (c : Int) := by
      unfold tagChar
      rw [untag_tag_eq_clamp]
      unfold clampFix MIN_FIXNUM MAX_FIXNUM
      omega
    rw [h1]
    simp only [int_to_char]
    split_ifs with h2 h3
    · simp
    · exfalso; omega
    · exfalso; omega

/-- Witness for `C10_int_to_char_spec`: `0x110000` is rejected with a
`Char` type error and the char `A` (scalar 65) round-trips. -/
theorem C10_int_to_char_spec_witness :
    ((65 : Nat) < 0xD800 ∨ (0xE000 ≤ (65 : Nat) ∧ (65 : Nat) ≤ 0x10FFFF)) ∧
    int_to_char 0x110000 = .error ⟨.char, tagInt 0x110000⟩ ∧
    int_to_char (untagInt (tagChar 65)) = .ok 65 := by
  refine ⟨by decide, ?_, ?_⟩
  · have h := (C10_int_to_char_spec (0x110000 : Int) 65 (by decide)).1
    rw [if_neg (by decide)] at h
    exact h
  · exact (C10_int_to_char_spec 0 65 (by decide)).2

theorem displayWalk_s6_car :
    displayWalk [(LObj.int 1, LObj.consRef 0)] (.int 1) [0] =
      ⟨("1", [0]), List.Sublist.refl _⟩ := by
  apply Subtype.ext
  rw [displayWalk]
  rfl

theorem displayWalk_s6_cdr :
    displayWalk [(LObj.int 1, LObj.consRef 0)] (.consRef 0) [0] =
      ⟨("#0", [0]), List.Sublist.refl _⟩ := by
  apply Subtype.ext
  rw [displayWalk]
  rfl

/-- Claim C8: displaying the self-referential cons `c = (1 . c)`
terminates and prints the cyclic cdr as the back-reference `#0` (keyed by
first-visit order), yielding `(1 . #0)` — scenario S6. -/
theorem C8_display_cycle :
    (displayWalk [(LObj.int 1, LObj.consRef 0)] (.consRef 0) []).1.1 =
      "(1 . #0)" := by
  rw [displayWalk]
  split
  · next i hyp => simp [seenIdx] at hyp
  · split
    · next hyp => simp at hyp
    · next car cdr hyp =>
      rw [show List.get? [(LObj.int 1, LObj.consRef 0)] 0 =
        some (LObj.int 1, LObj.consRef 0) from rfl] at hyp
      cases hyp
      simp only [List.nil_append]
      rw [displayWalk_s6_car, displayWalk_s6_cdr]
      rfl

theorem stealGreatest_eq_spec (t : Internal) :
    stealGreatest t = specStealGreatest t := by
  cases t with
  | node ms cs =>
    rw [stealGreatest, specStealGreatest]
    rcases hn : cs.len with _ | _ | n
    · norm_num
    · norm_num
    · rcases n with _ | n
      · norm_num [MINC]
      · simp only [MINC]
        rw [if_neg (by omega), if_pos (by omega)]
  | leaves ms c =>
    rcases c with _ | _ | n
    · simp [stealGreatest, specStealGreatest]
    · simp [stealGreatest, specStealGreatest]
    · rw [specStealGreatest]
      rw [if_neg (by omega), if_pos (by omega)]
      simp [stealGreatest]

theorem stealLeast_eq_spec (t : Internal) :
    stealLeast t = specStealLeast t := by
  cases t with
  | node ms cs =>
    rw [stealLeast, specStealLeast]
    rcases hn : cs.len with _ | _ | n
    · norm_num
    · norm_num
    · rcases n with _ | n
      · norm_num [MINC]
      · simp only [MINC]
        rw [if_neg (by omega), if_pos (by omega)]
  | leaves ms c =>
    rcases c with _ | _ | n
    · simp [stealLeast, specStealLeast]
    · simp [stealLeast, specStealLeast]
    · rw [specStealLeast]
      rw [if_neg (by omega), if_pos (by omega)]
      simp [stealLeast]

theorem mergeSibling_eq_spec (a b : Internal) :
    mergeSibling a b = specMergeSibling a b := by
  cases a with
  | node lms lcs =>
    cases b with
    | node rms rcs => rfl
    | leaves rms rc => rfl
  | leaves lms lc =>
    cases b with
    | node rms rcs => rfl
    | leaves rms rc =>
      simp only [mergeSibling, specMergeSibling]
      by_cases h : lc = 1 ∧ rc = 1 ∧ lms.length = 1 ∧ rms.length = 1
      · obtain ⟨h1, h2, h3, h4⟩ := h
        rw [if_pos (by simp [h1, h2, h3, h4]), if_pos ⟨h1, h2, h3, h4⟩]
      · rw [if_neg (by simpa using h), if_neg h]

theorem delMergeStep_eq_spec (ms : List Metric) (cs : IList) (idx : Nat) :
    delMergeStep ms cs idx = specMergeStep ms cs idx := by
  unfold delMergeStep specMergeStep
  simp only [mergeSibling_eq_spec]

theorem delRightStep_eq_spec (ms : List Metric) (cs : IList) (idx : Nat) :
    delRightStep ms cs idx = specRightStep ms cs idx := by
  unfold delRightStep specRightStep
  simp only [stealLeast_eq_spec, delMergeStep_eq_spec]

theorem delRebalance_eq_spec (ms : List Metric) (cs : IList) (idx : Nat) :
    delRebalance ms cs idx = specRebalance ms cs idx := by
  unfold delRebalance specRebalance
  simp only [stealGreatest_eq_spec, delRightStep_eq_spec]

theorem delGo_eq_spec :
    ∀ (cs : IList),
    (∀ c ∈ cs.toL, ∀ pos, deleteImpl c pos = specDeleteImpl c pos) →
    ∀ (ms : List Metric) (pos : Metric),
      delGo ms cs pos = specDelGo ms cs pos := by
  intro cs
  induction cs using ilist_ind with
  | hnil => intro _ ms pos; rw [delGo, specDelGo]
  | hcons c cs' ih =>
    intro HS ms pos
    cases ms with
    | nil => rw [delGo, specDelGo]
    | cons m msr =>
      rw [delGo, specDelGo]
      split_ifs with h
      · rw [HS c (by simp) pos]
      · simp only [ih (fun c hc => HS c (by simp [hc]))]

theorem deleteImpl_eq_spec (t : Internal) :
    ∀ pos, deleteImpl t pos = specDeleteImpl t pos := by
  induction t using internal_ind with
  | hl ms c => intro pos; rw [deleteImpl, specDeleteImpl]
  | hn ms cs ih =>
    intro pos
    rw [deleteImpl, specDeleteImpl]
    rw [delGo_eq_spec cs ih ms pos]
    simp only [delRebalance_eq_spec]

/-- Claim C4 (amended): `delete` follows the described rebalancing order —
steal the rightmost child of the left sibling when it can spare one, else
the leftmost child of the right sibling, else merge with the left sibling
(the right one at index 0) — where an internal-holding sibling can spare
a child iff it holds more than `MIN` children but a leaf-holding sibling
iff it holds more than one leaf; a root left needing a merge holds a
single child and is replaced by it, shrinking the height by one. -/
theorem C4_rebalance_order (t : Internal) (pos : Metric) :
    deleteTree t pos = specDeleteTree t pos := by
  unfold deleteTree specDeleteTree
  rw [deleteImpl_eq_spec t pos]

/-- Counterexample to claim C4 as stated: deleting the only leaf of the
first child of `[1-leaf, 2-leaf]` makes the code steal from the
`MIN`-sized leaf-holding sibling (its threshold is one leaf, not `MIN`
children), while the claim's policy (steal only from a sibling with more
than `MIN` children) would instead merge the two children. -/
theorem C4_counterexample :
    deleteTree (.node [⟨2, 1⟩, ⟨10, 5⟩]
        (.cons (.leaves [⟨2, 1⟩] 1)
          (.cons (.leaves [⟨4, 2⟩, ⟨6, 3⟩] 2) .nil))) ⟨0, 0⟩ =
      some (.node [⟨6, 3⟩, ⟨6, 3⟩]
        (.cons (.leaves [⟨6, 3⟩] 1) (.cons (.leaves [⟨6, 3⟩] 1) .nil))) ∧
    claimDeleteTree (.node [⟨2, 1⟩, ⟨10, 5⟩]
        (.cons (.leaves [⟨2, 1⟩] 1)
          (.cons (.leaves [⟨4, 2⟩, ⟨6, 3⟩] 2) .nil))) ⟨0, 0⟩ =
      some (.leaves [⟨2, 1⟩, ⟨4, 2⟩, ⟨6, 3⟩] 3) := by decide

/-- Claim C6 (code bug): on a two-child root whose range delete spans
both children and leaves the first (edge) child with a single leaf —
fewer than `MIN` — `delete_range` returns normally, reports no residual
need to the caller, and performs no steal or merge on the underfull
child: the result violates the §3.3 invariant even though the input
satisfied it. -/
theorem C6_delete_range_edge_underflow :
    deleteRange (.node [⟨6, 3⟩, ⟨6, 3⟩]
        (.cons (.leaves [⟨2, 1⟩, ⟨2, 1⟩, ⟨2, 1⟩] 3)
          (.cons (.leaves [⟨2, 1⟩, ⟨2, 1⟩, ⟨2, 1⟩] 3) .nil)))
        ⟨2, 1⟩ ⟨8, 4⟩ =
      some (none, .node [⟨2, 1⟩, ⟨4, 2⟩]
        (.cons (.leaves [⟨2, 1⟩] 1)
          (.cons (.leaves [⟨2, 1⟩, ⟨2, 1⟩] 2) .nil))) ∧
    wfSpecH (.node [⟨6, 3⟩, ⟨6, 3⟩]
        (.cons (.leaves [⟨2, 1⟩, ⟨2, 1⟩, ⟨2, 1⟩] 3)
          (.cons (.leaves [⟨2, 1⟩, ⟨2, 1⟩, ⟨2, 1⟩] 3) .nil))) 2 true =
      true ∧
    wfSpecH (.node [⟨2, 1⟩, ⟨4, 2⟩]
        (.cons (.leaves [⟨2, 1⟩] 1)
          (.cons (.leaves [⟨2, 1⟩, ⟨2, 1⟩] 2) .nil))) 2 true = false ∧
    (1 : Nat) < MINC := by decide

theorem set_get_self {α : Type} {l : List α} {i : Nat} {a : α}
    (h : l.get? i = some a) : l.set i a = l := by
  induction l generalizing i with
  | nil => simp at h
  | cons x xs ih =>
    cases i with
    | zero =>
      simp only [List.get?_cons_zero, Option.some.injEq] at h
      simp [h]
    | succ n =>
      simp only [List.get?_cons_succ] at h
      simp [ih h]

theorem msum_set {l : List Metric} {i : Nat} {m a : Metric}
    (h : l.get? i = some m) : msum (l.set i a) + m = msum l + a := by
  induction l generalizing i with
  | nil => simp at h
  | cons x xs ih =>
    cases i with
    | zero =>
      simp only [List.get?_cons_zero, Option.some.injEq] at h
      subst h
      simp only [List.set_cons_zero, msum_cons]
      apply Metric.ext' <;> simp <;> omega
    | succ n =>
      simp only [List.get?_cons_succ] at h
      have h' := ih h
      simp only [List.set_cons_succ, msum_cons]
      have hb := congrArg Metric.bytes h'
      have hc := congrArg Metric.chars h'
      simp only [Metric.add_bytes, Metric.add_chars] at hb hc
      apply Metric.ext' <;> simp <;> omega

theorem msum_insertIdx {l : List Metric} {i : Nat} {a : Metric}
    (h : i ≤ l.length) : msum (l.insertIdx i a) = msum l + a := by
  induction l generalizing i with
  | nil =>
    have hi : i = 0 := Nat.le_zero.mp h
    subst hi
    simp [List.insertIdx]
  | cons x xs ih =>
    cases i with
    | zero =>
      simp only [List.insertIdx, msum_cons]
      apply Metric.ext' <;> simp <;> omega
    | succ n =>
      simp only [List.length_cons, Nat.succ_le_succ_iff] at h
      simp only [List.insertIdx_succ_cons, msum_cons, ih h]
      apply Metric.ext' <;> simp <;> omega

theorem msum_eraseIdx {l : List Metric} {i : Nat} {m : Metric}
    (h : l.get? i = some m) : msum (l.eraseIdx i) + m = msum l := by
  induction l generalizing i with
  | nil => simp at h
  | cons x xs ih =>
    cases i with
    | zero =>
      simp only [List.get?_cons_zero, Option.some.injEq] at h
      subst h
      simp only [List.eraseIdx_cons_zero, msum_cons]
      apply Metric.ext' <;> simp <;> omega
    | succ n =>
      simp only [List.get?_cons_succ] at h
      have h' := ih h
      simp only [List.eraseIdx_cons_succ, msum_cons]
      have hb := congrArg Metric.bytes h'
      have hc := congrArg Metric.chars h'
      simp only [Metric.add_bytes, Metric.add_chars] at hb hc
      apply Metric.ext' <;> simp <;> omega

theorem msum_take_drop (l : List Metric) (n : Nat) :
    msum (l.take n) + msum (l.drop n) = msum l := by
  rw [← msum_append, List.take_append_drop]

theorem getLast?_cons_ne_nil {α : Type} {t : List α} (h : t ≠ []) (z : α) :
    (z :: t).getLast? = t.getLast? := by
  cases t with
  | nil => exact absurd rfl h
  | cons y ys => rfl

theorem getLast_set_last {α : Type} {l : List α} {a : α} (h : l ≠ []) :
    (l.set (l.length - 1) a).getLast? = some a := by
  induction l with
  | nil => simp at h
  | cons x xs ih =>
    cases xs with
    | nil => rfl
    | cons y ys =>
      have hlen : (x :: y :: ys).length - 1 = ((y :: ys).length - 1) + 1 := by
        simp
      rw [hlen, List.set_cons_succ]
      rw [getLast?_cons_ne_nil]
      · exact ih (by simp)
      · intro hc
        have hl := congrArg List.length hc
        simp at hl

theorem removeLf_spec {d : Metric} :
    ∀ {ms : List Metric} {p : Nat} {ms' : List Metric},
    removeLf d ms p = some ms' →
    msum ms' + d = msum ms ∧ ms'.length = ms.length := by
  intro ms
  induction ms with
  | nil => intro p ms' h; simp [removeLf] at h
  | cons m rest ih =>
    intro p ms' h
    rw [removeLf] at h
    split at h
    · rw [Option.map_eq_some'] at h
      obtain ⟨m', hm', rfl⟩ := h
      have hadd := Metric.sub?_add hm'
      refine ⟨?_, by simp⟩
      have hb := congrArg Metric.bytes hadd
      have hc := congrArg Metric.chars hadd
      simp only [Metric.add_bytes, Metric.add_chars] at hb hc
      simp only [msum_cons]
      apply Metric.ext' <;> simp <;> omega
    · rw [Option.map_eq_some'] at h
      obtain ⟨r, hr, rfl⟩ := h
      obtain ⟨h1, h2⟩ := ih hr
      refine ⟨?_, by simp [h2]⟩
      have hb := congrArg Metric.bytes h1
      have hc := congrArg Metric.chars h1
      simp only [Metric.add_bytes, Metric.add_chars] at hb hc
      simp only [msum_cons]
      apply Metric.ext' <;> simp <;> omega

theorem removeIn_spec {d : Metric} :
    ∀ (cs : IList)
    (HS : ∀ c ∈ cs.toL, ∀ (p : Nat) (c' : Internal),
      removeOp c p d = some c' →
      Internal.total c' + d = Internal.total c)
    {ms : List Metric} {p : Nat} {ms1 : List Metric} {cs1 : IList},
    removeIn d ms cs p = some (ms1, cs1) →
    (ms = cs.toL.map Internal.total → ms1 = cs1.toL.map Internal.total) ∧
    msum ms1 + d = msum ms ∧ ms1.length = ms.length ∧ cs1.len = cs.len := by
  intro cs
  induction cs using ilist_ind with
  | hnil =>
    intro _ ms p ms1 cs1 h
    rw [removeIn, addNil_none] at h
    cases h
  | hcons c cs' ih =>
    intro HS ms p ms1 cs1 h
    cases ms with
    | nil => simp [removeIn] at h
    | cons m msr =>
      rw [removeIn] at h
      split at h
      · rename_i hle
        cases hsub : m.sub? d with
        | none => simp only [hsub] at h; cases h
        | some m' =>
          cases hrm : removeOp c p d with
          | none => simp only [hsub, hrm] at h; cases h
          | some c' =>
            simp only [hsub, hrm, Option.some.injEq, Prod.mk.injEq] at h
            obtain ⟨rfl, rfl⟩ := h
            have htot := HS c (by simp) p c' hrm
            have hadd := Metric.sub?_add hsub
            refine ⟨?_, ?_, by simp, by simp [IList.len]⟩
            · intro hms
              simp only [IList.toL_cons, List.map_cons] at hms ⊢
              have h1 : m = Internal.total c :=
                (List.cons.injEq _ _ _ _ ▸ hms).1
              have h2 : msr = cs'.toL.map Internal.total :=
                (List.cons.injEq _ _ _ _ ▸ hms).2
              have hm' : m' = Internal.total c' := by
                have hb := congrArg Metric.bytes htot
                have hc := congrArg Metric.chars htot
                have hb2 := congrArg Metric.bytes hadd
                have hc2 := congrArg Metric.chars hadd
                simp only [Metric.add_bytes, Metric.add_chars] at hb hc hb2 hc2
                rw [h1] at hb2 hc2
                apply Metric.ext' <;> omega
              rw [hm', ← h2]
            · have hb := congrArg Metric.bytes hadd
              have hc := congrArg Metric.chars hadd
              simp only [Metric.add_bytes, Metric.add_chars] at hb hc
              simp only [msum_cons]
              apply Metric.ext' <;> simp <;> omega
      · rename_i hgt
        rw [Option.map_eq_some'] at h
        obtain ⟨r, hr, heq⟩ := h
        cases heq
        obtain ⟨h1, h2, h3, h4⟩ :=
          ih (fun c hc => HS c (by simp [hc])) hr
        refine ⟨?_, ?_, by simp [h3],
          by simp only [IList.len, IList.toL_cons, List.length_cons] at h4 ⊢; omega⟩
        · intro hms
          simp only [IList.toL_cons, List.map_cons] at hms ⊢
          have hm : m = Internal.total c := (List.cons.injEq _ _ _ _ ▸ hms).1
          have hmsr : msr = cs'.toL.map Internal.total :=
            (List.cons.injEq _ _ _ _ ▸ hms).2
          rw [← hm, h1 hmsr]
        · have hb := congrArg Metric.bytes h2
          have hc := congrArg Metric.chars h2
          simp only [Metric.add_bytes, Metric.add_chars] at hb hc
          simp only [msum_cons]
          apply Metric.ext' <;> simp <;> omega

theorem removeOp_total :
    ∀ (t : Internal) (p : Nat) {d : Metric} (t' : Internal),
    removeOp t p d = some t' →
    Internal.total t' + d = Internal.total t := by
  intro t
  induction t using internal_ind with
  | hl ms c =>
    intro p d t' h
    rw [removeOp] at h
    split at h
    · rw [Option.map_eq_some'] at h
      obtain ⟨ms', hms', rfl⟩ := h
      exact (removeLf_spec hms').1
    · cases h
  | hn ms cs ih =>
    intro p d t' h
    rw [removeOp] at h
    split at h
    · rw [Option.map_eq_some'] at h
      obtain ⟨r, hr, rfl⟩ := h
      exact (removeIn_spec cs (fun c hc p c' hcc => ih c hc p c' hcc) hr).2.1
    · cases h

theorem addIn_wfL {d : Metric} {hh : Nat} :
    ∀ (cs : IList)
    (HS : ∀ c ∈ cs.toL, ∀ (p : Nat) (c' : Internal),
      wfH c hh = true → addOp c p d = some c' → wfH c' hh = true)
    {ms : List Metric} {p : Nat} {ms1 : List Metric} {cs1 : IList},
    addIn d ms cs p = some (ms1, cs1) →
    (∀ c ∈ cs.toL, wfH c hh = true) →
    ∀ c ∈ cs1.toL, wfH c hh = true := by
  intro cs
  induction cs using ilist_ind with
  | hnil =>
    intro _ ms p ms1 cs1 h
    rw [addIn, addNil_none] at h
    cases h
  | hcons c cs' ih =>
    intro HS ms p ms1 cs1 h hw
    cases ms with
    | nil => simp [addIn] at h
    | cons m msr =>
      rw [addIn] at h
      split at h
      · rw [Option.map_eq_some'] at h
        obtain ⟨c', hc', heq⟩ := h
        cases heq
        intro x hx
        simp only [IList.toL_cons, List.mem_cons] at hx
        rcases hx with rfl | hx
        · exact HS c (by simp) p x (hw c (by simp)) hc'
        · exact hw x (by simp [hx])
      · rw [Option.map_eq_some'] at h
        obtain ⟨r, hr, heq⟩ := h
        cases heq
        intro x hx
        simp only [IList.toL_cons, List.mem_cons] at hx
        rcases hx with rfl | hx
        · exact hw x (by simp)
        · exact ih (fun c hc => HS c (by simp [hc])) hr
            (fun c hc => hw c (by simp [hc])) x hx

theorem removeIn_wfL {d : Metric} {hh : Nat} :
    ∀ (cs : IList)
    (HS : ∀ c ∈ cs.toL, ∀ (p : Nat) (c' : Internal),
      wfH c hh = true → removeOp c p d = some c' → wfH c' hh = true)
    {ms : List Metric} {p : Nat} {ms1 : List Metric} {cs1 : IList},
    removeIn d ms cs p = some (ms1, cs1) →
    (∀ c ∈ cs.toL, wfH c hh = true) →
    ∀ c ∈ cs1.toL, wfH c hh = true := by
  intro cs
  induction cs using ilist_ind with
  | hnil =>
    intro _ ms p ms1 cs1 h
    rw [removeIn, addNil_none] at h
    cases h
  | hcons c cs' ih =>
    intro HS ms p ms1 cs1 h hw
    cases ms with
    | nil => simp [removeIn] at h
    | cons m msr =>
      rw [removeIn] at h
      split at h
      · cases hsub : m.sub? d with
        | none => simp only [hsub] at h; cases h
        | some m' =>
          cases hrm : removeOp c p d with
          | none => simp only [hsub, hrm] at h; cases h
          | some c' =>
            simp only [hsub, hrm, Option.some.injEq, Prod.mk.injEq] at h
            obtain ⟨rfl, rfl⟩ := h
            intro x hx
            simp only [IList.toL_cons, List.mem_cons] at hx
            rcases hx with rfl | hx
            · exact HS c (by simp) p x (hw c (by simp)) hrm
            · exact hw x (by simp [hx])
      · rw [Option.map_eq_some'] at h
        obtain ⟨r, hr, heq⟩ := h
        cases heq
        intro x hx
        simp only [IList.toL_cons, List.mem_cons] at hx
        rcases hx with rfl | hx
        · exact hw x (by simp)
        · exact ih (fun c hc => HS c (by simp [hc])) hr
            (fun c hc => hw c (by simp [hc])) x hx

theorem addOp_wfH {d : Metric} :
    ∀ (t : Internal) {h : Nat} (p : Nat) (t' : Internal),
    wfH t h = true → addOp t p d = some t' → wfH t' h = true := by
  intro t
  induction t using internal_ind with
  | hl ms c =>
    intro h p t' hw hs
    rw [addOp] at hs
    split at hs
    · rw [Option.map_eq_some'] at hs
      obtain ⟨ms', hms', rfl⟩ := hs
      rw [wfH_leaves_iff] at hw ⊢
      have h3 := (addLf_spec hms').2.2
      exact ⟨h3.trans hw.1, h3 ▸ hw.2.1, hw.2.2⟩
    · cases hs
  | hn ms cs ih =>
    intro h p t' hw hs
    rw [addOp] at hs
    split at hs
    · rw [Option.map_eq_some'] at hs
      obtain ⟨r, hr, rfl⟩ := hs
      rw [wfH_node_iff] at hw ⊢
      obtain ⟨hms, hmax, hh2, hall⟩ := hw
      obtain ⟨_, hmap, _, _, hlen⟩ := addIn_spec cs
        (fun c _ p c' hcc => addOp_spec c p c' hcc) hr
      refine ⟨hmap hms, hlen ▸ hmax, hh2, ?_⟩
      exact addIn_wfL cs (fun c hc p c' hwc hcc => ih c hc p c' hwc hcc)
        hr hall
    · cases hs

theorem removeOp_wfH {d : Metric} :
    ∀ (t : Internal) {h : Nat} (p : Nat) (t' : Internal),
    wfH t h = true → removeOp t p d = some t' → wfH t' h = true := by
  intro t
  induction t using internal_ind with
  | hl ms c =>
    intro h p t' hw hs
    rw [removeOp] at hs
    split at hs
    · rw [Option.map_eq_some'] at hs
      obtain ⟨ms', hms', rfl⟩ := hs
      rw [wfH_leaves_iff] at hw ⊢
      have h3 := (removeLf_spec hms').2
      exact ⟨h3.trans hw.1, h3 ▸ hw.2.1, hw.2.2⟩
    · cases hs
  | hn ms cs ih =>
    intro h p t' hw hs
    rw [removeOp] at hs
    split at hs
    · rw [Option.map_eq_some'] at hs
      obtain ⟨r, hr, rfl⟩ := hs
      rw [wfH_node_iff] at hw ⊢
      obtain ⟨hms, hmax, hh2, hall⟩ := hw
      obtain ⟨hmap, _, _, hlen⟩ := removeIn_spec cs
        (fun c _ p c' hcc => removeOp_total c p c' hcc) hr
      refine ⟨hmap hms, hlen ▸ hmax, hh2, ?_⟩
      exact removeIn_wfL cs (fun c hc p c' hwc hcc => ih c hc p c' hwc hcc)
        hr hall
    · cases hs

theorem map_insertIdx {α β : Type} (f : α → β) :
    ∀ (l : List α) (i : Nat) (a : α),
    (l.insertIdx i a).map f = (l.map f).insertIdx i (f a) := by
  intro l
  induction l with
  | nil =>
    intro i a
    cases i <;> simp [List.insertIdx]
  | cons x xs ih =>
    intro i a
    cases i with
    | zero => simp [List.insertIdx]
    | succ n => simp [List.insertIdx_succ_cons, ih]

theorem dropLast_eq_erase_last {α : Type} :
    ∀ (l : List α), l.dropLast = l.eraseIdx (l.length - 1) := by
  intro l
  induction l with
  | nil => rfl
  | cons x xs ih =>
    cases xs with
    | nil => rfl
    | cons y ys =>
      show (x :: y :: ys).dropLast = (x :: y :: ys).eraseIdx ((ys.length + 1 + 1) - 1)
      rw [List.dropLast_cons₂, show (ys.length + 1 + 1) - 1 = ys.length + 1 from rfl,
        List.eraseIdx_cons_succ]
      have := ih
      rw [show (y :: ys).length - 1 = ys.length from rfl] at this
      rw [this]

theorem head?_eq_get0 {α : Type} (l : List α) : l.head? = l.get? 0 := by
  cases l <;> rfl

theorem tail_eq_erase0 {α : Type} (l : List α) : l.tail = l.eraseIdx 0 := by
  cases l <;> rfl

theorem msum_dropLast {l : List Metric} {m : Metric}
    (h : l.getLast? = some m) : msum l.dropLast + m = msum l := by
  rw [dropLast_eq_erase_last]
  exact msum_eraseIdx (by rw [← List.getLast?_eq_get?]; exact h)

theorem get?_eraseIdx_lt {α : Type} :
    ∀ (l : List α) (i j : Nat), j < i → (l.eraseIdx i).get? j = l.get? j := by
  intro l
  induction l with
  | nil => intro i j _; simp [List.eraseIdx]
  | cons x xs ih =>
    intro i j hj
    cases i with
    | zero => omega
    | succ n =>
      rw [List.eraseIdx_cons_succ]
      cases j with
      | zero => rfl
      | succ k =>
        simp only [List.get?_cons_succ]
        exact ih n k (by omega)

theorem set_eraseIdx_comm {α : Type} :
    ∀ (l : List α) (i j : Nat) (a : α), j < i →
    (l.set j a).eraseIdx i = (l.eraseIdx i).set j a := by
  intro l
  induction l with
  | nil => intro i j a _; simp [List.eraseIdx]
  | cons x xs ih =>
    intro i j a hj
    cases i with
    | zero => omega
    | succ n =>
      cases j with
      | zero => simp [List.eraseIdx_cons_succ]
      | succ k =>
        simp only [List.set_cons_succ, List.eraseIdx_cons_succ]
        rw [ih n k a (by omega)]

theorem IList.get?_toL (cs : IList) (i : Nat) : cs.get? i = cs.toL.get? i :=
  rfl

theorem IList.len_toL (cs : IList) : cs.len = cs.toL.length := rfl

theorem IList.toL_inj {cs ds : IList} (h : cs.toL = ds.toL) : cs = ds := by
  have h2 := congrArg IList.ofL h
  simpa using h2

theorem IList.set?_eq_some {cs cs1 : IList} {i : Nat} {c : Internal} :
    cs.set? i c = some cs1 ↔ i < cs.len ∧ cs1.toL = cs.toL.set i c := by
  unfold IList.set?
  rw [Option.map_eq_some']
  constructor
  · rintro ⟨l, hl, rfl⟩
    rw [setAt?_eq_some] at hl
    exact ⟨hl.1, by simp [hl.2]⟩
  · rintro ⟨hi, hL⟩
    refine ⟨cs.toL.set i c, setAt?_eq_some.mpr ⟨hi, rfl⟩, ?_⟩
    have : IList.ofL (cs.toL.set i c) = IList.ofL cs1.toL := by rw [hL]
    simpa using this

theorem IList.rm?_eq_some {cs cs1 : IList} {i : Nat} {c : Internal} :
    cs.rm? i = some (c, cs1) ↔
      cs.toL.get? i = some c ∧ cs1.toL = cs.toL.eraseIdx i := by
  unfold IList.rm?
  rw [Option.map_eq_some']
  constructor
  · rintro ⟨p, hp, heq⟩
    rw [rmAt?_eq_some] at hp
    cases heq
    exact ⟨hp.1, by simp [hp.2]⟩
  · rintro ⟨hg, hL⟩
    refine ⟨(c, cs.toL.eraseIdx i), rmAt?_eq_some.mpr ⟨hg, rfl⟩, ?_⟩
    have h2 : IList.ofL (cs.toL.eraseIdx i) = cs1 := by
      have h3 : IList.ofL (cs.toL.eraseIdx i) = IList.ofL cs1.toL := by
        rw [hL]
      simpa using h3
    simp [h2]

theorem IList.ins?_eq_some {cs cs1 : IList} {i : Nat} {c : Internal} :
    cs.ins? i c = some cs1 ↔
      i ≤ cs.len ∧ cs1.toL = cs.toL.insertIdx i c := by
  unfold IList.ins?
  rw [Option.map_eq_some']
  constructor
  · rintro ⟨l, hl, rfl⟩
    rw [insAt?_eq_some] at hl
    exact ⟨hl.1, by simp [hl.2]⟩
  · rintro ⟨hi, hL⟩
    refine ⟨cs.toL.insertIdx i c, insAt?_eq_some.mpr ⟨hi, rfl⟩, ?_⟩
    have : IList.ofL (cs.toL.insertIdx i c) = IList.ofL cs1.toL := by rw [hL]
    simpa using this

theorem delLeaf_inner {ms ms1 : List Metric} {idx : Nat} {metric : Metric}
    {b : Bool} {ms2 : List Metric} {cc c2 : Nat}
    (hget : ms1.get? idx = some metric)
    (hsum : msum ms1 = msum ms + metric) (hl : ms1.length = ms.length)
    (h : (match rmAt? ms1 idx with
          | none => none
          | some (_, x) => some (false, x, cc)) = some (b, ms2, c2)) :
    ms2.length = ms.length - 1 ∧ msum ms2 = msum ms ∧ b = false ∧
      c2 = cc := by
  cases hr : rmAt? ms1 idx with
  | none => rw [hr] at h; cases h
  | some p =>
    obtain ⟨x, msE⟩ := p
    rw [hr] at h
    simp only [Option.some.injEq, Prod.mk.injEq] at h
    obtain ⟨hb', hm2, hc2⟩ := h
    rw [rmAt?_eq_some] at hr
    obtain ⟨hx, hE⟩ := hr
    have hxm : x = metric := by
      rw [hget] at hx; exact (Option.some.inj hx).symm
    subst hxm
    have hidx : idx < ms1.length := (List.get?_eq_some.mp hget).1
    have hsE := msum_eraseIdx hget
    rw [← hm2, ← hc2, ← hb']
    refine ⟨?_, ?_, rfl, rfl⟩
    · rw [hE, List.length_eraseIdx_of_lt hidx, hl]
    · rw [hE]
      have hb2 := congrArg Metric.bytes hsE
      have hc3 := congrArg Metric.chars hsE
      have hb4 := congrArg Metric.bytes hsum
      have hc4 := congrArg Metric.chars hsum
      simp only [Metric.add_bytes, Metric.add_chars] at hb2 hc3 hb4 hc4
      apply Metric.ext' <;> omega

theorem delAdd_facts {ms ms1 : List Metric} {idx j : Nat} {metric : Metric}
    (hg : ms.get? idx = some metric) (hne : j ≠ idx)
    (hadd : addAt? ms j metric = some ms1) :
    ms1.get? idx = some metric ∧ msum ms1 = msum ms + metric ∧
      ms1.length = ms.length := by
  rw [addAt?_eq_some] at hadd
  obtain ⟨mj, hmj, rfl⟩ := hadd
  refine ⟨?_, ?_, by simp⟩
  · rw [List.get?_set_ne _ _ hne]
    exact hg
  · have hset := msum_set hmj (a := mj + metric)
    have hb := congrArg Metric.bytes hset
    have hcx := congrArg Metric.chars hset
    simp only [Metric.add_bytes, Metric.add_chars] at hb hcx
    apply Metric.ext' <;> simp <;> omega

theorem delLeaf_spec {ms : List Metric} {c idx : Nat} {b : Bool}
    {ms2 : List Metric} {c2 : Nat}
    (hlen : ms.length = c) (hc : 1 ≤ c)
    (h : delLeaf ms c idx = some (b, ms2, c2)) :
    ms2.length = c2 ∧ c2 ≤ c ∧ 1 ≤ c2 ∧ msum ms2 = msum ms ∧
      (b = true → c2 = 1) := by
  unfold delLeaf at h
  split_ifs at h with hgt hz
  · split at h
    · cases h
    · rename_i metric hg
      split at h
      · cases h
      · rename_i ms1 hj
        obtain ⟨k1, k2, k3⟩ := delAdd_facts hg (by omega) hj
        obtain ⟨r1, r2, r3, r4⟩ := delLeaf_inner k1 k2 k3 h
        subst r3 r4
        refine ⟨by omega, by omega, by omega, r2, by simp⟩
  · split at h
    · cases h
    · rename_i metric hg
      split at h
      · cases h
      · rename_i ms1 hj
        obtain ⟨k1, k2, k3⟩ := delAdd_facts hg (by omega) hj
        obtain ⟨r1, r2, r3, r4⟩ := delLeaf_inner k1 k2 k3 h
        subst r3 r4
        refine ⟨by omega, by omega, by omega, r2, by simp⟩
  · simp only [Option.some.injEq, Prod.mk.injEq] at h
    obtain ⟨hb', hm2, hc2⟩ := h
    rw [← hm2, ← hc2, ← hb']
    exact ⟨hlen, le_refl _, hc, rfl, fun _ => by omega⟩

theorem delGoNil_none : ∀ (ms : List Metric) (pos : Metric),
    delGoNil ms pos = none := by
  intro ms
  induction ms with
  | nil => intro pos; rfl
  | cons m rest ih =>
    intro pos
    rw [delGoNil]
    split
    · rfl
    · cases h : pos.sub? m with
      | none => rfl
      | some pos' => simp [ih]

theorem delGo_char :
    ∀ (cs : IList) {ms : List Metric} {pos : Metric} {idx : Nat} {b : Bool}
      {c' : Internal},
    delGo ms cs pos = some (idx, b, c') →
    ∃ c pos', cs.get? idx = some c ∧ deleteImpl c pos' = some (b, c') := by
  intro cs
  induction cs using ilist_ind with
  | hnil =>
    intro ms pos idx b c' h
    rw [delGo, delGoNil_none] at h
    cases h
  | hcons c cs' ih =>
    intro ms pos idx b c' h
    cases ms with
    | nil => simp [delGo] at h
    | cons m msr =>
      rw [delGo] at h
      split_ifs at h with hlt
      · rw [Option.map_eq_some'] at h
        obtain ⟨r, hr, heq⟩ := h
        simp only [Prod.mk.injEq] at heq
        obtain ⟨h0, hb, hc'⟩ := heq
        subst h0
        refine ⟨c, pos, by simp [IList.get?_toL], ?_⟩
        rw [← hb, ← hc']
        exact hr
      · cases hs : pos.sub? m with
        | none => rw [hs] at h; cases h
        | some pos1 =>
          rw [hs] at h
          rw [Option.map_eq_some'] at h
          obtain ⟨r, hr, heq⟩ := h
          simp only [Prod.mk.injEq] at heq
          obtain ⟨h0, hb, hc'⟩ := heq
          obtain ⟨c0, pos', hg, hd⟩ := ih hr
          refine ⟨c0, pos', ?_, by rw [← hb, ← hc']; exact hd⟩
          rw [← h0]
          simpa [IList.get?_toL] using hg

theorem map_eraseIdx {α β : Type} (f : α → β) :
    ∀ (l : List α) (i : Nat),
    (l.eraseIdx i).map f = (l.map f).eraseIdx i := by
  intro l
  induction l with
  | nil => intro i; simp [List.eraseIdx]
  | cons x xs ih =>
    intro i
    cases i with
    | zero => simp [List.eraseIdx]
    | succ n => simp only [List.eraseIdx_cons_succ, List.map_cons, ih]

theorem stealGreatest_spec {s : Internal} {hh : Nat}
    {res : Option (RNode × Metric)} {s' : Internal}
    (hw : wfH s hh = true) (h : stealGreatest s = some (res, s')) :
    (res = none → s' = s ∧ s.clen ≤ MINC) ∧
    (∀ nd nm, res = some (nd, nm) →
      wfH s' hh = true ∧ Internal.total s' + nm = Internal.total s ∧
      s'.clen + 1 = s.clen ∧
      (∀ n, nd = .int n → wfH n (hh - 1) = true ∧
        Internal.total n = nm)) := by
  cases s with
  | node ms cs =>
    rw [wfH_node_iff] at hw
    obtain ⟨hms, hmax, hh2, hall⟩ := hw
    have hlms : ms.length = cs.len := by
      rw [hms, List.length_map, IList.len_toL]
    rw [stealGreatest] at h
    rcases hn : cs.len with _ | _ | _ | n
    · simp only [hn] at h; cases h
    · simp only [hn] at h; cases h
    · simp only [hn] at h
      simp only [Option.some.injEq, Prod.mk.injEq] at h
      obtain ⟨hres, hs'⟩ := h
      constructor
      · intro _
        refine ⟨hs'.symm, ?_⟩
        show cs.len ≤ MINC
        rw [hn]
        norm_num [MINC]
      · intro nd nm hnm
        rw [← hres] at hnm
        cases hnm
    · simp only [hn] at h
      split at h
      · rename_i m c0 cs' hlast hrm
        simp only [Option.some.injEq, Prod.mk.injEq] at h
        obtain ⟨hres, hs'⟩ := h
        rw [IList.rm?_eq_some] at hrm
        obtain ⟨hget, hE⟩ := hrm
        have hidx : n + 1 + 1 + 1 - 1 < cs.toL.length := by
          have := (List.get?_eq_some.mp hget).1
          omega
        have hmem : c0 ∈ cs.toL := List.get?_mem hget
        have hmval : m = Internal.total c0 := by
          have h1 : ms.getLast? = ms.get? (ms.length - 1) :=
            List.getLast?_eq_get? ms
          rw [hlast, hlms, hn] at h1
          rw [hms, List.get?_map] at h1
          rw [show (cs.toL.get? (n + 1 + 1 + 1 - 1)).map Internal.total =
              some (Internal.total c0) by rw [hget]; rfl] at h1
          exact Option.some.inj h1
        constructor
        · intro he
          rw [← hres] at he
          cases he
        · intro nd nm hnm
          rw [← hres] at hnm
          have hnd : nd = RNode.int c0 ∧ nm = m := by
            have := Option.some.inj hnm
            exact ⟨(Prod.mk.injEq _ _ _ _ ▸ this).1.symm,
              (Prod.mk.injEq _ _ _ _ ▸ this).2.symm⟩
          obtain ⟨hnd, hnm'⟩ := hnd
          subst hnd hnm'
          refine ⟨?_, ?_, ?_, ?_⟩
          · rw [← hs', wfH_node_iff]
            refine ⟨?_, ?_, hh2, ?_⟩
            · rw [hE, map_eraseIdx, ← hms, dropLast_eq_erase_last, hlms, hn]
            · rw [IList.len_toL, hE, List.length_eraseIdx_of_lt hidx]
              have h9 : cs.toL.length ≤ MAXC := by
                rw [← IList.len_toL]
                exact hmax
              omega
            · intro x hx
              rw [hE] at hx
              exact hall x (List.mem_of_mem_eraseIdx hx)
          · rw [← hs']
            show msum ms.dropLast + nm = msum ms
            exact msum_dropLast hlast
          · rw [← hs']
            show cs'.len + 1 = cs.len
            rw [IList.len_toL, hE, List.length_eraseIdx_of_lt hidx]
            have h9 : cs.toL.length = n + 1 + 1 + 1 := by
              rw [← IList.len_toL]
              exact hn
            omega
          · intro n' hn'
            cases hn'
            exact ⟨hall _ hmem, hmval.symm⟩
      · cases h
  | leaves ms c =>
    rw [wfH_leaves_iff] at hw
    obtain ⟨hlen, hmax, hh1⟩ := hw
    cases c with
    | zero =>
      rw [stealGreatest] at h
      cases h
    | succ c1 =>
      cases c1 with
      | zero =>
        rw [stealGreatest] at h
        simp only [Option.some.injEq, Prod.mk.injEq] at h
        obtain ⟨hres, hs'⟩ := h
        constructor
        · intro _
          exact ⟨hs'.symm, by norm_num [Internal.clen, MINC]⟩
        · intro nd nm hnm
          rw [← hres] at hnm
          cases hnm
      | succ c2 =>
        simp only [stealGreatest] at h
        split at h
        · rename_i m hlast
          simp only [Option.some.injEq, Prod.mk.injEq] at h
          obtain ⟨hres, hs'⟩ := h
          constructor
          · intro he
            rw [← hres] at he
            cases he
          · intro nd nm hnm
            rw [← hres] at hnm
            have hnd : nd = RNode.leaf ∧ nm = m := by
              have h5 := Option.some.inj hnm
              exact ⟨(Prod.mk.injEq _ _ _ _ ▸ h5).1.symm,
                (Prod.mk.injEq _ _ _ _ ▸ h5).2.symm⟩
            obtain ⟨hnd, hnm'⟩ := hnd
            subst hnd hnm'
            refine ⟨?_, ?_, ?_, ?_⟩
            · rw [← hs', wfH_leaves_iff]
              refine ⟨?_, ?_, hh1⟩
              · rw [List.length_dropLast]
                omega
              · rw [List.length_dropLast]
                omega
            · rw [← hs']
              show msum ms.dropLast + nm = msum ms
              exact msum_dropLast hlast
            · rw [← hs']
              show (c2 + 1 + 1 - 1) + 1 =
                (Internal.leaves ms (c2 + 1 + 1)).clen
              rfl
            · intro n' hn'
              cases hn'
        · cases h

theorem stealLeast_spec {s : Internal} {hh : Nat}
    {res : Option (RNode × Metric)} {s' : Internal}
    (hw : wfH s hh = true) (h : stealLeast s = some (res, s')) :
    (res = none → s' = s ∧ s.clen ≤ MINC) ∧
    (∀ nd nm, res = some (nd, nm) →
      wfH s' hh = true ∧ Internal.total s' + nm = Internal.total s ∧
      s'.clen + 1 = s.clen ∧
      (∀ n, nd = .int n → wfH n (hh - 1) = true ∧
        Internal.total n = nm)) := by
  cases s with
  | node ms cs =>
    rw [wfH_node_iff] at hw
    obtain ⟨hms, hmax, hh2, hall⟩ := hw
    have hlms : ms.length = cs.len := by
      rw [hms, List.length_map, IList.len_toL]
    rw [stealLeast] at h
    rcases hn : cs.len with _ | _ | _ | n
    · simp only [hn] at h; cases h
    · simp only [hn] at h; cases h
    · simp only [hn] at h
      simp only [Option.some.injEq, Prod.mk.injEq] at h
      obtain ⟨hres, hs'⟩ := h
      constructor
      · intro _
        refine ⟨hs'.symm, ?_⟩
        show cs.len ≤ MINC
        rw [hn]
        norm_num [MINC]
      · intro nd nm hnm
        rw [← hres] at hnm
        cases hnm
    · simp only [hn] at h
      split at h
      · rename_i m c0 cs' hhead hrm
        simp only [Option.some.injEq, Prod.mk.injEq] at h
        obtain ⟨hres, hs'⟩ := h
        rw [IList.rm?_eq_some] at hrm
        obtain ⟨hget, hE⟩ := hrm
        have hidx : 0 < cs.toL.length := by
          have := (List.get?_eq_some.mp hget).1
          omega
        have hmem : c0 ∈ cs.toL := List.get?_mem hget
        have hmval : m = Internal.total c0 := by
          have h1 : ms.head? = ms.get? 0 := head?_eq_get0 ms
          rw [hhead] at h1
          rw [hms, List.get?_map] at h1
          rw [show (cs.toL.get? 0).map Internal.total =
              some (Internal.total c0) by rw [hget]; rfl] at h1
          exact Option.some.inj h1
        constructor
        · intro he
          rw [← hres] at he
          cases he
        · intro nd nm hnm
          rw [← hres] at hnm
          have hnd : nd = RNode.int c0 ∧ nm = m := by
            have h5 := Option.some.inj hnm
            exact ⟨(Prod.mk.injEq _ _ _ _ ▸ h5).1.symm,
              (Prod.mk.injEq _ _ _ _ ▸ h5).2.symm⟩
          obtain ⟨hnd, hnm'⟩ := hnd
          subst hnd hnm'
          refine ⟨?_, ?_, ?_, ?_⟩
          · rw [← hs', wfH_node_iff]
            refine ⟨?_, ?_, hh2, ?_⟩
            · rw [hE, map_eraseIdx, ← hms, tail_eq_erase0]
            · rw [IList.len_toL, hE, List.length_eraseIdx_of_lt hidx]
              have h9 : cs.toL.length ≤ MAXC := by
                rw [← IList.len_toL]
                exact hmax
              omega
            · intro x hx
              rw [hE] at hx
              exact hall x (List.mem_of_mem_eraseIdx hx)
          · rw [← hs']
            show msum ms.tail + nm = msum ms
            rw [tail_eq_erase0]
            apply msum_eraseIdx
            rw [← head?_eq_get0]
            exact hhead
          · rw [← hs']
            show cs'.len + 1 = cs.len
            rw [IList.len_toL, hE, List.length_eraseIdx_of_lt hidx]
            have h9 : cs.toL.length = n + 1 + 1 + 1 := by
              rw [← IList.len_toL]
              exact hn
            omega
          · intro n' hn'
            cases hn'
            exact ⟨hall _ hmem, hmval.symm⟩
      · cases h
  | leaves ms c =>
    rw [wfH_leaves_iff] at hw
    obtain ⟨hlen, hmax, hh1⟩ := hw
    cases c with
    | zero =>
      rw [stealLeast] at h
      cases h
    | succ c1 =>
      cases c1 with
      | zero =>
        rw [stealLeast] at h
        simp only [Option.some.injEq, Prod.mk.injEq] at h
        obtain ⟨hres, hs'⟩ := h
        constructor
        · intro _
          exact ⟨hs'.symm, by norm_num [Internal.clen, MINC]⟩
        · intro nd nm hnm
          rw [← hres] at hnm
          cases hnm
      | succ c2 =>
        simp only [stealLeast] at h
        split at h
        · rename_i m hhead
          simp only [Option.some.injEq, Prod.mk.injEq] at h
          obtain ⟨hres, hs'⟩ := h
          constructor
          · intro he
            rw [← hres] at he
            cases he
          · intro nd nm hnm
            rw [← hres] at hnm
            have hnd : nd = RNode.leaf ∧ nm = m := by
              have h5 := Option.some.inj hnm
              exact ⟨(Prod.mk.injEq _ _ _ _ ▸ h5).1.symm,
                (Prod.mk.injEq _ _ _ _ ▸ h5).2.symm⟩
            obtain ⟨hnd, hnm'⟩ := hnd
            subst hnd hnm'
            refine ⟨?_, ?_, ?_, ?_⟩
            · rw [← hs', wfH_leaves_iff]
              refine ⟨?_, ?_, hh1⟩
              · rw [List.length_tail]
                omega
              · rw [List.length_tail]
                omega
            · rw [← hs']
              show msum ms.tail + nm = msum ms
              rw [tail_eq_erase0]
              apply msum_eraseIdx
              rw [← head?_eq_get0]
              exact hhead
            · rw [← hs']
              show (c2 + 1 + 1 - 1) + 1 =
                (Internal.leaves ms (c2 + 1 + 1)).clen
              rfl
            · intro n' hn'
              cases hn'
        · cases h

theorem mergeNode_spec {c : Internal} {nd : RNode} {nm : Metric} {pos : Nat}
    {c' : Internal} {hh : Nat}
    (hw : wfH c hh = true) (hcl : c.clen ≤ 1)
    (hnd : ∀ n, nd = .int n → wfH n (hh - 1) = true ∧
      Internal.total n = nm)
    (h : mergeNode c nd nm pos = some c') :
    wfH c' hh = true ∧ Internal.total c' = Internal.total c + nm ∧
      c'.clen ≤ 2 := by
  cases c with
  | node ms cs =>
    cases nd with
    | leaf =>
      rw [show mergeNode (.node ms cs) .leaf nm pos = none from rfl] at h
      cases h
    | int n =>
      rw [wfH_node_iff] at hw
      obtain ⟨hms, hmax, hh2, hall⟩ := hw
      obtain ⟨hwn, htn⟩ := hnd n rfl
      rw [mergeNode] at h
      split at h
      · rename_i ms' cs' hins hinsc
        simp only [Option.some.injEq] at h
        subst h
        rw [insAt?_eq_some] at hins
        obtain ⟨hpos, rfl⟩ := hins
        rw [IList.ins?_eq_some] at hinsc
        obtain ⟨hposc, hE⟩ := hinsc
        have hposc' : pos ≤ cs.toL.length := by
          rw [← IList.len_toL]
          exact hposc
        refine ⟨?_, ?_, ?_⟩
        · rw [wfH_node_iff]
          refine ⟨?_, ?_, hh2, ?_⟩
          · rw [hE, map_insertIdx, ← hms, htn]
          · rw [IList.len_toL, hE, List.length_insertIdx _ _ hposc']
            have h9 : cs.len ≤ 1 := hcl
            rw [IList.len_toL] at h9
            simp only [MAXC]
            omega
          · intro x hx
            rw [hE, List.mem_insertIdx hposc'] at hx
            rcases hx with rfl | hx
            · exact hwn
            · exact hall x hx
        · show msum (ms.insertIdx pos nm) = msum ms + nm
          exact msum_insertIdx hpos
        · show cs'.len ≤ 2
          rw [IList.len_toL, hE, List.length_insertIdx _ _ hposc']
          have h9 : cs.len ≤ 1 := hcl
          rw [IList.len_toL] at h9
          omega
      · cases h
  | leaves ms cnt =>
    cases nd with
    | int n =>
      rw [show mergeNode (.leaves ms cnt) (.int n) nm pos = none from rfl]
        at h
      cases h
    | leaf =>
      rw [wfH_leaves_iff] at hw
      obtain ⟨hlen, hmax, hh1⟩ := hw
      cases cnt with
      | zero =>
        rw [mergeNode] at h
        simp only [Option.some.injEq] at h
        subst h
        refine ⟨?_, ?_, by norm_num [Internal.clen]⟩
        · rw [wfH_leaves_iff]
          have hnil : ms = [] := List.length_eq_zero.mp hlen
          subst hnil
          exact ⟨by simp, by norm_num [MAXC], hh1⟩
        · show msum (ms ++ [nm]) = msum ms + nm
          simp
      | succ c1 =>
        cases c1 with
        | zero =>
          rw [mergeNode] at h
          split at h
          · rename_i ms' hadd
            simp only [Option.some.injEq] at h
            subst h
            rw [addAt?_eq_some] at hadd
            obtain ⟨m0, hm0, rfl⟩ := hadd
            refine ⟨?_, ?_, by norm_num [Internal.clen]⟩
            · rw [wfH_leaves_iff]
              simp only [List.length_set]
              exact ⟨hlen, hmax, hh1⟩
            · show msum (ms.set 0 (m0 + nm)) = msum ms + nm
              have hset := msum_set hm0 (a := m0 + nm)
              have hb := congrArg Metric.bytes hset
              have hc := congrArg Metric.chars hset
              simp only [Metric.add_bytes, Metric.add_chars] at hb hc
              apply Metric.ext' <;> simp <;> omega
          · cases h
        | succ c2 =>
          exfalso
          have h9 : c2 + 1 + 1 ≤ 1 := hcl
          omega

theorem IList.toL_append (a b : IList) :
    (a.append b).toL = a.toL ++ b.toL := by
  unfold IList.append
  simp

theorem mergeSibling_spec {l r m : Internal} {hh : Nat}
    (hwl : wfH l hh = true) (hwr : wfH r hh = true)
    (hcl : l.clen + r.clen ≤ MAXC)
    (h : mergeSibling l r = some m) :
    wfH m hh = true ∧
      Internal.total m = Internal.total l + Internal.total r := by
  cases l with
  | node lms lcs =>
    cases r with
    | leaves rms rc =>
      rw [show mergeSibling (.node lms lcs) (.leaves rms rc) = none
        from rfl] at h
      cases h
    | node rms rcs =>
      rw [mergeSibling] at h
      simp only [Option.some.injEq] at h
      subst h
      rw [wfH_node_iff] at hwl hwr
      obtain ⟨hms1, hmax1, hh2, hall1⟩ := hwl
      obtain ⟨hms2, hmax2, hh2', hall2⟩ := hwr
      refine ⟨?_, ?_⟩
      · rw [wfH_node_iff]
        refine ⟨?_, ?_, hh2, ?_⟩
        · rw [IList.toL_append, List.map_append, ← hms1, ← hms2]
        · rw [IList.len_toL, IList.toL_append, List.length_append]
          have h1 : lcs.len + rcs.len ≤ MAXC := hcl
          rw [IList.len_toL, IList.len_toL] at h1
          exact h1
        · intro x hx
          rw [IList.toL_append, List.mem_append] at hx
          rcases hx with hx | hx
          · exact hall1 x hx
          · exact hall2 x hx
      · show msum (lms ++ rms) = msum lms + msum rms
        exact msum_append lms rms
  | leaves lms lc =>
    cases r with
    | node rms rcs =>
      rw [show mergeSibling (.leaves lms lc) (.node rms rcs) = none
        from rfl] at h
      cases h
    | leaves rms rc =>
      rw [wfH_leaves_iff] at hwl hwr
      obtain ⟨hlen1, hmax1, hh1⟩ := hwl
      obtain ⟨hlen2, hmax2, _⟩ := hwr
      rw [mergeSibling] at h
      split_ifs at h with hg
      · simp only [Bool.and_eq_true, beq_iff_eq] at hg
        obtain ⟨⟨⟨hlc, hrc⟩, hl1⟩, hr1⟩ := hg
        split at h
        · rename_i lm rm hlm hrm
          simp only [Option.some.injEq] at h
          subst h
          have hlms : lms = [lm] := by
            cases lms with
            | nil => cases hlm
            | cons a t =>
              have ha : a = lm := by
                simp only [List.head?_cons, Option.some.injEq] at hlm
                exact hlm
              have ht : t = [] := by
                simp only [List.length_cons] at hl1
                exact List.length_eq_zero.mp (by omega)
              rw [ha, ht]
          have hrms : rms = [rm] := by
            cases rms with
            | nil => cases hrm
            | cons a t =>
              have ha : a = rm := by
                simp only [List.head?_cons, Option.some.injEq] at hrm
                exact hrm
              have ht : t = [] := by
                simp only [List.length_cons] at hr1
                exact List.length_eq_zero.mp (by omega)
              rw [ha, ht]
          refine ⟨?_, ?_⟩
          · rw [wfH_leaves_iff]
            exact ⟨by simp, by norm_num [MAXC], hh1⟩
          · show msum [lm + rm] = msum lms + msum rms
            rw [hlms, hrms]
            simp
        · cases h

theorem delMergeStep_spec {ms : List Metric} {cs : IList} {idx : Nat}
    {b' : Bool} {ms2 : List Metric} {cs2 : IList} {hh : Nat}
    (hms : ms = cs.toL.map Internal.total)
    (hall : ∀ c ∈ cs.toL, wfH c hh = true)
    (hbound : ∀ l r,
      cs.get? ((if idx ≠ 0 then idx else idx + 1) - 1) = some l →
      cs.get? (if idx ≠ 0 then idx else idx + 1) = some r →
      l.clen + r.clen ≤ MAXC)
    (h : delMergeStep ms cs idx = some (b', ms2, cs2)) :
    ms2 = cs2.toL.map Internal.total ∧ cs2.len + 1 = cs.len ∧
      msum ms2 = msum ms ∧ (∀ c ∈ cs2.toL, wfH c hh = true) ∧
      b' = decide (cs2.len < MINC) := by
  unfold delMergeStep at h
  set ri := (if idx ≠ 0 then idx else idx + 1) with hri
  have hri1 : 1 ≤ ri := by
    rw [hri]
    split <;> omega
  dsimp only [] at h
  split at h
  · rename_i left right hgl hgr
    split at h
    · cases h
    · rename_i merged hmg
      split at h
      · cases h
      · rename_i cs1 hset
        split at h
        · cases h
        · rename_i p x cs2' hrm
          split at h
          · cases h
          · rename_i q rightMetric ms1 hrmm
            split at h
            · cases h
            · rename_i ms2' hadd
              simp only [Option.some.injEq, Prod.mk.injEq] at h
              obtain ⟨hb, hms2, hcs2⟩ := h
              subst hb hms2 hcs2
              have hwl := hall left (List.get?_mem hgl)
              have hwr := hall right (List.get?_mem hgr)
              obtain ⟨hwm, htm⟩ :=
                mergeSibling_spec hwl hwr (hbound left right hgl hgr) hmg
              rw [IList.set?_eq_some] at hset
              obtain ⟨hlt1, hE1⟩ := hset
              rw [IList.rm?_eq_some] at hrm
              obtain ⟨hget2, hE2⟩ := hrm
              rw [rmAt?_eq_some] at hrmm
              obtain ⟨hgetm, hE3⟩ := hrmm
              rw [addAt?_eq_some] at hadd
              obtain ⟨mj, hmj, hE4⟩ := hadd
              have hriL : ri < cs.toL.length := by
                have := (List.get?_eq_some.mp hget2).1
                rw [hE1, List.length_set] at this
                exact this
              have hmjv : mj = Internal.total left := by
                rw [hE3] at hmj
                rw [get?_eraseIdx_lt _ _ _ (by omega)] at hmj
                rw [hms, List.get?_map] at hmj
                rw [show cs.toL.get? (ri - 1) = some left from hgl] at hmj
                simp only [Option.map_some', Option.some.injEq] at hmj
                exact hmj.symm
              have hrmv : rightMetric = Internal.total right := by
                rw [hms, List.get?_map] at hgetm
                rw [show cs.toL.get? ri = some right from hgr] at hgetm
                simp only [Option.map_some', Option.some.injEq] at hgetm
                exact hgetm.symm
              refine ⟨?_, ?_, ?_, ?_, rfl⟩
              · rw [hE4, hE3, hE2, hE1]
                rw [map_eraseIdx, List.map_set, ← hms, htm]
                rw [hmjv, hrmv]
                rw [set_eraseIdx_comm _ _ _ _ (by omega)]
              · rw [IList.len_toL, hE2, List.length_eraseIdx_of_lt
                  (by rw [hE1, List.length_set]; exact hriL)]
                rw [hE1, List.length_set, IList.len_toL]
                omega
              · rw [hE4]
                have hs1 := msum_set hmj (a := mj + rightMetric)
                have hs2 : msum ms1 + rightMetric = msum ms := by
                  rw [hE3]
                  exact msum_eraseIdx hgetm
                have hb1 := congrArg Metric.bytes hs1
                have hc1 := congrArg Metric.chars hs1
                have hb2 := congrArg Metric.bytes hs2
                have hc2 := congrArg Metric.chars hs2
                simp only [Metric.add_bytes, Metric.add_chars] at hb1 hc1 hb2 hc2
                apply Metric.ext' <;> omega
              · intro c hc
                rw [hE2] at hc
                have hc' := List.mem_of_mem_eraseIdx hc
                rw [hE1] at hc'
                rcases List.mem_or_eq_of_mem_set hc' with hc'' | rfl
                · exact hall c hc''
                · exact hwm
  · cases h

theorem delRightStep_spec {ms : List Metric} {cs : IList} {idx : Nat}
    {b' : Bool} {ms2 : List Metric} {cs2 : IList} {hh : Nat}
    (hms : ms = cs.toL.map Internal.total)
    (hall : ∀ c ∈ cs.toL, wfH c hh = true)
    (hchild : ∀ c0, cs.get? idx = some c0 → c0.clen ≤ 1)
    (hleft : idx ≠ 0 → ∀ l, cs.get? (idx - 1) = some l → l.clen ≤ MINC)
    (h : delRightStep ms cs idx = some (b', ms2, cs2)) :
    ms2 = cs2.toL.map Internal.total ∧ cs.len - 1 ≤ cs2.len ∧
      cs2.len ≤ cs.len ∧ msum ms2 = msum ms ∧
      (∀ c ∈ cs2.toL, wfH c hh = true) ∧
      (b' = true → cs2.len + 1 = cs.len ∧ cs2.len < MINC) := by
  rw [delRightStep] at h
  split at h
  · rename_i hnone
    have hbound : ∀ l r,
        cs.get? ((if idx ≠ 0 then idx else idx + 1) - 1) = some l →
        cs.get? (if idx ≠ 0 then idx else idx + 1) = some r →
        l.clen + r.clen ≤ MAXC := by
      intro l r hl hr
      by_cases hz : idx ≠ 0
      · rw [if_pos hz] at hl hr
        have h1 := hleft hz l hl
        have h2 := hchild r hr
        simp only [MINC] at h1
        simp only [MAXC]
        omega
      · rw [if_neg hz] at hr
        push_neg at hz
        subst hz
        rw [hnone] at hr
        cases hr
    obtain ⟨k1, k2, k3, k4, k5⟩ := delMergeStep_spec hms hall hbound h
    refine ⟨k1, by omega, by omega, k3, k4, fun hb => ⟨by omega, ?_⟩⟩
    rw [k5] at hb
    simpa using hb
  · rename_i rightC hgr
    have hwr := hall rightC (List.get?_mem hgr)
    split at h
    · cases h
    · -- the right sibling refused: fall through to the merge
      rename_i rightC' hsl
      split at h
      · cases h
      · rename_i cs1 hset
        obtain ⟨href, _⟩ := stealLeast_spec hwr hsl
        obtain ⟨heqR, hszR⟩ := href rfl
        subst heqR
        rw [IList.set?_eq_some] at hset
        obtain ⟨hlt, hE⟩ := hset
        have hcs1 : cs1 = cs := by
          apply IList.toL_inj
          rw [hE]
          exact set_get_self hgr
        rw [hcs1] at h
        have hbound : ∀ l r,
            cs.get? ((if idx ≠ 0 then idx else idx + 1) - 1) = some l →
            cs.get? (if idx ≠ 0 then idx else idx + 1) = some r →
            l.clen + r.clen ≤ MAXC := by
          intro l r hl hr
          by_cases hz : idx ≠ 0
          · rw [if_pos hz] at hl hr
            have h1 := hleft hz l hl
            have h2 := hchild r hr
            simp only [MINC] at h1
            simp only [MAXC]
            omega
          · rw [if_neg hz] at hl hr
            push_neg at hz
            subst hz
            have h1 := hchild l hl
            have h2 : r = rightC' := by
              rw [show (1 : Nat) = 0 + 1 from rfl] at hr
              rw [hgr] at hr
              exact (Option.some.inj hr).symm
            subst h2
            simp only [MINC] at hszR
            simp only [MAXC]
            omega
        obtain ⟨k1, k2, k3, k4, k5⟩ := delMergeStep_spec hms hall hbound h
        refine ⟨k1, by omega, by omega, k3, k4, fun hb => ⟨by omega, ?_⟩⟩
        rw [k5] at hb
        simpa using hb
    · -- successful steal from the right sibling
      rename_i nd nm rightC' hsl
      split at h
      · cases h
      · rename_i cs1 hset
        split at h
        · cases h
        · rename_i c0 hg0
          split at h
          · cases h
          · rename_i c' hmn
            split at h
            · cases h
            · rename_i cs2' hset2
              split at h
              · cases h
              · rename_i ms1 hadd
                split at h
                · cases h
                · rename_i ms2' hsub
                  simp only [Option.some.injEq, Prod.mk.injEq] at h
                  obtain ⟨hb, hms2, hcs2⟩ := h
                  subst hb hms2 hcs2
                  obtain ⟨_, hsome⟩ := stealLeast_spec hwr hsl
                  obtain ⟨hwR', htR, hclR, hint⟩ := hsome nd nm rfl
                  rw [IList.set?_eq_some] at hset
                  obtain ⟨hlt1, hE1⟩ := hset
                  have hg0' : cs.toL.get? idx = some c0 := by
                    have hx : cs1.toL.get? idx = some c0 := hg0
                    rw [hE1, List.get?_set_ne _ _ (by omega)] at hx
                    exact hx
                  have hwc0 := hall c0 (List.get?_mem hg0')
                  have hc0cl := hchild c0 hg0'
                  obtain ⟨hwc', htc', hclc'⟩ :=
                    mergeNode_spec hwc0 hc0cl hint hmn
                  rw [IList.set?_eq_some] at hset2
                  obtain ⟨hlt2, hE2⟩ := hset2
                  rw [addAt?_eq_some] at hadd
                  obtain ⟨mi, hmi, hE3⟩ := hadd
                  rw [subAt?_eq_some] at hsub
                  obtain ⟨mr, mr', hmr, hs, hE4⟩ := hsub
                  have hmiv : mi = Internal.total c0 := by
                    rw [hms, List.get?_map, hg0'] at hmi
                    simp only [Option.map_some', Option.some.injEq] at hmi
                    exact hmi.symm
                  have hmrv : mr = Internal.total rightC := by
                    rw [hE3, List.get?_set_ne _ _ (by omega)] at hmr
                    rw [hms, List.get?_map,
                      show cs.toL.get? (idx + 1) = some rightC from hgr]
                      at hmr
                    simp only [Option.map_some', Option.some.injEq] at hmr
                    exact hmr.symm
                  have hmr'v : mr' = Internal.total rightC' := by
                    have hadd' := Metric.sub?_add hs
                    have hb1 := congrArg Metric.bytes hadd'
                    have hc1 := congrArg Metric.chars hadd'
                    have hb2 := congrArg Metric.bytes htR
                    have hc2 := congrArg Metric.chars htR
                    have hb3 := congrArg Metric.bytes hmrv
                    have hc3 := congrArg Metric.chars hmrv
                    simp only [Metric.add_bytes, Metric.add_chars]
                      at hb1 hc1 hb2 hc2
                    apply Metric.ext' <;> omega
                  have hidxlt : idx < cs.toL.length := by
                    have := (List.get?_eq_some.mp hg0').1
                    exact this
                  have hlen2 : cs2'.len = cs.len := by
                    rw [IList.len_toL, hE2, List.length_set, hE1,
                      List.length_set, ← IList.len_toL]
                  refine ⟨?_, by omega, by omega, ?_, ?_, by simp⟩
                  · rw [hE4, hE3, hE2, hE1]
                    rw [List.map_set, List.map_set, ← hms, htc', hmiv,
                      hmr'v]
                    rw [List.set_comm _ _ _ (by omega : idx ≠ idx + 1)]
                  · rw [hE4, hE3]
                    have hs1 := msum_set hmi (a := mi + nm)
                    have hmr2 : (ms.set idx (mi + nm)).get? (idx + 1) =
                        some mr := by
                      rw [List.get?_set_ne _ _ (by omega)]
                      rw [hE3, List.get?_set_ne _ _ (by omega)] at hmr
                      exact hmr
                    have hs2 := msum_set hmr2 (a := mr')
                    have hadd' := Metric.sub?_add hs
                    have hb1 := congrArg Metric.bytes hs1
                    have hc1 := congrArg Metric.chars hs1
                    have hb2 := congrArg Metric.bytes hs2
                    have hc2 := congrArg Metric.chars hs2
                    have hb3 := congrArg Metric.bytes hadd'
                    have hc3 := congrArg Metric.chars hadd'
                    simp only [Metric.add_bytes, Metric.add_chars]
                      at hb1 hc1 hb2 hc2 hb3 hc3
                    apply Metric.ext' <;> omega
                  · intro c hc
                    rw [hE2] at hc
                    rcases List.mem_or_eq_of_mem_set hc with hc' | rfl
                    · rw [hE1] at hc'
                      rcases List.mem_or_eq_of_mem_set hc' with hc'' | rfl
                      · exact hall c hc''
                      · exact hwR'
                    · exact hwc'

theorem delRebalance_spec {ms : List Metric} {cs : IList} {idx : Nat}
    {b' : Bool} {ms2 : List Metric} {cs2 : IList} {hh : Nat}
    (hms : ms = cs.toL.map Internal.total)
    (hall : ∀ c ∈ cs.toL, wfH c hh = true)
    (hchild : ∀ c0, cs.get? idx = some c0 → c0.clen ≤ 1)
    (h : delRebalance ms cs idx = some (b', ms2, cs2)) :
    ms2 = cs2.toL.map Internal.total ∧ cs.len - 1 ≤ cs2.len ∧
      cs2.len ≤ cs.len ∧ msum ms2 = msum ms ∧
      (∀ c ∈ cs2.toL, wfH c hh = true) ∧
      (b' = true → cs2.len + 1 = cs.len ∧ cs2.len < MINC) := by
  cases idx with
  | zero =>
    rw [delRebalance] at h
    exact delRightStep_spec hms hall hchild
      (fun h0 => absurd rfl h0) h
  | succ i =>
    rw [delRebalance] at h
    split at h
    · cases h
    · rename_i leftC hgl
      have hwl := hall leftC (List.get?_mem hgl)
      split at h
      · cases h
      · -- the left sibling refused: fall through to the right step
        rename_i leftC' hsg
        split at h
        · cases h
        · rename_i cs1 hset
          obtain ⟨href, _⟩ := stealGreatest_spec hwl hsg
          obtain ⟨heqL, hszL⟩ := href rfl
          subst heqL
          rw [IList.set?_eq_some] at hset
          obtain ⟨hlt, hE⟩ := hset
          have hcs1 : cs1 = cs := by
            apply IList.toL_inj
            rw [hE]
            exact set_get_self hgl
          rw [hcs1] at h
          refine delRightStep_spec hms hall hchild ?_ h
          intro _ l hl
          have hleq : l = leftC' := by
            rw [show (i + 1 - 1 : Nat) = i from rfl, hgl] at hl
            exact (Option.some.inj hl).symm
          subst hleq
          exact hszL
      · -- successful steal from the left sibling
        rename_i nd nm leftC' hsg
        split at h
        · cases h
        · rename_i cs1 hset
          split at h
          · cases h
          · rename_i c0 hg0
            split at h
            · cases h
            · rename_i c' hmn
              split at h
              · cases h
              · rename_i cs2' hset2
                split at h
                · cases h
                · rename_i ms1 hadd
                  split at h
                  · cases h
                  · rename_i ms2' hsub
                    simp only [Option.some.injEq, Prod.mk.injEq] at h
                    obtain ⟨hb, hms2, hcs2⟩ := h
                    subst hb hms2 hcs2
                    obtain ⟨_, hsome⟩ := stealGreatest_spec hwl hsg
                    obtain ⟨hwL', htL, hclL, hint⟩ := hsome nd nm rfl
                    rw [IList.set?_eq_some] at hset
                    obtain ⟨hlt1, hE1⟩ := hset
                    have hg0' : cs.toL.get? (i + 1) = some c0 := by
                      have hx : cs1.toL.get? (i + 1) = some c0 := hg0
                      rw [hE1, List.get?_set_ne _ _ (by omega)] at hx
                      exact hx
                    have hwc0 := hall c0 (List.get?_mem hg0')
                    have hc0cl := hchild c0 hg0'
                    obtain ⟨hwc', htc', hclc'⟩ :=
                      mergeNode_spec hwc0 hc0cl hint hmn
                    rw [IList.set?_eq_some] at hset2
                    obtain ⟨hlt2, hE2⟩ := hset2
                    rw [addAt?_eq_some] at hadd
                    obtain ⟨mi, hmi, hE3⟩ := hadd
                    rw [subAt?_eq_some] at hsub
                    obtain ⟨ml, ml', hml, hs, hE4⟩ := hsub
                    have hmiv : mi = Internal.total c0 := by
                      rw [hms, List.get?_map, hg0'] at hmi
                      simp only [Option.map_some', Option.some.injEq] at hmi
                      exact hmi.symm
                    have hmlv : ml = Internal.total leftC := by
                      rw [hE3, List.get?_set_ne _ _ (by omega)] at hml
                      rw [hms, List.get?_map,
                        show cs.toL.get? i = some leftC from hgl] at hml
                      simp only [Option.map_some', Option.some.injEq] at hml
                      exact hml.symm
                    have hml'v : ml' = Internal.total leftC' := by
                      have hadd' := Metric.sub?_add hs
                      have hb1 := congrArg Metric.bytes hadd'
                      have hc1 := congrArg Metric.chars hadd'
                      have hb2 := congrArg Metric.bytes htL
                      have hc2 := congrArg Metric.chars htL
                      have hb3 := congrArg Metric.bytes hmlv
                      have hc3 := congrArg Metric.chars hmlv
                      simp only [Metric.add_bytes, Metric.add_chars]
                        at hb1 hc1 hb2 hc2
                      apply Metric.ext' <;> omega
                    have hlen2 : cs2'.len = cs.len := by
                      rw [IList.len_toL, hE2, List.length_set, hE1,
                        List.length_set, ← IList.len_toL]
                    refine ⟨?_, by omega, by omega, ?_, ?_, by simp⟩
                    · rw [hE4, hE3, hE2, hE1]
                      rw [List.map_set, List.map_set, ← hms, htc', hmiv,
                        hml'v]
                      rw [List.set_comm _ _ _ (by omega : i ≠ i + 1)]
                    · rw [hE4, hE3]
                      have hs1 := msum_set hmi (a := mi + nm)
                      have hml2 : (ms.set (i + 1) (mi + nm)).get? i =
                          some ml := by
                        rw [List.get?_set_ne _ _ (by omega)]
                        rw [hE3, List.get?_set_ne _ _ (by omega)] at hml
                        exact hml
                      have hs2 := msum_set hml2 (a := ml')
                      have hadd' := Metric.sub?_add hs
                      have hb1 := congrArg Metric.bytes hs1
                      have hc1 := congrArg Metric.chars hs1
                      have hb2 := congrArg Metric.bytes hs2
                      have hc2 := congrArg Metric.chars hs2
                      have hb3 := congrArg Metric.bytes hadd'
                      have hc3 := congrArg Metric.chars hadd'
                      simp only [Metric.add_bytes, Metric.add_chars]
                        at hb1 hc1 hb2 hc2 hb3 hc3
                      apply Metric.ext' <;> omega
                    · intro c hc
                      rw [hE2] at hc
                      rcases List.mem_or_eq_of_mem_set hc with hc' | rfl
                      · rw [hE1] at hc'
                        rcases List.mem_or_eq_of_mem_set hc' with hc'' | rfl
                        · exact hall c hc''
                        · exact hwL'
                      · exact hwc'

theorem deleteImpl_wfH :
    ∀ (t : Internal) {h : Nat} (pos : Metric) (b : Bool) (t' : Internal),
    wfH t h = true → deleteImpl t pos = some (b, t') →
    wfH t' h = true ∧ Internal.total t' = Internal.total t ∧
      (b = true → t'.clen = 1) := by
  intro t
  induction t using internal_ind with
  | hl ms c =>
    intro h pos b t' hw hs
    rw [deleteImpl] at hs
    split_ifs at hs with hinv
    · rw [wfH_leaves_iff] at hw
      obtain ⟨hlen, hmax, hh1⟩ := hw
      have hc1 : 1 ≤ c := by
        unfold assertInv at hinv
        simp only [Bool.and_eq_true, Bool.not_eq_true',
          List.isEmpty_eq_false] at hinv
        obtain ⟨_, hne⟩ := hinv
        have := List.length_pos.mpr hne
        omega
      split at hs
      · cases hs
      · rename_i idx hfind
        rw [Option.map_eq_some'] at hs
        obtain ⟨r, hr, heq⟩ := hs
        obtain ⟨b0, ms2', c2'⟩ := r
        simp only [Prod.mk.injEq] at heq
        obtain ⟨hb, ht'⟩ := heq
        subst hb
        obtain ⟨k1, k2, k3, k4, k5⟩ := delLeaf_spec hlen hc1 hr
        refine ⟨?_, ?_, ?_⟩
        · rw [← ht', wfH_leaves_iff]
          exact ⟨k1, by omega, hh1⟩
        · rw [← ht']
          exact k4
        · intro hbt
          rw [← ht']
          exact k5 hbt
  | hn ms cs ih =>
    intro h pos b t' hw hs
    rw [deleteImpl] at hs
    split_ifs at hs with hinv
    · rw [wfH_node_iff] at hw
      obtain ⟨hms, hmax, hh2, hall⟩ := hw
      have hmin : MINC ≤ cs.len := by
        unfold assertInv at hinv
        simp only [Bool.and_eq_true, beq_iff_eq, decide_eq_true_eq] at hinv
        obtain ⟨⟨⟨hl1, _⟩, hl3⟩, _⟩ := hinv
        omega
      split at hs
      · cases hs
      · rename_i idx b0 c' hgo
        obtain ⟨c0, pos', hg, hd⟩ := delGo_char cs hgo
        have hwc0 := hall c0 (List.get?_mem hg)
        obtain ⟨hwc', htc', hbcl⟩ := ih c0 (List.get?_mem hg) pos' b0 c'
          hwc0 hd
        split at hs
        · cases hs
        · rename_i cs1 hset
          rw [IList.set?_eq_some] at hset
          obtain ⟨hlt1, hE1⟩ := hset
          have hidxlt : idx < cs.toL.length := by
            rw [← IList.len_toL]
            exact hlt1
          have hms1 : ms = cs1.toL.map Internal.total := by
            rw [hE1, List.map_set, ← hms, htc']
            rw [set_get_self]
            rw [hms, List.get?_map,
              show cs.toL.get? idx = some c0 from hg]
            rfl
          have hall1 : ∀ x ∈ cs1.toL, wfH x (h - 1) = true := by
            intro x hx
            rw [hE1] at hx
            rcases List.mem_or_eq_of_mem_set hx with hx' | rfl
            · exact hall x hx'
            · exact hwc'
          have hlen1 : cs1.len = cs.len := by
            rw [IList.len_toL, hE1, List.length_set, ← IList.len_toL]
          split_ifs at hs with hb0
          · rw [Option.map_eq_some'] at hs
            obtain ⟨r, hr, heq⟩ := hs
            obtain ⟨b1, ms2', cs2'⟩ := r
            simp only [Prod.mk.injEq] at heq
            obtain ⟨hb, ht'⟩ := heq
            subst hb
            have hchild1 : ∀ cx, cs1.get? idx = some cx → cx.clen ≤ 1 := by
              intro cx hcx
              have hcx' : cs1.toL.get? idx = some cx := hcx
              rw [hE1, List.get?_set_eq_of_lt _ hidxlt] at hcx'
              have hceq : cx = c' := (Option.some.inj hcx').symm
              subst hceq
              rw [hbcl hb0]
            obtain ⟨k1, k2, k3, k4, k5, k6⟩ :=
              delRebalance_spec hms1 hall1 hchild1 hr
            refine ⟨?_, ?_, ?_⟩
            · rw [← ht', wfH_node_iff]
              refine ⟨k1, by omega, hh2, k5⟩
            · rw [← ht']
              show msum ms2' = msum ms
              exact k4
            · intro hbt
              obtain ⟨k7, k8⟩ := k6 hbt
              rw [← ht']
              show cs2'.len = 1
              simp only [MINC] at k8 hmin
              omega
          · simp only [Option.some.injEq, Prod.mk.injEq] at hs
            obtain ⟨hb, ht'⟩ := hs
            refine ⟨?_, ?_, ?_⟩
            · rw [← ht', wfH_node_iff]
              exact ⟨hms1, by omega, hh2, hall1⟩
            · rw [← ht']
              rfl
            · intro hbt
              rw [← hb] at hbt
              cases hbt

theorem deleteTree_wfH {t : Internal} {h : Nat} {pos : Metric}
    {t' : Internal} (hw : wfH t h = true)
    (hs : deleteTree t pos = some t') : ∃ h', wfH t' h' = true := by
  rw [deleteTree] at hs
  split at hs
  · cases hs
  · rename_i t'' hdel
    obtain ⟨k1, _, _⟩ := deleteImpl_wfH t pos false t'' hw hdel
    exact ⟨h, by rw [← Option.some.inj hs]; exact k1⟩
  · rename_i t'' hdel
    obtain ⟨k1, k2, k3⟩ := deleteImpl_wfH t pos true t'' hw hdel
    split at hs
    · rename_i ms1 cs1
      split_ifs at hs with h1 h2
      · rw [wfH_node_iff] at k1
        obtain ⟨q1, q2, q3, hall⟩ := k1
        have hget : cs1.toL.get? 0 = some t' := hs
        exact ⟨h - 1, hall t' (List.get?_mem hget)⟩
    · cases hs

theorem insGoNil_none : ∀ (ms : List Metric) (needle : Metric),
    insGoNil ms needle = none := by
  intro ms
  induction ms with
  | nil => intro needle; rfl
  | cons m rest ih =>
    intro needle
    cases rest with
    | nil => rfl
    | cons m2 ms2 =>
      rw [insGoNil]
      split
      · rfl
      · cases h : needle.sub? m with
        | none => rfl
        | some needle' => simp [ih]

theorem insGoL_interior :
    ∀ (ms : List Metric) (needle : Metric) (act : InsAct),
    needle.chars < (msum ms).chars → insGoL ms needle = some act →
    ∀ r, act ≠ .leafPush r := by
  intro ms
  induction ms with
  | nil => intro needle act _ h; simp [insGoL] at h
  | cons m rest ih =>
    intro needle act hint h
    cases rest with
    | nil =>
      rw [insGoL] at h
      split_ifs at h with hlt
      · simp only [Option.some.injEq] at h
        subst h
        intro r hr
        cases hr
      · exfalso
        simp only [msum_cons, msum_nil, Metric.add_chars] at hint
        simp only [mzero] at hint
        omega
    | cons m2 ms2 =>
      rw [insGoL] at h
      split_ifs at h with hlt
      · simp only [Option.some.injEq] at h
        subst h
        intro r hr
        cases hr
      · split at h
        · cases h
        · rename_i needle' hsub
          rw [Option.map_eq_some'] at h
          obtain ⟨act0, hact0, heq⟩ := h
          have hint' : needle'.chars < (msum (m2 :: ms2)).chars := by
            have hadd := Metric.sub?_add hsub
            have hc := congrArg Metric.chars hadd
            simp only [Metric.add_chars] at hc
            simp only [msum_cons, Metric.add_chars] at hint ⊢
            omega
          have hne := ih needle' act0 hint' hact0
          intro r hr
          rw [← heq] at hr
          cases act0 <;> simp [InsAct.shift] at hr
          · exact hne r (by rw [hr])

theorem insertLeaf_spec {ms : List Metric} {c idx : Nat} {needleAt : Metric}
    {ms' : List Metric} {c' : Nat} {ov : Option Internal}
    (hlen : ms.length = c)
    (h : insertLeaf ms c idx needleAt = some (ms', c', ov)) :
    ms'.length = c' ∧ c' ≤ MAXC ∧
      (∀ o, ov = some o → wfH o 1 = true) ∧
      (ov = none → msum ms' = msum ms) ∧
      (∀ o, ov = some o →
        msum ms' + Internal.total o = msum ms) := by
  rw [insertLeaf] at h
  split at h
  · cases h
  · rename_i mIdx hget
    split at h
    · cases h
    · rename_i newMetric hsub
      split at h
      · cases h
      · rename_i ms1 hset
        rw [setAt?_eq_some] at hset
        obtain ⟨hidx, hE1⟩ := hset
        have hsub' := Metric.sub?_add hsub
        have hmsum1 : msum ms1 + mIdx = msum ms + needleAt := by
          rw [hE1]
          exact msum_set hget (a := needleAt)
        have hlen1 : ms1.length = ms.length := by rw [hE1]; simp
        have hkey : msum ms1 + newMetric = msum ms := by
          have hb1 := congrArg Metric.bytes hmsum1
          have hc1' := congrArg Metric.chars hmsum1
          have hb2 := congrArg Metric.bytes hsub'
          have hc2' := congrArg Metric.chars hsub'
          simp only [Metric.add_bytes, Metric.add_chars]
            at hb1 hc1' hb2 hc2'
          apply Metric.ext' <;> simp <;> omega
        dsimp only [] at h
        by_cases hc1 : c < MAXC
        · rw [if_pos hc1] at h
          split at h
          · cases h
          · rename_i ms2 hins
            rw [insAt?_eq_some] at hins
            obtain ⟨hle, hE2⟩ := hins
            split_ifs at h with hrange
            · simp only [Option.some.injEq, Prod.mk.injEq] at h
              obtain ⟨hms', hc', hov⟩ := h
              subst hms' hc' hov
              refine ⟨?_, by omega, ?_, ?_, ?_⟩
              · rw [hE2, List.length_insertIdx _ _ hle, hlen1, hlen]
              · intro o ho
                cases ho
              · intro _
                rw [hE2, msum_insertIdx hle]
                exact hkey
              · intro o ho
                cases ho
        · rw [if_neg hc1] at h
          by_cases hc2 : c = MAXC
          · rw [if_pos hc2] at h
            by_cases hmid : MAXC / 2 ≤ ms1.length
            · rw [if_pos hmid] at h
              by_cases hpos : idx + 1 < MAXC / 2
              · rw [if_pos hpos] at h
                split at h
                · cases h
                · rename_i lms hins
                  rw [insAt?_eq_some] at hins
                  obtain ⟨hle, hE2⟩ := hins
                  simp only [Option.some.injEq, Prod.mk.injEq] at h
                  obtain ⟨hms', hc', hov⟩ := h
                  subst hms' hc' hov
                  have hlm : (ms1.take (MAXC / 2)).length = MAXC / 2 := by
                    rw [List.length_take]
                    omega
                  refine ⟨?_, ?_, ?_, ?_, ?_⟩
                  · rw [hE2, List.length_insertIdx _ _ hle, hlm]
                  · simp only [MAXC]
                    omega
                  · intro o ho
                    rw [← Option.some.inj ho, wfH_leaves_iff]
                    refine ⟨?_, ?_, rfl⟩
                    · rw [List.length_drop]
                      omega
                    · rw [List.length_drop]
                      simp only [MAXC] at *
                      omega
                  · intro hx
                    cases hx
                  · intro o ho
                    rw [← Option.some.inj ho, hE2]
                    show msum ((ms1.take (MAXC / 2)).insertIdx (idx + 1)
                        newMetric) + msum (ms1.drop (MAXC / 2)) = msum ms
                    rw [msum_insertIdx hle]
                    have htd := msum_take_drop ms1 (MAXC / 2)
                    have hb1 := congrArg Metric.bytes htd
                    have hc1' := congrArg Metric.chars htd
                    have hb2 := congrArg Metric.bytes hkey
                    have hc2' := congrArg Metric.chars hkey
                    simp only [Metric.add_bytes, Metric.add_chars]
                      at hb1 hc1' hb2 hc2'
                    apply Metric.ext' <;> simp <;> omega
              · rw [if_neg hpos] at h
                split at h
                · cases h
                · rename_i rms hins
                  rw [insAt?_eq_some] at hins
                  obtain ⟨hle, hE2⟩ := hins
                  simp only [Option.some.injEq, Prod.mk.injEq] at h
                  obtain ⟨hms', hc', hov⟩ := h
                  subst hms' hc' hov
                  have hlm : (ms1.take (MAXC / 2)).length = MAXC / 2 := by
                    rw [List.length_take]
                    omega
                  refine ⟨?_, ?_, ?_, ?_, ?_⟩
                  · exact hlm
                  · simp only [MAXC]
                    omega
                  · intro o ho
                    rw [← Option.some.inj ho, wfH_leaves_iff]
                    refine ⟨?_, ?_, rfl⟩
                    · rw [hE2, List.length_insertIdx _ _ hle,
                        List.length_drop]
                      omega
                    · rw [hE2, List.length_insertIdx _ _ hle,
                        List.length_drop]
                      simp only [MAXC] at *
                      omega
                  · intro hx
                    cases hx
                  · intro o ho
                    rw [← Option.some.inj ho, hE2]
                    show msum (ms1.take (MAXC / 2)) +
                        msum ((ms1.drop (MAXC / 2)).insertIdx
                          (idx + 1 - MAXC / 2) newMetric) = msum ms
                    rw [msum_insertIdx hle]
                    have htd := msum_take_drop ms1 (MAXC / 2)
                    have hb1 := congrArg Metric.bytes htd
                    have hc1' := congrArg Metric.chars htd
                    have hb2 := congrArg Metric.bytes hkey
                    have hc2' := congrArg Metric.chars hkey
                    simp only [Metric.add_bytes, Metric.add_chars]
                      at hb1 hc1' hb2 hc2'
                    apply Metric.ext' <;> simp <;> omega
            · rw [if_neg hmid] at h
              cases h
          · rw [if_neg hc2] at h
            cases h

theorem pushLeaf_spec {ms : List Metric} {c : Nat} {metric : Metric}
    {ms' : List Metric} {c' : Nat} {ov : Option Internal}
    (hlen : ms.length = c)
    (h : pushLeaf ms c metric = some (ms', c', ov)) :
    ms'.length = c' ∧ c' ≤ MAXC ∧
      (∀ o, ov = some o → wfH o 1 = true) := by
  rw [pushLeaf] at h
  split_ifs at h with h1 h2
  · simp only [Option.some.injEq, Prod.mk.injEq] at h
    obtain ⟨hms', hc', hov⟩ := h
    subst hms' hc' hov
    refine ⟨by simp [hlen], by omega, by intro o ho; cases ho⟩
  · simp only [Option.some.injEq, Prod.mk.injEq] at h
    obtain ⟨hms', hc', hov⟩ := h
    subst hms' hc' hov
    refine ⟨hlen, by omega, ?_⟩
    intro o ho
    rw [← Option.some.inj ho, wfH_leaves_iff]
    exact ⟨rfl, by norm_num [MAXC], rfl⟩

theorem insertInternal_spec {ms : List Metric} {cs : IList} {idx : Nat}
    {nc : Internal} {ms2 : List Metric} {cs2 : IList} {ov : Option Internal}
    {hh : Nat}
    (hcompat : ∀ cIdx, cs.get? idx = some cIdx →
      ms.set idx (Internal.total cIdx) = cs.toL.map Internal.total)
    (hlen : ms.length = cs.len)
    (hall : ∀ c ∈ cs.toL, wfH c (hh - 1) = true)
    (hwnc : wfH nc (hh - 1) = true)
    (hh2 : 2 ≤ hh)
    (h : insertInternal ms cs idx nc = some (ms2, cs2, ov)) :
    wfH (.node ms2 cs2) hh = true ∧
    (∀ o, ov = some o → wfH o hh = true) ∧
    ∃ cIdx, cs.get? idx = some cIdx ∧
      (ov = none → msum ms2 =
        msum (ms.set idx (Internal.total cIdx)) + Internal.total nc) ∧
      (∀ o, ov = some o → msum ms2 + Internal.total o =
        msum (ms.set idx (Internal.total cIdx)) + Internal.total nc) := by
  rw [insertInternal] at h
  dsimp only [] at h
  split at h
  · cases h
  · rename_i cIdx hget
    split at h
    · cases h
    · rename_i ms1 hset
      rw [setAt?_eq_some] at hset
      obtain ⟨hidx, hE1⟩ := hset
      have hmap := hcompat cIdx hget
      by_cases hlt : cs.len < MAXC
      · rw [if_pos hlt] at h
        split at h
        · rename_i ms2' cs2' hins hinsc
          simp only [Option.some.injEq, Prod.mk.injEq] at h
          obtain ⟨hm2, hc2, hov⟩ := h
          subst hm2 hc2 hov
          rw [insAt?_eq_some] at hins
          obtain ⟨hle, hE2⟩ := hins
          rw [IList.ins?_eq_some] at hinsc
          obtain ⟨hlec, hE3⟩ := hinsc
          have hlec' : idx + 1 ≤ cs.toL.length := by
            rw [← IList.len_toL]
            exact hlec
          refine ⟨?_, ?_, cIdx, hget, ?_, ?_⟩
          · rw [wfH_node_iff]
            refine ⟨?_, ?_, hh2, ?_⟩
            · rw [hE3, map_insertIdx, ← hmap, ← hE1, ← hE2]
            · rw [IList.len_toL, hE3,
                List.length_insertIdx _ _ hlec', ← IList.len_toL]
              omega
            · intro x hx
              rw [hE3, List.mem_insertIdx hlec'] at hx
              rcases hx with rfl | hx
              · exact hwnc
              · exact hall x hx
          · intro o ho
            cases ho
          · intro _
            rw [hE2, msum_insertIdx hle, hE1]
          · intro o ho
            cases ho
        · cases h
      · rw [if_neg hlt] at h
        by_cases heq : cs.len = MAXC
        · rw [if_pos heq] at h
          have hlenL : cs.toL.length = MAXC := by
            rw [← IList.len_toL]
            exact heq
          by_cases hmid : MAXC / 2 ≤ ms1.length
          · rw [if_pos hmid] at h
            by_cases hpos : idx + 1 < MAXC / 2
            · rw [if_pos hpos] at h
              split at h
              · rename_i lms lcs hins hinsc
                simp only [Option.some.injEq, Prod.mk.injEq] at h
                obtain ⟨hm2, hc2, hov⟩ := h
                subst hm2 hc2 hov
                rw [insAt?_eq_some] at hins
                obtain ⟨hle, hE2⟩ := hins
                rw [IList.ins?_eq_some] at hinsc
                obtain ⟨hlec, hE3⟩ := hinsc
                have hlec' : idx + 1 ≤ (cs.toL.take (MAXC / 2)).length := by
                  have hx : (IList.ofL (cs.toL.take (MAXC / 2))).len =
                      (cs.toL.take (MAXC / 2)).length := by
                    rw [IList.len_toL, IList.toL_ofL]
                  rw [← hx]
                  exact hlec
                have htake1 : ms1.take (MAXC / 2) =
                    (cs.toL.map Internal.total).take (MAXC / 2) := by
                  rw [hE1, hmap]
                have hdrop1 : ms1.drop (MAXC / 2) =
                    (cs.toL.map Internal.total).drop (MAXC / 2) := by
                  rw [hE1, hmap]
                refine ⟨?_, ?_, cIdx, hget, ?_, ?_⟩
                · rw [wfH_node_iff]
                  refine ⟨?_, ?_, hh2, ?_⟩
                  · rw [hE2, hE3, IList.toL_ofL, map_insertIdx,
                      List.map_take, htake1]
                  · rw [IList.len_toL, hE3, IList.toL_ofL,
                      List.length_insertIdx _ _ (by
                        rw [IList.len_toL, IList.toL_ofL] at hlec
                        exact hlec)]
                    rw [List.length_take]
                    simp only [MAXC] at *
                    omega
                  · intro x hx
                    rw [hE3, IList.toL_ofL,
                      List.mem_insertIdx (by
                        rw [IList.len_toL, IList.toL_ofL] at hlec
                        exact hlec)] at hx
                    rcases hx with rfl | hx
                    · exact hwnc
                    · exact hall x (List.mem_of_mem_take hx)
                · intro o ho
                  rw [← Option.some.inj ho, wfH_node_iff]
                  refine ⟨?_, ?_, hh2, ?_⟩
                  · rw [IList.toL_ofL, List.map_drop, ← hmap, ← hE1]
                  · rw [IList.len_toL, IList.toL_ofL, List.length_drop]
                    simp only [MAXC] at *
                    omega
                  · intro x hx
                    rw [IList.toL_ofL] at hx
                    exact hall x (List.mem_of_mem_drop hx)
                · intro ho
                  cases ho
                · intro o ho
                  rw [← Option.some.inj ho, hE2]
                  show msum ((ms1.take (MAXC / 2)).insertIdx (idx + 1)
                      (Internal.total nc)) + msum (ms1.drop (MAXC / 2)) =
                    msum (ms.set idx cIdx.total) + Internal.total nc
                  rw [msum_insertIdx hle]
                  have htd := msum_take_drop ms1 (MAXC / 2)
                  have hb1 := congrArg Metric.bytes htd
                  have hc1 := congrArg Metric.chars htd
                  rw [← hE1]
                  apply Metric.ext' <;>
                    simp only [Metric.add_bytes, Metric.add_chars]
                      at hb1 hc1 ⊢ <;> omega
              · cases h
            · rw [if_neg hpos] at h
              split at h
              · rename_i rms rcs hins hinsc
                simp only [Option.some.injEq, Prod.mk.injEq] at h
                obtain ⟨hm2, hc2, hov⟩ := h
                subst hm2 hc2 hov
                rw [insAt?_eq_some] at hins
                obtain ⟨hle, hE2⟩ := hins
                rw [IList.ins?_eq_some] at hinsc
                obtain ⟨hlec, hE3⟩ := hinsc
                have htake1 : ms1.take (MAXC / 2) =
                    (cs.toL.map Internal.total).take (MAXC / 2) := by
                  rw [hE1, hmap]
                have hdrop1 : ms1.drop (MAXC / 2) =
                    (cs.toL.map Internal.total).drop (MAXC / 2) := by
                  rw [hE1, hmap]
                refine ⟨?_, ?_, cIdx, hget, ?_, ?_⟩
                · rw [wfH_node_iff]
                  refine ⟨?_, ?_, hh2, ?_⟩
                  · rw [IList.toL_ofL, List.map_take, ← hmap, ← hE1]
                  · rw [IList.len_toL, IList.toL_ofL, List.length_take]
                    simp only [MAXC] at *
                    omega
                  · intro x hx
                    rw [IList.toL_ofL] at hx
                    exact hall x (List.mem_of_mem_take hx)
                · intro o ho
                  rw [← Option.some.inj ho, wfH_node_iff]
                  refine ⟨?_, ?_, hh2, ?_⟩
                  · rw [hE2, hE3, IList.toL_ofL, map_insertIdx,
                      List.map_drop, hdrop1]
                  · rw [IList.len_toL, hE3, IList.toL_ofL,
                      List.length_insertIdx _ _ (by
                        rw [IList.len_toL, IList.toL_ofL] at hlec
                        exact hlec)]
                    rw [List.length_drop]
                    simp only [MAXC] at *
                    omega
                  · intro x hx
                    rw [hE3, IList.toL_ofL,
                      List.mem_insertIdx (by
                        rw [IList.len_toL, IList.toL_ofL] at hlec
                        exact hlec)] at hx
                    rcases hx with rfl | hx
                    · exact hwnc
                    · exact hall x (List.mem_of_mem_drop hx)
                · intro ho
                  cases ho
                · intro o ho
                  rw [← Option.some.inj ho, hE2]
                  show msum (ms1.take (MAXC / 2)) +
                      msum ((ms1.drop (MAXC / 2)).insertIdx
                        (idx + 1 - MAXC / 2) (Internal.total nc)) =
                    msum (ms.set idx cIdx.total) + Internal.total nc
                  rw [msum_insertIdx hle]
                  have htd := msum_take_drop ms1 (MAXC / 2)
                  have hb1 := congrArg Metric.bytes htd
                  have hc1 := congrArg Metric.chars htd
                  rw [← hE1]
                  apply Metric.ext' <;>
                    simp only [Metric.add_bytes, Metric.add_chars]
                      at hb1 hc1 ⊢ <;> omega
              · cases h
          · rw [if_neg hmid] at h
            cases h
        · rw [if_neg heq] at h
          cases h

theorem insGoI_char :
    ∀ (cs : IList) (ms : List Metric) (needle : Metric) (act : InsAct),
    insGoI ms cs needle = some act →
    ∃ idx c mi needle',
      cs.get? idx = some c ∧ ms.get? idx = some mi ∧
      (needle.chars < (msum ms).chars → needle'.chars < mi.chars) ∧
      ((∃ c', act = .noOv idx c' (decide (needle'.chars < mi.chars)) ∧
          insertImpl c needle' = some (c', none) ∧ idx + 1 = ms.length) ∨
       (∃ c', act = .noOv idx c' true ∧
          insertImpl c needle' = some (c', none) ∧
          needle'.chars < mi.chars) ∨
       (∃ c' nc, act = .ovAct idx c' nc ∧
          insertImpl c needle' = some (c', some nc))) := by
  intro cs
  induction cs using ilist_ind with
  | hnil =>
    intro ms needle act h
    rw [insGoI, insGoNil_none] at h
    cases h
  | hcons c cs' ih =>
    intro ms needle act h
    cases ms with
    | nil => simp [insGoI] at h
    | cons m msr =>
      cases msr with
      | nil =>
        rw [insGoI] at h
        split at h
        · cases h
        · rename_i c' nc himp
          simp only [Option.some.injEq] at h
          subst h
          refine ⟨0, c, m, needle, rfl, rfl, ?_, Or.inr (Or.inr ⟨c', nc, rfl, himp⟩)⟩
          intro hint
          simpa using hint
        · rename_i c' himp
          simp only [Option.some.injEq] at h
          subst h
          refine ⟨0, c, m, needle, rfl, rfl, ?_, Or.inl ⟨c', rfl, himp, rfl⟩⟩
          intro hint
          simpa using hint
      | cons m2 msr2 =>
        rw [insGoI] at h
        split_ifs at h with hlt
        · split at h
          · cases h
          · rename_i c' nc himp
            simp only [Option.some.injEq] at h
            subst h
            exact ⟨0, c, m, needle, rfl, rfl, fun _ => hlt,
              Or.inr (Or.inr ⟨c', nc, rfl, himp⟩)⟩
          · rename_i c' himp
            simp only [Option.some.injEq] at h
            subst h
            exact ⟨0, c, m, needle, rfl, rfl, fun _ => hlt,
              Or.inr (Or.inl ⟨c', rfl, himp, hlt⟩)⟩
        · split at h
          · cases h
          · rename_i needle1 hsub
            rw [Option.map_eq_some'] at h
            obtain ⟨act0, hact0, heq⟩ := h
            obtain ⟨idx, c0, mi, needle', hg, hm, hint, hvar⟩ :=
              ih (m2 :: msr2) needle1 act0 hact0
            have hint2 : needle.chars < (msum (m :: m2 :: msr2)).chars →
                needle'.chars < mi.chars := by
              intro hx
              apply hint
              have hadd := Metric.sub?_add hsub
              have hc := congrArg Metric.chars hadd
              simp only [Metric.add_chars] at hc
              simp only [msum_cons, Metric.add_chars] at hx ⊢
              omega
            refine ⟨idx + 1, c0, mi, needle', ?_, ?_, hint2, ?_⟩
            · exact hg
            · exact hm
            · rcases hvar with ⟨c', ha, hi, hl⟩ | ⟨c', ha, hi, hl⟩ |
                ⟨c', nc, ha, hi⟩
              · refine Or.inl ⟨c', ?_, hi, by simp [← hl]⟩
                rw [← heq, ha]
                rfl
              · refine Or.inr (Or.inl ⟨c', ?_, hi, hl⟩)
                rw [← heq, ha]
                rfl
              · refine Or.inr (Or.inr ⟨c', nc, ?_, hi⟩)
                rw [← heq, ha]
                rfl

theorem wfH_pos {t : Internal} {h : Nat} (hw : wfH t h = true) : 1 ≤ h := by
  cases t with
  | leaves ms c =>
    rw [wfH_leaves_iff] at hw
    omega
  | node ms cs =>
    rw [wfH_node_iff] at hw
    omega

theorem insertImpl_wfH :
    ∀ (t : Internal) {h : Nat} (needle : Metric) (t' : Internal)
      (ov : Option Internal),
    wfH t h = true → insertImpl t needle = some (t', ov) →
    wfH t' h = true ∧ (∀ o, ov = some o → wfH o h = true) ∧
    (needle.chars < (Internal.total t).chars →
      (ov = none → Internal.total t' = Internal.total t) ∧
      (∀ o, ov = some o →
        Internal.total t' + Internal.total o = Internal.total t)) := by
  intro t
  induction t using internal_ind with
  | hl ms c =>
    intro h needle t' ov hw hs
    rw [insertImpl] at hs
    split_ifs at hs with hinv
    rw [wfH_leaves_iff] at hw
    obtain ⟨hlen, hmax, hh1⟩ := hw
    subst hh1
    split at hs
    · cases hs
    · rename_i act hact
      cases act with
      | noOv i c0 r => simp [applyInsLeaf] at hs
      | ovAct i c0 nc => simp [applyInsLeaf] at hs
      | leafIns i nAt =>
        rw [applyInsLeaf] at hs
        rw [Option.map_eq_some'] at hs
        obtain ⟨r, hr, heq⟩ := hs
        obtain ⟨ms2, c2, ov2⟩ := r
        simp only [Prod.mk.injEq] at heq
        obtain ⟨ht', hov⟩ := heq
        subst ht' hov
        obtain ⟨k1, k2, k3, k4, k5⟩ := insertLeaf_spec hlen hr
        refine ⟨?_, k3, fun _ => ⟨?_, ?_⟩⟩
        · rw [wfH_leaves_iff]
          exact ⟨k1, by omega, rfl⟩
        · intro hov
          show msum ms2 = msum ms
          exact k4 hov
        · intro o ho
          show msum ms2 + Internal.total o = msum ms
          exact k5 o ho
      | leafPush res =>
        rw [applyInsLeaf] at hs
        rw [Option.map_eq_some'] at hs
        obtain ⟨r, hr, heq⟩ := hs
        obtain ⟨ms2, c2, ov2⟩ := r
        simp only [Prod.mk.injEq] at heq
        obtain ⟨ht', hov⟩ := heq
        subst ht' hov
        obtain ⟨k1, k2, k3⟩ := pushLeaf_spec hlen hr
        refine ⟨?_, k3, fun hint => ?_⟩
        · rw [wfH_leaves_iff]
          exact ⟨k1, by omega, rfl⟩
        · exfalso
          exact insGoL_interior ms needle _ hint hact res rfl
  | hn ms cs ih =>
    intro h needle t' ov hw hs
    rw [insertImpl] at hs
    split_ifs at hs with hinv
    rw [wfH_node_iff] at hw
    obtain ⟨hms, hmax, hh2, hall⟩ := hw
    have hlms : ms.length = cs.len := by
      rw [hms, List.length_map, IList.len_toL]
    split at hs
    · cases hs
    · rename_i act hact
      obtain ⟨idx, c0, mi, needle', hg, hm, hint, hvar⟩ :=
        insGoI_char cs ms needle act hact
      have hmem : c0 ∈ cs.toL := List.get?_mem hg
      have hmi : mi = Internal.total c0 := by
        rw [hms, List.get?_map,
          show cs.toL.get? idx = some c0 from hg] at hm
        simp only [Option.map_some', Option.some.injEq] at hm
        exact hm.symm
      have hidxL : idx < ms.length := (List.get?_eq_some.mp hm).1
      rcases hvar with ⟨c', ha, hi, hl⟩ | ⟨c', ha, hi, hl⟩ |
        ⟨c', nc, ha, hi⟩
      · -- the last-child descent: the flag records the comparison
        subst ha
        rw [applyInsNode] at hs
        split at hs
        · cases hs
        · rename_i cs1 hset
          rw [IList.set?_eq_some] at hset
          obtain ⟨hlt1, hE1⟩ := hset
          obtain ⟨hwc', hovc, hconsc⟩ := ih c0 hmem needle' c' none
            (hall c0 hmem) hi
          by_cases hflag : needle'.chars < mi.chars
          · rw [if_pos (by simp [hflag])] at hs
            simp only [Option.some.injEq, Prod.mk.injEq] at hs
            obtain ⟨ht', hov⟩ := hs
            subst ht' hov
            have htc' : Internal.total c' = Internal.total c0 :=
              (hconsc (by rw [← hmi]; exact hflag)).1 rfl
            have hmseq : ms = cs1.toL.map Internal.total := by
              rw [hE1, List.map_set, ← hms, htc']
              rw [set_get_self]
              rw [hms, List.get?_map,
                show cs.toL.get? idx = some c0 from hg]
              rfl
            refine ⟨?_, ?_, fun _ => ⟨fun _ => rfl, ?_⟩⟩
            · rw [wfH_node_iff]
              refine ⟨hmseq, ?_, hh2, ?_⟩
              · rw [IList.len_toL, hE1, List.length_set, ← IList.len_toL]
                exact hmax
              · intro x hx
                rw [hE1] at hx
                rcases List.mem_or_eq_of_mem_set hx with hx' | rfl
                · exact hall x hx'
                · exact hwc'
            · intro o ho
              cases ho
            · intro o ho
              cases ho
          · rw [if_neg (by simp [hflag])] at hs
            split at hs
            · cases hs
            · rename_i lastC hlast
              split at hs
              · cases hs
              · rename_i ms1 hsetm
                simp only [Option.some.injEq, Prod.mk.injEq] at hs
                obtain ⟨ht', hov⟩ := hs
                subst ht' hov
                rw [setAt?_eq_some] at hsetm
                obtain ⟨hidx2, hE2⟩ := hsetm
                have hlastv : lastC = c' := by
                  have hx : cs1.toL.getLast? = some c' := by
                    have hidx' : idx = cs.toL.length - 1 := by
                      have h9 : cs.toL.length = cs.len :=
                        (IList.len_toL cs).symm
                      omega
                    rw [hE1, hidx']
                    apply getLast_set_last
                    intro hnil
                    have hg' : cs.toL.get? idx = some c0 := hg
                    rw [hnil] at hg'
                    cases hg'
                  rw [hlast] at hx
                  exact Option.some.inj hx
                subst hlastv
                refine ⟨?_, ?_, fun hint2 => ?_⟩
                · rw [wfH_node_iff]
                  refine ⟨?_, ?_, hh2, ?_⟩
                  · rw [hE2, hE1, List.map_set, ← hms]
                  · rw [IList.len_toL, hE1, List.length_set,
                      ← IList.len_toL]
                    exact hmax
                  · intro x hx
                    rw [hE1] at hx
                    rcases List.mem_or_eq_of_mem_set hx with hx' | rfl
                    · exact hall x hx'
                    · exact hwc'
                · intro o ho
                  cases ho
                · exfalso
                  apply hflag
                  exact hint hint2
      · -- interior descent, no child overflow
        subst ha
        rw [applyInsNode] at hs
        split at hs
        · cases hs
        · rename_i cs1 hset
          rw [IList.set?_eq_some] at hset
          obtain ⟨hlt1, hE1⟩ := hset
          obtain ⟨hwc', hovc, hconsc⟩ := ih c0 hmem needle' c' none
            (hall c0 hmem) hi
          rw [if_pos rfl] at hs
          simp only [Option.some.injEq, Prod.mk.injEq] at hs
          obtain ⟨ht', hov⟩ := hs
          subst ht' hov
          have htc' : Internal.total c' = Internal.total c0 :=
            (hconsc (by rw [← hmi]; exact hl)).1 rfl
          have hmseq : ms = cs1.toL.map Internal.total := by
            rw [hE1, List.map_set, ← hms, htc']
            rw [set_get_self]
            rw [hms, List.get?_map,
              show cs.toL.get? idx = some c0 from hg]
            rfl
          refine ⟨?_, ?_, fun _ => ⟨fun _ => rfl, ?_⟩⟩
          · rw [wfH_node_iff]
            refine ⟨hmseq, ?_, hh2, ?_⟩
            · rw [IList.len_toL, hE1, List.length_set, ← IList.len_toL]
              exact hmax
            · intro x hx
              rw [hE1] at hx
              rcases List.mem_or_eq_of_mem_set hx with hx' | rfl
              · exact hall x hx'
              · exact hwc'
          · intro o ho
            cases ho
          · intro o ho
            cases ho
      · -- the child overflowed: insert the new sibling at this node
        subst ha
        rw [applyInsNode] at hs
        split at hs
        · cases hs
        · rename_i cs1 hset
          rw [IList.set?_eq_some] at hset
          obtain ⟨hlt1, hE1⟩ := hset
          obtain ⟨hwc', hovc, hconsc⟩ := ih c0 hmem needle' c' (some nc)
            (hall c0 hmem) hi
          split at hs
          · cases hs
          · rename_i r hii
            simp only [Option.some.injEq, Prod.mk.injEq] at hs
            obtain ⟨ht', hov⟩ := hs
            subst ht' hov
            have hcompat : ∀ cIdx, cs1.get? idx = some cIdx →
                ms.set idx (Internal.total cIdx) =
                  cs1.toL.map Internal.total := by
              intro cIdx hcidx
              have hx : cs1.toL.get? idx = some cIdx := hcidx
              rw [hE1, List.get?_set_eq_of_lt _ (by
                rw [← IList.len_toL]; exact hlt1)] at hx
              have hceq : cIdx = c' := (Option.some.inj hx).symm
              subst hceq
              rw [hE1, List.map_set, ← hms]
            have hlen1 : ms.length = cs1.len := by
              rw [IList.len_toL, hE1, List.length_set, ← IList.len_toL]
              exact hlms
            have hall1 : ∀ x ∈ cs1.toL, wfH x (h - 1) = true := by
              intro x hx
              rw [hE1] at hx
              rcases List.mem_or_eq_of_mem_set hx with hx' | rfl
              · exact hall x hx'
              · exact hwc'
            obtain ⟨k1, k2, cIdx, hcidx, k4, k5⟩ :=
              insertInternal_spec hcompat hlen1 hall1 (hovc nc rfl)
                hh2 hii
            have hceq : cIdx = c' := by
              have hx : cs1.toL.get? idx = some cIdx := hcidx
              rw [hE1, List.get?_set_eq_of_lt _ (by
                rw [← IList.len_toL]; exact hlt1)] at hx
              exact (Option.some.inj hx).symm
            subst hceq
            refine ⟨k1, k2, fun hint2 => ?_⟩
            have hstrict : needle'.chars < (Internal.total c0).chars := by
              rw [← hmi]
              exact hint hint2
            have hcc := (hconsc hstrict).2 nc rfl
            have hmset := msum_set hm (a := Internal.total cIdx)
            constructor
            · intro hov
              have k4' := k4 hov
              show msum r.1 = msum ms
              rw [k4']
              have hb1 := congrArg Metric.bytes hmset
              have hc1 := congrArg Metric.chars hmset
              have hb2 := congrArg Metric.bytes hcc
              have hc2 := congrArg Metric.chars hcc
              have hb3 := congrArg Metric.bytes hmi
              have hc3 := congrArg Metric.chars hmi
              simp only [Metric.add_bytes, Metric.add_chars]
                at hb1 hc1 hb2 hc2
              apply Metric.ext' <;> simp only [Metric.add_bytes,
                Metric.add_chars] <;> omega
            · intro o ho
              have k5' := k5 o ho
              show msum r.1 + Internal.total o = msum ms
              rw [k5']
              have hb1 := congrArg Metric.bytes hmset
              have hc1 := congrArg Metric.chars hmset
              have hb2 := congrArg Metric.bytes hcc
              have hc2 := congrArg Metric.chars hcc
              have hb3 := congrArg Metric.bytes hmi
              have hc3 := congrArg Metric.chars hmi
              simp only [Metric.add_bytes, Metric.add_chars]
                at hb1 hc1 hb2 hc2
              apply Metric.ext' <;> simp only [Metric.add_bytes,
                Metric.add_chars] <;> omega

theorem insertTree_wfH {t : Internal} {h : Nat} {needle : Metric}
    {t' : Internal} (hw : wfH t h = true)
    (hs : insertTree t needle = some t') : ∃ h', wfH t' h' = true := by
  rw [insertTree] at hs
  rw [Option.map_eq_some'] at hs
  obtain ⟨p, hp, heq⟩ := hs
  obtain ⟨t1, ov⟩ := p
  obtain ⟨k1, k2, _⟩ := insertImpl_wfH t needle t1 ov hw hp
  cases ov with
  | none => exact ⟨h, by rw [← heq]; exact k1⟩
  | some right =>
    refine ⟨h + 1, ?_⟩
    rw [← heq]
    have hp1 := wfH_pos k1
    rw [wfH_node_iff]
    refine ⟨?_, ?_, by omega, ?_⟩
    · simp [IList.toL]
    · simp [IList.len_toL, IList.toL, MAXC]
    · intro x hx
      simp only [IList.toL, List.mem_cons, List.not_mem_nil, or_false]
        at hx
      have hsimp : h + 1 - 1 = h := by omega
      rw [hsimp]
      rcases hx with rfl | rfl
      · exact k1
      · exact k2 x rfl

theorem drain?_eq_some {α : Type} {l l' : List α} {a b : Nat} :
    drain? l a b = some l' ↔
      a ≤ b ∧ b ≤ l.length ∧ l' = l.take a ++ l.drop b := by
  unfold drain?
  split_ifs with hg
  · simp only [Option.some.injEq]
    constructor
    · rintro rfl
      exact ⟨hg.1, hg.2, rfl⟩
    · rintro ⟨_, _, rfl⟩
      rfl
  · constructor
    · rintro ⟨⟩
    · rintro ⟨h1, h2, _⟩
      exact absurd ⟨h1, h2⟩ hg

theorem get?_drain_lt {α : Type} {l : List α} {a b j : Nat}
    (hj : j < a) (hab : a ≤ b) (hb : b ≤ l.length) :
    (l.take a ++ l.drop b).get? j = l.get? j := by
  rw [List.get?_append (by rw [List.length_take]; omega)]
  exact List.get?_take hj

theorem get?_drain_at {α : Type} {l : List α} {a b : Nat}
    (hab : a ≤ b) (hb : b ≤ l.length) :
    (l.take a ++ l.drop b).get? a = l.get? b := by
  rw [List.get?_append_right (by rw [List.length_take]; omega)]
  rw [List.length_take, List.get?_drop]
  congr 1
  omega

theorem drOne_char :
    ∀ (cs : IList) (i : Nat) (s e : Metric) {res : Option Nat}
      {c' : Internal},
    drOne i cs s e = some (res, c') →
    ∃ c, cs.get? i = some c ∧ deleteRange c s e = some (res, c') := by
  intro cs
  induction cs using ilist_ind with
  | hnil =>
    intro i s e res c' h
    rw [show drOne i .nil s e = none from by cases i <;> rfl] at h
    cases h
  | hcons c cs' ih =>
    intro i s e res c' h
    cases i with
    | zero =>
      rw [drOne] at h
      exact ⟨c, rfl, h⟩
    | succ n =>
      rw [drOne] at h
      obtain ⟨c0, hg, hd⟩ := ih n s e h
      exact ⟨c0, hg, hd⟩

theorem mergeChildren_spec {ms : List Metric} {cs : IList} {idx : Nat}
    {res : Option Nat} {cs2 : IList} {ms2 : List Metric} {hh : Nat}
    (hms : ms = cs.toL.map Internal.total)
    (hall : ∀ c ∈ cs.toL, wfH c hh = true)
    (hbound : ∀ l r,
      cs.get? ((if idx ≠ 0 then idx else idx + 1) - 1) = some l →
      cs.get? (if idx ≠ 0 then idx else idx + 1) = some r →
      l.clen + r.clen ≤ MAXC)
    (h : mergeChildren cs ms idx = some (res, cs2, ms2)) :
    ms2 = cs2.toL.map Internal.total ∧ cs2.len + 1 = cs.len ∧
      msum ms2 = msum ms ∧ (∀ c ∈ cs2.toL, wfH c hh = true) ∧
      res = nzNew (MINC - cs2.len) := by
  unfold mergeChildren at h
  set ri := (if idx ≠ 0 then idx else idx + 1) with hri
  have hri1 : 1 ≤ ri := by
    rw [hri]
    split <;> omega
  dsimp only [] at h
  split at h
  · rename_i left right hgl hgr
    split at h
    · cases h
    · rename_i merged hmg
      split at h
      · cases h
      · rename_i cs1 hset
        split at h
        · cases h
        · rename_i p x cs2' hrm
          split at h
          · cases h
          · rename_i q rightMetric ms1 hrmm
            split at h
            · cases h
            · rename_i ms2' hadd
              simp only [Option.some.injEq, Prod.mk.injEq] at h
              obtain ⟨hb, hcs2, hms2⟩ := h
              subst hcs2 hms2
              have hwl := hall left (List.get?_mem hgl)
              have hwr := hall right (List.get?_mem hgr)
              obtain ⟨hwm, htm⟩ :=
                mergeSibling_spec hwl hwr (hbound left right hgl hgr) hmg
              rw [IList.set?_eq_some] at hset
              obtain ⟨hlt1, hE1⟩ := hset
              rw [IList.rm?_eq_some] at hrm
              obtain ⟨hget2, hE2⟩ := hrm
              rw [rmAt?_eq_some] at hrmm
              obtain ⟨hgetm, hE3⟩ := hrmm
              rw [addAt?_eq_some] at hadd
              obtain ⟨mj, hmj, hE4⟩ := hadd
              have hriL : ri < cs.toL.length := by
                have := (List.get?_eq_some.mp hget2).1
                rw [hE1, List.length_set] at this
                exact this
              have hmjv : mj = Internal.total left := by
                rw [hE3] at hmj
                rw [get?_eraseIdx_lt _ _ _ (by omega)] at hmj
                rw [hms, List.get?_map] at hmj
                rw [show cs.toL.get? (ri - 1) = some left from hgl] at hmj
                simp only [Option.map_some', Option.some.injEq] at hmj
                exact hmj.symm
              have hrmv : rightMetric = Internal.total right := by
                rw [hms, List.get?_map] at hgetm
                rw [show cs.toL.get? ri = some right from hgr] at hgetm
                simp only [Option.map_some', Option.some.injEq] at hgetm
                exact hgetm.symm
              have hlen2 : cs2'.len + 1 = cs.len := by
                rw [IList.len_toL, hE2, List.length_eraseIdx_of_lt
                  (by rw [hE1, List.length_set]; exact hriL)]
                rw [hE1, List.length_set, IList.len_toL]
                omega
              refine ⟨?_, hlen2, ?_, ?_, ?_⟩
              · rw [hE4, hE3, hE2, hE1]
                rw [map_eraseIdx, List.map_set, ← hms, htm]
                rw [hmjv, hrmv]
                rw [set_eraseIdx_comm _ _ _ _ (by omega)]
              · rw [hE4]
                have hs1 := msum_set hmj (a := mj + rightMetric)
                have hs2 : msum ms1 + rightMetric = msum ms := by
                  rw [hE3]
                  exact msum_eraseIdx hgetm
                have hb1 := congrArg Metric.bytes hs1
                have hc1 := congrArg Metric.chars hs1
                have hb2 := congrArg Metric.bytes hs2
                have hc2 := congrArg Metric.chars hs2
                simp only [Metric.add_bytes, Metric.add_chars]
                  at hb1 hc1 hb2 hc2
                apply Metric.ext' <;> omega
              · intro c hc
                rw [hE2] at hc
                have hc' := List.mem_of_mem_eraseIdx hc
                rw [hE1] at hc'
                rcases List.mem_or_eq_of_mem_set hc' with hc'' | rfl
                · exact hall c hc''
                · exact hwm
              · exact hb.symm
  · cases h

theorem mergeNode_clen {c : Internal} {nd : RNode} {nm : Metric} {pos : Nat}
    {c' : Internal} (h : mergeNode c nd nm pos = some c') :
    c'.clen ≤ c.clen + 1 := by
  cases c with
  | leaves ms cnt =>
    cases nd with
    | int n =>
      rw [show mergeNode (.leaves ms cnt) (.int n) nm pos = none from rfl] at h
      cases h
    | leaf =>
      rcases cnt with _ | _ | k
      · rw [mergeNode] at h
        simp only [Option.some.injEq] at h
        subst h
        norm_num [Internal.clen]
      · rw [mergeNode] at h
        split at h
        · rename_i ms' hadd
          simp only [Option.some.injEq] at h
          subst h
          norm_num [Internal.clen]
        · cases h
      · rw [show mergeNode (.leaves ms (k + 2)) .leaf nm pos = none
          from rfl] at h
        cases h
  | node ms cs =>
    cases nd with
    | leaf =>
      rw [show mergeNode (.node ms cs) .leaf nm pos = none from rfl] at h
      cases h
    | int n =>
      rw [mergeNode] at h
      split at h
      · rename_i ms' cs' hins hinsc
        simp only [Option.some.injEq] at h
        subst h
        rw [IList.ins?_eq_some] at hinsc
        obtain ⟨hpos, hE⟩ := hinsc
        show cs'.len ≤ cs.len + 1
        rw [IList.len_toL, hE,
          List.length_insertIdx _ _ (by rw [← IList.len_toL]; exact hpos),
          IList.len_toL]
      · cases h

theorem stealLeftLoop_spec {hh : Nat} :
    ∀ (n i : Nat) (cs : IList) (ms : List Metric)
      {res : Option Nat} {cs' : IList} {ms' : List Metric} {leftIdx idx : Nat},
    leftIdx + 1 = idx →
    ms = cs.toL.map Internal.total →
    (∀ c ∈ cs.toL, wfH c hh = true) →
    (∀ c, cs.get? idx = some c → c.clen + n ≤ MINC) →
    stealLeftLoop leftIdx idx i n cs ms = some (res, cs', ms') →
    ms' = cs'.toL.map Internal.total ∧ cs'.len = cs.len ∧
      (∀ c ∈ cs'.toL, wfH c hh = true) ∧
      (∀ j, j ≠ idx → j ≠ leftIdx → cs'.get? j = cs.get? j) ∧
      (∀ k, res = some k → 1 ≤ k ∧
        (∀ c, cs'.get? idx = some c → c.clen + k ≤ MINC) ∧
        (∀ l, cs'.get? leftIdx = some l → l.clen ≤ MINC)) := by
  intro n
  induction n with
  | zero =>
    intro i cs ms res cs' ms' leftIdx idx hli hms hall hchild h
    rw [stealLeftLoop] at h
    simp only [Option.some.injEq, Prod.mk.injEq] at h
    obtain ⟨hres, hcs, hms'⟩ := h
    subst hcs hms'
    refine ⟨hms, rfl, hall, fun j _ _ => rfl, ?_⟩
    intro k hk
    rw [← hres] at hk
    cases hk
  | succ n ih =>
    intro i cs ms res cs' ms' leftIdx idx hli hms hall hchild h
    rw [stealLeftLoop] at h
    split at h
    · cases h
    · rename_i leftC hgl
      split at h
      · cases h
      · rename_i leftC' hsg
        · -- refusal: the left sibling has at most MIN children
          split at h
          · rename_i cs1 hst
            simp only [Option.some.injEq, Prod.mk.injEq] at h
            obtain ⟨hres, hcs, hms'⟩ := h
            subst hcs hms'
            have hwl := hall leftC (List.get?_mem hgl)
            obtain ⟨href, _⟩ := stealGreatest_spec hwl hsg
            obtain ⟨heqC, hclen⟩ := href rfl
            rw [IList.set?_eq_some] at hst
            obtain ⟨hlt, hE⟩ := hst
            have hcs1 : cs1 = cs := by
              apply IList.toL_inj
              rw [hE, heqC, set_get_self hgl]
            subst hcs1
            refine ⟨hms, rfl, hall, fun j _ _ => rfl, ?_⟩
            intro k hk
            rw [← hres] at hk
            simp only [nzNew, if_neg (Nat.succ_ne_zero n),
              Option.some.injEq] at hk
            subst hk
            refine ⟨by omega, ?_, ?_⟩
            · intro c hc
              exact hchild c hc
            · intro l hl
              rw [hgl, Option.some.injEq] at hl
              rw [hl] at hclen
              exact hclen
          · cases h
      · rename_i nd nm leftC' hsg
        · split at h
          · cases h
          · rename_i cs1 hst1
            split at h
            · cases h
            · rename_i c hgc
              split at h
              · cases h
              · rename_i c' hmg
                split at h
                · cases h
                · rename_i cs2 hst2
                  split at h
                  · cases h
                  · rename_i ms1 hadd
                    split at h
                    · cases h
                    · rename_i ms2 hsub
                      -- facts about the steal
                      have hne : leftIdx ≠ idx := by omega
                      have hwl := hall leftC (List.get?_mem hgl)
                      obtain ⟨_, hsucc⟩ := stealGreatest_spec hwl hsg
                      obtain ⟨hwl', htot, hcl', hpay⟩ := hsucc nd nm rfl
                      rw [IList.set?_eq_some] at hst1
                      obtain ⟨hlt1, hE1⟩ := hst1
                      rw [IList.set?_eq_some] at hst2
                      obtain ⟨hlt2, hE2⟩ := hst2
                      -- c is the untouched child at idx
                      have hgc0 : cs.toL.get? idx = some c := by
                        rw [IList.get?_toL, hE1,
                          List.get?_set_ne _ _ hne] at hgc
                        exact hgc
                      have hcc := hchild c hgc0
                      -- the merged child
                      obtain ⟨hwc', htc', _⟩ :=
                        mergeNode_spec (hall c (List.get?_mem hgc0))
                          (by simp only [MINC] at hcc ⊢; omega) hpay hmg
                      have hclc' := mergeNode_clen hmg
                      -- metric bookkeeping
                      rw [addAt?_eq_some] at hadd
                      obtain ⟨m0, hm0, hE3⟩ := hadd
                      have hm0v : m0 = Internal.total c := by
                        rw [hms, List.get?_map, hgc0] at hm0
                        simp only [Option.map_some', Option.some.injEq] at hm0
                        exact hm0.symm
                      rw [subAt?_eq_some] at hsub
                      obtain ⟨mL, mL', hmL, hmLs, hE4⟩ := hsub
                      have hgl' : cs.toL.get? leftIdx = some leftC := hgl
                      have hmLv : mL = Internal.total leftC := by
                        rw [hE3, List.get?_set_ne _ _ (by omega),
                          hms, List.get?_map, hgl'] at hmL
                        simp only [Option.map_some', Option.some.injEq] at hmL
                        exact hmL.symm
                      have hmLv' : mL' = Internal.total leftC' := by
                        rw [hmLv, ← htot, Metric.add_sub?,
                          Option.some.injEq] at hmLs
                        exact hmLs.symm
                      have hidxlt : idx < cs.toL.length :=
                        (List.get?_eq_some.mp hgc0).1
                      have hlleft : leftIdx < cs.toL.length := by
                        rw [← IList.len_toL]; exact hlt1
                      -- IH hypotheses on (cs2, ms2)
                      have hms2 : ms2 = cs2.toL.map Internal.total := by
                        rw [hE4, hE3, hE2, hE1, hms, hm0v, hmLv',
                          List.map_set, List.map_set, ← htc',
                          List.set_comm _ _ _ (show idx ≠ leftIdx from by omega)]
                      have hall2 : ∀ x ∈ cs2.toL, wfH x hh = true := by
                        intro x hx
                        rw [hE2] at hx
                        rcases List.mem_or_eq_of_mem_set hx with hx1 | rfl
                        · rw [hE1] at hx1
                          rcases List.mem_or_eq_of_mem_set hx1 with hx2 | rfl
                          · exact hall x hx2
                          · exact hwl'
                        · exact hwc'
                      have hchild2 : ∀ x, cs2.get? idx = some x →
                          x.clen + n ≤ MINC := by
                        intro x hx
                        rw [IList.get?_toL, hE2,
                          List.get?_set_eq_of_lt _
                            (by rw [hE1, List.length_set]; exact hidxlt),
                          Option.some.injEq] at hx
                        subst hx
                        simp only [MINC] at hcc ⊢
                        omega
                      obtain ⟨ihms, ihlen, ihall, ihframe, ihres⟩ :=
                        ih (i + 1) cs2 ms2 hli hms2 hall2 hchild2 h
                      refine ⟨ihms, ?_, ihall, ?_, ihres⟩
                      · rw [ihlen, IList.len_toL, hE2, List.length_set,
                          hE1, List.length_set, IList.len_toL]
                      · intro j hj1 hj2
                        rw [ihframe j hj1 hj2, IList.get?_toL, hE2,
                          List.get?_set_ne _ _ (by omega), hE1,
                          List.get?_set_ne _ _ (by omega), IList.get?_toL]

theorem stealRightLoop_spec {hh : Nat} :
    ∀ (n i : Nat) (cs : IList) (ms : List Metric)
      {res : Option Nat} {cs' : IList} {ms' : List Metric} {idx rightIdx : Nat},
    idx + 1 = rightIdx →
    ms = cs.toL.map Internal.total →
    (∀ c ∈ cs.toL, wfH c hh = true) →
    (∀ c, cs.get? idx = some c → c.clen + n ≤ MINC) →
    stealRightLoop idx rightIdx i n cs ms = some (res, cs', ms') →
    ms' = cs'.toL.map Internal.total ∧ cs'.len = cs.len ∧
      (∀ c ∈ cs'.toL, wfH c hh = true) ∧
      (∀ j, j ≠ idx → j ≠ rightIdx → cs'.get? j = cs.get? j) ∧
      (∀ k, res = some k → 1 ≤ k ∧
        (∀ c, cs'.get? idx = some c → c.clen + k ≤ MINC) ∧
        (∀ r, cs'.get? rightIdx = some r → r.clen ≤ MINC)) := by
  intro n
  induction n with
  | zero =>
    intro i cs ms res cs' ms' idx rightIdx hri hms hall hchild h
    rw [stealRightLoop] at h
    simp only [Option.some.injEq, Prod.mk.injEq] at h
    obtain ⟨hres, hcs, hms'⟩ := h
    subst hcs hms'
    refine ⟨hms, rfl, hall, fun j _ _ => rfl, ?_⟩
    intro k hk
    rw [← hres] at hk
    cases hk
  | succ n ih =>
    intro i cs ms res cs' ms' idx rightIdx hri hms hall hchild h
    rw [stealRightLoop] at h
    split at h
    · cases h
    · rename_i rightC hgr
      split at h
      · cases h
      · rename_i rightC' hsg
        · -- refusal: the right sibling has at most MIN children
          split at h
          · rename_i cs1 hst
            simp only [Option.some.injEq, Prod.mk.injEq] at h
            obtain ⟨hres, hcs, hms'⟩ := h
            subst hcs hms'
            have hwr := hall rightC (List.get?_mem hgr)
            obtain ⟨href, _⟩ := stealLeast_spec hwr hsg
            obtain ⟨heqC, hclen⟩ := href rfl
            rw [IList.set?_eq_some] at hst
            obtain ⟨hlt, hE⟩ := hst
            have hcs1 : cs1 = cs := by
              apply IList.toL_inj
              rw [hE, heqC, set_get_self hgr]
            subst hcs1
            refine ⟨hms, rfl, hall, fun j _ _ => rfl, ?_⟩
            intro k hk
            rw [← hres] at hk
            simp only [nzNew, if_neg (Nat.succ_ne_zero n),
              Option.some.injEq] at hk
            subst hk
            refine ⟨by omega, ?_, ?_⟩
            · intro c hc
              exact hchild c hc
            · intro r hr
              rw [hgr, Option.some.injEq] at hr
              rw [hr] at hclen
              exact hclen
          · cases h
      · rename_i nd nm rightC' hsg
        · split at h
          · cases h
          · rename_i cs1 hst1
            split at h
            · cases h
            · rename_i c hgc
              split at h
              · cases h
              · rename_i c' hmg
                split at h
                · cases h
                · rename_i cs2 hst2
                  split at h
                  · cases h
                  · rename_i ms1 hadd
                    split at h
                    · cases h
                    · rename_i ms2 hsub
                      have hne : rightIdx ≠ idx := by omega
                      have hwr := hall rightC (List.get?_mem hgr)
                      obtain ⟨_, hsucc⟩ := stealLeast_spec hwr hsg
                      obtain ⟨hwr', htot, hcl', hpay⟩ := hsucc nd nm rfl
                      rw [IList.set?_eq_some] at hst1
                      obtain ⟨hlt1, hE1⟩ := hst1
                      rw [IList.set?_eq_some] at hst2
                      obtain ⟨hlt2, hE2⟩ := hst2
                      have hgc0 : cs.toL.get? idx = some c := by
                        rw [IList.get?_toL, hE1,
                          List.get?_set_ne _ _ hne] at hgc
                        exact hgc
                      have hcc := hchild c hgc0
                      obtain ⟨hwc', htc', _⟩ :=
                        mergeNode_spec (hall c (List.get?_mem hgc0))
                          (by simp only [MINC] at hcc ⊢; omega) hpay hmg
                      have hclc' := mergeNode_clen hmg
                      rw [addAt?_eq_some] at hadd
                      obtain ⟨m0, hm0, hE3⟩ := hadd
                      have hm0v : m0 = Internal.total c := by
                        rw [hms, List.get?_map, hgc0] at hm0
                        simp only [Option.map_some', Option.some.injEq] at hm0
                        exact hm0.symm
                      rw [subAt?_eq_some] at hsub
                      obtain ⟨mR, mR', hmR, hmRs, hE4⟩ := hsub
                      have hgr' : cs.toL.get? rightIdx = some rightC := hgr
                      have hmRv : mR = Internal.total rightC := by
                        rw [hE3, List.get?_set_ne _ _ (by omega),
                          hms, List.get?_map, hgr'] at hmR
                        simp only [Option.map_some', Option.some.injEq] at hmR
                        exact hmR.symm
                      have hmRv' : mR' = Internal.total rightC' := by
                        rw [hmRv, ← htot, Metric.add_sub?,
                          Option.some.injEq] at hmRs
                        exact hmRs.symm
                      have hidxlt : idx < cs.toL.length :=
                        (List.get?_eq_some.mp hgc0).1
                      have hms2 : ms2 = cs2.toL.map Internal.total := by
                        rw [hE4, hE3, hE2, hE1, hms, hm0v, hmRv',
                          List.map_set, List.map_set, ← htc',
                          List.set_comm _ _ _
                            (show idx ≠ rightIdx from by omega)]
                      have hall2 : ∀ x ∈ cs2.toL, wfH x hh = true := by
                        intro x hx
                        rw [hE2] at hx
                        rcases List.mem_or_eq_of_mem_set hx with hx1 | rfl
                        · rw [hE1] at hx1
                          rcases List.mem_or_eq_of_mem_set hx1 with hx2 | rfl
                          · exact hall x hx2
                          · exact hwr'
                        · exact hwc'
                      have hchild2 : ∀ x, cs2.get? idx = some x →
                          x.clen + n ≤ MINC := by
                        intro x hx
                        rw [IList.get?_toL, hE2,
                          List.get?_set_eq_of_lt _
                            (by rw [hE1, List.length_set]; exact hidxlt),
                          Option.some.injEq] at hx
                        subst hx
                        simp only [MINC] at hcc ⊢
                        omega
                      obtain ⟨ihms, ihlen, ihall, ihframe, ihres⟩ :=
                        ih (i + 1) cs2 ms2 hri hms2 hall2 hchild2 h
                      refine ⟨ihms, ?_, ihall, ?_, ihres⟩
                      · rw [ihlen, IList.len_toL, hE2, List.length_set,
                          hE1, List.length_set, IList.len_toL]
                      · intro j hj1 hj2
                        rw [ihframe j hj1 hj2, IList.get?_toL, hE2,
                          List.get?_set_ne _ _ (by omega), hE1,
                          List.get?_set_ne _ _ (by omega), IList.get?_toL]

theorem tryStealLeft_spec {cs : IList} {ms : List Metric} {idx needed : Nat}
    {res : Option Nat} {cs' : IList} {ms' : List Metric} {hh : Nat}
    (hms : ms = cs.toL.map Internal.total)
    (hall : ∀ c ∈ cs.toL, wfH c hh = true)
    (hchild : ∀ c, cs.get? idx = some c → c.clen + needed ≤ MINC)
    (h : tryStealLeft cs ms idx needed = some (res, cs', ms')) :
    ms' = cs'.toL.map Internal.total ∧ cs'.len = cs.len ∧
      (∀ c ∈ cs'.toL, wfH c hh = true) ∧
      (∀ j, j ≠ idx → j + 1 ≠ idx → cs'.get? j = cs.get? j) ∧
      (∀ k, res = some k → 1 ≤ k ∧
        (∀ c, cs'.get? idx = some c → c.clen + k ≤ MINC) ∧
        (∀ l, idx ≠ 0 → cs'.get? (idx - 1) = some l → l.clen ≤ MINC)) := by
  unfold tryStealLeft at h
  split at h
  · rename_i hguard
    obtain ⟨hi1, hi2, hn1, hn2⟩ := hguard
    match idx, h with
    | 0, h =>
      simp only [Option.some.injEq, Prod.mk.injEq] at h
      obtain ⟨hres, hcs, hms'⟩ := h
      subst hcs hms'
      refine ⟨hms, rfl, hall, fun j _ _ => rfl, ?_⟩
      intro k hk
      rw [← hres] at hk
      simp only [nzNew, if_neg (by omega : ¬needed = 0),
        Option.some.injEq] at hk
      subst hk
      exact ⟨by omega, fun c hc => hchild c hc, fun l hl => by omega⟩
    | i + 1, h =>
      obtain ⟨ihms, ihlen, ihall, ihframe, ihres⟩ :=
        stealLeftLoop_spec needed 0 cs ms rfl hms hall hchild h
      refine ⟨ihms, ihlen, ihall, ?_, ?_⟩
      · intro j hj1 hj2
        exact ihframe j hj1 (by omega)
      · intro k hk
        obtain ⟨h1, h2, h3⟩ := ihres k hk
        exact ⟨h1, h2, fun l _ hl => h3 l hl⟩
  · cases h

theorem tryStealRight_spec {cs : IList} {ms : List Metric} {idx needed : Nat}
    {res : Option Nat} {cs' : IList} {ms' : List Metric} {hh : Nat}
    (hms : ms = cs.toL.map Internal.total)
    (hall : ∀ c ∈ cs.toL, wfH c hh = true)
    (hchild : ∀ c, cs.get? idx = some c → c.clen + needed ≤ MINC)
    (h : tryStealRight cs ms idx needed = some (res, cs', ms')) :
    ms' = cs'.toL.map Internal.total ∧ cs'.len = cs.len ∧
      (∀ c ∈ cs'.toL, wfH c hh = true) ∧
      (∀ j, j ≠ idx → j ≠ idx + 1 → cs'.get? j = cs.get? j) ∧
      (∀ k, res = some k → 1 ≤ k ∧
        (∀ c, cs'.get? idx = some c → c.clen + k ≤ MINC) ∧
        (∀ r, idx + 1 < cs.len → cs'.get? (idx + 1) = some r →
          r.clen ≤ MINC)) := by
  unfold tryStealRight at h
  split at h
  · rename_i hguard
    obtain ⟨hi1, hn1, hn2⟩ := hguard
    split at h
    · rename_i hge
      simp only [Option.some.injEq, Prod.mk.injEq] at h
      obtain ⟨hres, hcs, hms'⟩ := h
      subst hcs hms'
      refine ⟨hms, rfl, hall, fun j _ _ => rfl, ?_⟩
      intro k hk
      rw [← hres] at hk
      simp only [nzNew, if_neg (by omega : ¬needed = 0),
        Option.some.injEq] at hk
      subst hk
      exact ⟨by omega, fun c hc => hchild c hc, fun r hlt _ => by omega⟩
    · rename_i hlt
      obtain ⟨ihms, ihlen, ihall, ihframe, ihres⟩ :=
        stealRightLoop_spec needed 0 cs ms rfl hms hall hchild h
      refine ⟨ihms, ihlen, ihall, ihframe, ?_⟩
      intro k hk
      obtain ⟨h1, h2, h3⟩ := ihres k hk
      exact ⟨h1, h2, fun r _ hr => h3 r hr⟩
  · cases h

theorem IList.drainAt?_eq_some {cs cs1 : IList} {a b : Nat} :
    cs.drainAt? a b = some cs1 ↔
      a ≤ b ∧ b ≤ cs.len ∧ cs1.toL = cs.toL.take a ++ cs.toL.drop b := by
  unfold IList.drainAt?
  rw [Option.map_eq_some']
  constructor
  · rintro ⟨l, hl, rfl⟩
    rw [drain?_eq_some] at hl
    obtain ⟨h1, h2, rfl⟩ := hl
    exact ⟨h1, h2, by simp⟩
  · rintro ⟨h1, h2, hL⟩
    refine ⟨cs.toL.take a ++ cs.toL.drop b,
      drain?_eq_some.mpr ⟨h1, h2, rfl⟩, ?_⟩
    have h3 : IList.ofL (cs.toL.take a ++ cs.toL.drop b) =
        IList.ofL cs1.toL := by rw [hL]
    simpa using h3

theorem deleteRange_wfH :
    ∀ (t : Internal) {h : Nat} (s e : Metric) (res : Option Nat)
      (t' : Internal),
    wfH t h = true → deleteRange t s e = some (res, t') →
    wfH t' h = true ∧
      (∀ k, res = some k → t'.clen + k ≤ MINC ∧ 1 ≤ k) := by
  intro t
  induction t using internal_ind with
  | hl ms c =>
    intro h s e res t' hw hs
    rw [wfH_leaves_iff] at hw
    obtain ⟨hlen, hmax, hh1⟩ := hw
    rw [deleteRange] at hs
    split at hs
    · rename_i hguard
      split at hs
      · cases hs
      · rename_i si ei start' e' hgdi
        split at hs
        · cases hs
        · rename_i endMetric hgem
          dsimp only [] at hs
          set sD := if start'.bytes = 0 then si else si + 1 with hsDdef
          set eD := if e'.bytes ≠ endMetric.bytes then ei else ei + 1
            with heDdef
          split at hs
          · rename_i hsd
            split at hs
            · cases hs
            · rename_i ms1 hsub
              split at hs
              · cases hs
              · rename_i ms2 hset
                split at hs
                · rename_i hed
                  split at hs
                  · cases hs
                  · rename_i ms3 hdrain
                    simp only [Option.some.injEq, Prod.mk.injEq] at hs
                    obtain ⟨hres, ht'⟩ := hs
                    rw [subAt?_eq_some] at hsub
                    obtain ⟨mE, mE', hgE, hsE, hE1⟩ := hsub
                    rw [setAt?_eq_some] at hset
                    obtain ⟨hltS, hE2⟩ := hset
                    rw [drain?_eq_some] at hdrain
                    obtain ⟨hab, hbb, hE3⟩ := hdrain
                    have hlms1 : ms1.length = ms.length := by
                      rw [hE1, List.length_set]
                    have hlms2 : ms2.length = ms.length := by
                      rw [hE2, List.length_set, hlms1]
                    have hlen3 : ms3.length = sD + (ms2.length - eD) := by
                      rw [hE3, List.length_append, List.length_take,
                        List.length_drop]
                      omega
                    refine ⟨?_, ?_⟩
                    · rw [← ht', wfH_leaves_iff]
                      exact ⟨by omega, by omega, hh1⟩
                    · intro k hk
                      rw [← hres] at hk
                      by_cases h0 : c - (eD - sD) = 0
                      · rw [← ht']
                        norm_num [nzNew, h0] at hk
                        simp only [Internal.clen, MINC]
                        omega
                      · rw [if_neg h0] at hk
                        simp [nzNew] at hk
                · cases hs
          · rename_i hsd
            split at hs
            · cases hs
            · rename_i ms3 hms3
              simp only [Option.some.injEq, Prod.mk.injEq] at hs
              obtain ⟨hres, ht'⟩ := hs
              have hlen3 : ms3.length = ms.length := by
                split_ifs at hms3 with hsiei
                · split at hms3
                  · cases hms3
                  · rename_i d hd
                    rw [subAt?_eq_some] at hms3
                    obtain ⟨m1, m1', hg1, hs1, hE⟩ := hms3
                    rw [hE, List.length_set]
                · split at hms3
                  · cases hms3
                  · rename_i ms1 hsub
                    rw [setAt?_eq_some] at hms3
                    obtain ⟨hlt1, hE⟩ := hms3
                    rw [subAt?_eq_some] at hsub
                    obtain ⟨m1, m1', hg1, hs1, hE1⟩ := hsub
                    rw [hE, hE1, List.length_set, List.length_set]
              refine ⟨?_, ?_⟩
              · rw [← ht', wfH_leaves_iff]
                exact ⟨by omega, by omega, hh1⟩
              · intro k hk
                rw [← hres] at hk
                by_cases h0 : c = 0
                · rw [← ht']
                  norm_num [nzNew, h0] at hk
                  simp only [Internal.clen, MINC]
                  omega
                · rw [if_neg h0] at hk
                  simp [nzNew] at hk
    · cases hs
  | hn ms cs ih =>
    intro h s e res t' hw hs
    rw [wfH_node_iff] at hw
    obtain ⟨hms, hmax, hh2, hall⟩ := hw
    rw [deleteRange] at hs
    split at hs
    · rename_i hguard
      split at hs
      · cases hs
      · rename_i si ei start' e' hgdi
        split at hs
        · -- the range falls inside a single child
          rename_i hsiei
          split at hs
          · cases hs
          · rename_i needRes c0' hdr
            obtain ⟨c0, hg0, hd0⟩ := drOne_char cs si start' e' hdr
            obtain ⟨hwc', hres0⟩ :=
              ih c0 (List.get?_mem hg0) start' e' needRes c0'
                (hall c0 (List.get?_mem hg0)) hd0
            split at hs
            · cases hs
            · rename_i cs1 hset
              split at hs
              · cases hs
              · rename_i ms1 hsetM
                rw [IList.set?_eq_some] at hset
                obtain ⟨hlt1, hE1⟩ := hset
                rw [setAt?_eq_some] at hsetM
                obtain ⟨hltM, hE2⟩ := hsetM
                have hidxlt : si < cs.toL.length := by
                  rw [← IList.len_toL]; exact hlt1
                have hms1 : ms1 = cs1.toL.map Internal.total := by
                  rw [hE2, hE1, hms, List.map_set]
                have hall1 : ∀ x ∈ cs1.toL, wfH x (h - 1) = true := by
                  intro x hx
                  rw [hE1] at hx
                  rcases List.mem_or_eq_of_mem_set hx with hx' | rfl
                  · exact hall x hx'
                  · exact hwc'
                have hlen1 : cs1.len = cs.len := by
                  rw [IList.len_toL, hE1, List.length_set, ← IList.len_toL]
                have hgc1 : cs1.get? si = some c0' := by
                  show cs1.toL.get? si = some c0'
                  rw [hE1, List.get?_set_eq_of_lt _ hidxlt]
                split at hs
                · -- the child absorbed the range with no underflow
                  simp only [Option.some.injEq, Prod.mk.injEq] at hs
                  obtain ⟨hres, ht'⟩ := hs
                  refine ⟨?_, ?_⟩
                  · rw [← ht', wfH_node_iff]
                    exact ⟨hms1, by omega, hh2, hall1⟩
                  · intro k hk
                    rw [← hres] at hk
                    cases hk
                · -- the child underflowed: steal left, steal right, merge
                  rename_i needed
                  obtain ⟨hcn, hk1⟩ := hres0 needed rfl
                  have hchild1 : ∀ x, cs1.get? si = some x →
                      x.clen + needed ≤ MINC := by
                    intro x hx
                    rw [hgc1, Option.some.injEq] at hx
                    rw [← hx]
                    exact hcn
                  split at hs
                  · cases hs
                  · rename_i cs2 ms2 hTSL
                    obtain ⟨i1, i2, i3, i4, i5⟩ :=
                      tryStealLeft_spec hms1 hall1 hchild1 hTSL
                    simp only [Option.some.injEq, Prod.mk.injEq] at hs
                    obtain ⟨hres, ht'⟩ := hs
                    refine ⟨?_, ?_⟩
                    · rw [← ht', wfH_node_iff]
                      exact ⟨i1, by omega, hh2, i3⟩
                    · intro k hk
                      rw [← hres] at hk
                      cases hk
                  · rename_i needed1 cs2 ms2 hTSL
                    obtain ⟨i1, i2, i3, i4, i5⟩ :=
                      tryStealLeft_spec hms1 hall1 hchild1 hTSL
                    obtain ⟨j1k, j2k, j3k⟩ := i5 needed1 rfl
                    split at hs
                    · cases hs
                    · rename_i cs3 ms3 hTSR
                      obtain ⟨m1f, m2f, m3f, m4f, m5f⟩ :=
                        tryStealRight_spec i1 i3 j2k hTSR
                      simp only [Option.some.injEq, Prod.mk.injEq] at hs
                      obtain ⟨hres, ht'⟩ := hs
                      refine ⟨?_, ?_⟩
                      · rw [← ht', wfH_node_iff]
                        exact ⟨m1f, by omega, hh2, m3f⟩
                      · intro k hk
                        rw [← hres] at hk
                        cases hk
                    · rename_i k2 cs3 ms3 hTSR
                      obtain ⟨m1f, m2f, m3f, m4f, m5f⟩ :=
                        tryStealRight_spec i1 i3 j2k hTSR
                      obtain ⟨q1k, q2k, q3k⟩ := m5f k2 rfl
                      split at hs
                      · cases hs
                      · rename_i res4 cs4 ms4 hMC
                        have hbound : ∀ l r,
                            cs3.get? ((if si ≠ 0 then si else si + 1) - 1) =
                              some l →
                            cs3.get? (if si ≠ 0 then si else si + 1) =
                              some r →
                            l.clen + r.clen ≤ MAXC := by
                          intro l r hgl hgr
                          by_cases hsi0 : si = 0
                          · subst hsi0
                            norm_num at hgl hgr
                            have hl2 := q2k l hgl
                            have h1lt : 0 + 1 < cs2.len := by
                              have hgr' : cs3.toL.get? 1 = some r := hgr
                              have h9 := (List.get?_eq_some.mp hgr').1
                              rw [← IList.len_toL] at h9
                              omega
                            have hr2 := q3k r h1lt hgr
                            simp only [MINC, MAXC] at hl2 hr2 ⊢
                            omega
                          · rw [if_pos hsi0] at hgl hgr
                            have hr2 := q2k r hgr
                            have hgl2 : cs2.get? (si - 1) = some l := by
                              rw [← m4f (si - 1) (by omega) (by omega)]
                              exact hgl
                            have hl2 := j3k l hsi0 hgl2
                            simp only [MINC, MAXC] at hl2 hr2 ⊢
                            omega
                        obtain ⟨w1, w2, w3, w4, w5⟩ :=
                          mergeChildren_spec m1f m3f hbound hMC
                        simp only [Option.some.injEq, Prod.mk.injEq] at hs
                        obtain ⟨hres, ht'⟩ := hs
                        refine ⟨?_, ?_⟩
                        · rw [← ht', wfH_node_iff]
                          exact ⟨w1, by omega, hh2, w4⟩
                        · intro k hk
                          rw [← hres, w5] at hk
                          rw [← ht']
                          show cs4.len + k ≤ MINC ∧ 1 ≤ k
                          unfold nzNew at hk
                          split_ifs at hk with hz
                          simp only [Option.some.injEq] at hk
                          simp only [MINC] at hz hk ⊢
                          omega
        · -- the range spans several children
          rename_i hsiei
          split at hs
          · cases hs
          · rename_i eiMetric hgem
            dsimp only [] at hs
            set sD := if start'.bytes = 0 then si else si + 1 with hsDdef
            set eD := if e'.bytes ≠ eiMetric.bytes then ei else ei + 1
              with heDdef
            have hsDcases : sD = si ∨ sD = si + 1 := by
              rw [hsDdef]; split_ifs <;> simp
            have heDcases : eD = ei ∨ eD = ei + 1 := by
              rw [heDdef]; split_ifs <;> simp
            split at hs
            · cases hs
            · rename_i resLeft hL
              split at hs
              · cases hs
              · rename_i resRight hR
                have hLfacts : ∀ needL cL, resLeft = some (needL, cL) →
                    si < sD ∧ wfH cL (h - 1) = true ∧
                      (∀ k, needL = some k →
                        cL.clen + k ≤ MINC ∧ 1 ≤ k) := by
                  intro needL cL hrl
                  split at hL
                  · rename_i hcond
                    split at hL
                    · cases hL
                    · rename_i siMetric hgsim
                      rw [Option.map_eq_some'] at hL
                      obtain ⟨p, hp, hps⟩ := hL
                      rw [hrl] at hps
                      cases Option.some.inj hps
                      obtain ⟨csi, hgsi, hdsi⟩ :=
                        drOne_char cs si start' siMetric hp
                      obtain ⟨hw9, hr9⟩ :=
                        ih csi (List.get?_mem hgsi) start' siMetric
                          needL cL (hall csi (List.get?_mem hgsi)) hdsi
                      exact ⟨hcond, hw9, hr9⟩
                  · rename_i hcond
                    simp only [Option.some.injEq] at hL
                    rw [← hL] at hrl
                    cases hrl
                have hRfacts : ∀ needR cR, resRight = some (needR, cR) →
                    eD ≤ ei ∧ wfH cR (h - 1) = true ∧
                      (∀ k, needR = some k →
                        cR.clen + k ≤ MINC ∧ 1 ≤ k) := by
                  intro needR cR hrr
                  split at hR
                  · rename_i hcond
                    rw [Option.map_eq_some'] at hR
                    obtain ⟨p, hp, hps⟩ := hR
                    rw [hrr] at hps
                    cases Option.some.inj hps
                    obtain ⟨cei, hgei, hdei⟩ :=
                      drOne_char cs ei mzero e' hp
                    obtain ⟨hw9, hr9⟩ :=
                      ih cei (List.get?_mem hgei) mzero e'
                        needR cR (hall cei (List.get?_mem hgei)) hdei
                    exact ⟨hcond, hw9, hr9⟩
                  · rename_i hcond
                    simp only [Option.some.injEq] at hR
                    rw [← hR] at hrr
                    cases hrr
                split at hs
                · cases hs
                · rename_i leftNeeded ms1 cs1 hLP
                  have hLP1 : ms1 = cs1.toL.map Internal.total ∧
                      cs1.len = cs.len ∧
                      (∀ x ∈ cs1.toL, wfH x (h - 1) = true) ∧
                      (∀ j, j ≠ si → j + 1 ≠ si →
                        cs1.get? j = cs.get? j) ∧
                      (∀ k, leftNeeded = some k → 1 ≤ k ∧ si < sD ∧
                        (∀ x, cs1.get? si = some x →
                          x.clen + k ≤ MINC)) := by
                    split at hLP
                    · simp only [Option.some.injEq, Prod.mk.injEq] at hLP
                      obtain ⟨hn1, hm1, hc1⟩ := hLP
                      rw [← hn1, ← hm1, ← hc1]
                      refine ⟨hms, rfl, hall, fun j _ _ => rfl, ?_⟩
                      intro k hk
                      cases hk
                    · rename_i needRes cL
                      obtain ⟨hsd1, hwcL, hresL⟩ :=
                        hLfacts needRes cL rfl
                      split at hLP
                      · cases hLP
                      · rename_i csA hsetA
                        split at hLP
                        · cases hLP
                        · rename_i msA hsetMA
                          rw [IList.set?_eq_some] at hsetA
                          obtain ⟨hltA, hEA⟩ := hsetA
                          rw [setAt?_eq_some] at hsetMA
                          obtain ⟨hltMA, hEMA⟩ := hsetMA
                          have hsilt : si < cs.toL.length := by
                            rw [← IList.len_toL]; exact hltA
                          have hmsA : msA = csA.toL.map Internal.total := by
                            rw [hEMA, hEA, hms, List.map_set]
                          have hallA : ∀ x ∈ csA.toL,
                              wfH x (h - 1) = true := by
                            intro x hx
                            rw [hEA] at hx
                            rcases List.mem_or_eq_of_mem_set hx
                              with hx' | rfl
                            · exact hall x hx'
                            · exact hwcL
                          have hlenA : csA.len = cs.len := by
                            rw [IList.len_toL, hEA, List.length_set,
                              ← IList.len_toL]
                          have hgA : csA.get? si = some cL := by
                            show csA.toL.get? si = some cL
                            rw [hEA, List.get?_set_eq_of_lt _ hsilt]
                          have hframeA : ∀ j, j ≠ si →
                              csA.get? j = cs.get? j := by
                            intro j hj
                            show csA.toL.get? j = cs.toL.get? j
                            rw [hEA, List.get?_set_ne _ _
                              (fun hq => hj hq.symm)]
                          split at hLP
                          · simp only [Option.some.injEq,
                              Prod.mk.injEq] at hLP
                            obtain ⟨hn1, hm1, hc1⟩ := hLP
                            rw [← hn1, ← hm1, ← hc1]
                            refine ⟨hmsA, hlenA, hallA,
                              fun j hj _ => hframeA j hj, ?_⟩
                            intro k hk
                            cases hk
                          · rename_i x
                            obtain ⟨hcLb, hx1⟩ := hresL x rfl
                            have hchildA : ∀ y, csA.get? si = some y →
                                y.clen + x ≤ MINC := by
                              intro y hy
                              rw [hgA, Option.some.injEq] at hy
                              rw [← hy]
                              exact hcLb
                            split at hLP
                            · cases hLP
                            · rename_i resT csB msB hT
                              simp only [Option.some.injEq,
                                Prod.mk.injEq] at hLP
                              obtain ⟨hn1, hm1, hc1⟩ := hLP
                              rw [← hn1, ← hm1, ← hc1]
                              obtain ⟨t1, t2, t3, t4, t5⟩ :=
                                tryStealLeft_spec hmsA hallA hchildA hT
                              refine ⟨t1, by omega, t3, ?_, ?_⟩
                              · intro j hj1 hj2
                                rw [t4 j hj1 hj2, hframeA j hj1]
                              · intro k hk
                                obtain ⟨u1, u2, u3⟩ := t5 k hk
                                exact ⟨u1, hsd1, u2⟩
                  split at hs
                  · cases hs
                  · rename_i rightNeeded ms2 cs2 hRP
                    obtain ⟨hLPms, hLPlen, hLPall, hLPframe, hLPres⟩ := hLP1
                    have hRP1 : ms2 = cs2.toL.map Internal.total ∧
                        cs2.len = cs1.len ∧
                        (∀ x ∈ cs2.toL, wfH x (h - 1) = true) ∧
                        (∀ j, j ≠ ei → j ≠ ei + 1 →
                          cs2.get? j = cs1.get? j) ∧
                        (∀ k, rightNeeded = some k → 1 ≤ k ∧ eD ≤ ei ∧
                          (∀ x, cs2.get? ei = some x →
                            x.clen + k ≤ MINC)) := by
                      split at hRP
                      · simp only [Option.some.injEq, Prod.mk.injEq] at hRP
                        obtain ⟨hn1, hm1, hc1⟩ := hRP
                        rw [← hn1, ← hm1, ← hc1]
                        refine ⟨hLPms, rfl, hLPall, fun j _ _ => rfl, ?_⟩
                        intro k hk
                        cases hk
                      · rename_i needRes cR
                        obtain ⟨hed1, hwcR, hresR⟩ :=
                          hRfacts needRes cR rfl
                        split at hRP
                        · cases hRP
                        · rename_i csA hsetA
                          split at hRP
                          · cases hRP
                          · rename_i msA hsetMA
                            rw [IList.set?_eq_some] at hsetA
                            obtain ⟨hltA, hEA⟩ := hsetA
                            rw [setAt?_eq_some] at hsetMA
                            obtain ⟨hltMA, hEMA⟩ := hsetMA
                            have heilt : ei < cs1.toL.length := by
                              rw [← IList.len_toL]; exact hltA
                            have hmsA : msA =
                                csA.toL.map Internal.total := by
                              rw [hEMA, hEA, hLPms, List.map_set]
                            have hallA : ∀ x ∈ csA.toL,
                                wfH x (h - 1) = true := by
                              intro x hx
                              rw [hEA] at hx
                              rcases List.mem_or_eq_of_mem_set hx
                                with hx' | rfl
                              · exact hLPall x hx'
                              · exact hwcR
                            have hlenA : csA.len = cs1.len := by
                              rw [IList.len_toL, hEA, List.length_set,
                                ← IList.len_toL]
                            have hgA : csA.get? ei = some cR := by
                              show csA.toL.get? ei = some cR
                              rw [hEA, List.get?_set_eq_of_lt _ heilt]
                            have hframeA : ∀ j, j ≠ ei →
                                csA.get? j = cs1.get? j := by
                              intro j hj
                              show csA.toL.get? j = cs1.toL.get? j
                              rw [hEA, List.get?_set_ne _ _
                                (fun hq => hj hq.symm)]
                            split at hRP
                            · simp only [Option.some.injEq,
                                Prod.mk.injEq] at hRP
                              obtain ⟨hn1, hm1, hc1⟩ := hRP
                              rw [← hn1, ← hm1, ← hc1]
                              refine ⟨hmsA, hlenA, hallA,
                                fun j hj _ => hframeA j hj, ?_⟩
                              intro k hk
                              cases hk
                            · rename_i x
                              obtain ⟨hcRb, hx1⟩ := hresR x rfl
                              have hchildA : ∀ y, csA.get? ei = some y →
                                  y.clen + x ≤ MINC := by
                                intro y hy
                                rw [hgA, Option.some.injEq] at hy
                                rw [← hy]
                                exact hcRb
                              split at hRP
                              · cases hRP
                              · rename_i resT csB msB hT
                                simp only [Option.some.injEq,
                                  Prod.mk.injEq] at hRP
                                obtain ⟨hn1, hm1, hc1⟩ := hRP
                                rw [← hn1, ← hm1, ← hc1]
                                obtain ⟨t1, t2, t3, t4, t5⟩ :=
                                  tryStealRight_spec hmsA hallA hchildA hT
                                refine ⟨t1, by omega, t3, ?_, ?_⟩
                                · intro j hj1 hj2
                                  rw [t4 j hj1 hj2, hframeA j hj1]
                                · intro k hk
                                  obtain ⟨u1, u2, u3⟩ := t5 k hk
                                  exact ⟨u1, hed1, u2⟩
                    split at hs
                    · cases hs
                    · rename_i ms3 cs3 hD
                      obtain ⟨hRPms, hRPlen, hRPall, hRPframe, hRPres⟩ :=
                        hRP1
                      have hD1 : ms3 = cs3.toL.map Internal.total ∧
                          cs3.len ≤ cs2.len ∧
                          (∀ x ∈ cs3.toL, wfH x (h - 1) = true) ∧
                          (sD = si + 1 → cs3.get? si = cs2.get? si) ∧
                          (sD = si + 1 → eD = ei → si + 1 ≤ ei →
                            cs3.get? (si + 1) = cs2.get? ei) := by
                        split at hD
                        · rename_i hsdlt
                          split at hD
                          · rename_i csD msD hdrc hdrm
                            simp only [Option.some.injEq,
                              Prod.mk.injEq] at hD
                            obtain ⟨hm1, hc1⟩ := hD
                            rw [← hm1, ← hc1]
                            rw [IList.drainAt?_eq_some] at hdrc
                            obtain ⟨hab, hbb, hEc⟩ := hdrc
                            rw [drain?_eq_some] at hdrm
                            obtain ⟨hab2, hbb2, hEm⟩ := hdrm
                            have hbb' : eD ≤ cs2.toL.length := by
                              rw [← IList.len_toL]; exact hbb
                            refine ⟨?_, ?_, ?_, ?_, ?_⟩
                            · rw [hEm, hEc, hRPms]
                              simp [List.map_take, List.map_drop]
                            · rw [IList.len_toL, hEc,
                                List.length_append, List.length_take,
                                List.length_drop, ← IList.len_toL]
                              omega
                            · intro x hx
                              rw [hEc] at hx
                              rcases List.mem_append.mp hx with hx' | hx'
                              · exact hRPall x (List.take_subset _ _ hx')
                              · exact hRPall x (List.drop_subset _ _ hx')
                            · intro hsd1
                              show csD.toL.get? si = cs2.toL.get? si
                              rw [hEc]
                              exact get?_drain_lt (by omega) hab hbb'
                            · intro hsd1 hed1 hlt9
                              show csD.toL.get? (si + 1) =
                                cs2.toL.get? ei
                              rw [hEc, ← hsd1, ← hed1]
                              exact get?_drain_at hab hbb'
                          · cases hD
                        · rename_i hsdge
                          simp only [Option.some.injEq,
                            Prod.mk.injEq] at hD
                          obtain ⟨hm1, hc1⟩ := hD
                          rw [← hm1, ← hc1]
                          refine ⟨hRPms, le_refl _, hRPall,
                            fun _ => rfl, ?_⟩
                          intro hsd1 hed1 hlt9
                          have hei9 : ei = si + 1 := by omega
                          rw [hei9]
                      obtain ⟨hDms, hDlen, hDall, hDsi, hDsi1⟩ := hD1
                      split at hs
                      · -- both edges healthy
                        simp only [Option.some.injEq, Prod.mk.injEq] at hs
                        obtain ⟨hres, ht'⟩ := hs
                        refine ⟨?_, ?_⟩
                        · rw [← ht', wfH_node_iff]
                          exact ⟨hDms, by omega, hh2, hDall⟩
                        · intro k hk
                          rw [← hres] at hk
                          cases hk
                      · cases hs
                      · cases hs
                      · -- both edges underflowed: merge them
                        rename_i kL kR
                        obtain ⟨hkL1, hkLsd, hkL2⟩ := hLPres kL rfl
                        obtain ⟨hkR1, hkRed, hkR2⟩ := hRPres kR rfl
                        have hsd1 : sD = si + 1 := by
                          rcases hsDcases with h9 | h9 <;> omega
                        have hed1 : eD = ei := by
                          rcases heDcases with h9 | h9 <;> omega
                        split at hs
                        · rename_i hcond
                          have hlt9 : si + 1 ≤ ei := by
                            rw [hsd1, hed1] at hcond
                            omega
                          split at hs
                          · cases hs
                          · rename_i r4 cs4 ms4 hMC
                            have hbound : ∀ l r,
                                cs3.get?
                                  ((if si + 1 ≠ 0 then si + 1
                                    else si + 1 + 1) - 1) = some l →
                                cs3.get?
                                  (if si + 1 ≠ 0 then si + 1
                                    else si + 1 + 1) = some r →
                                l.clen + r.clen ≤ MAXC := by
                              intro l r hgl hgr
                              rw [if_pos (Nat.succ_ne_zero si)]
                                at hgl hgr
                              rw [show si + 1 - 1 = si from by omega]
                                at hgl
                              rw [hDsi hsd1, hRPframe si (by omega)
                                (by omega)] at hgl
                              have hlb := hkL2 l hgl
                              rw [hDsi1 hsd1 hed1 hlt9] at hgr
                              have hrb := hkR2 r hgr
                              simp only [MINC, MAXC] at hlb hrb ⊢
                              omega
                            obtain ⟨w1, w2, w3, w4, w5⟩ :=
                              mergeChildren_spec hDms hDall hbound hMC
                            split at hs
                            · cases hs
                            · rename_i cAtSi hgat
                              split at hs
                              · cases hs
                              · rename_i hok
                                simp only [Option.some.injEq,
                                  Prod.mk.injEq] at hs
                                obtain ⟨hres, ht'⟩ := hs
                                refine ⟨?_, ?_⟩
                                · rw [← ht', wfH_node_iff]
                                  exact ⟨w1, by omega, hh2, w4⟩
                                · intro k hk
                                  rw [← hres] at hk
                                  rw [← ht']
                                  show cs4.len + k ≤ MINC ∧ 1 ≤ k
                                  unfold nzNew at hk
                                  split_ifs at hk with hz
                                  simp only [Option.some.injEq] at hk
                                  simp only [MINC] at hz hk ⊢
                                  omega
                        · cases hs
    · cases hs

/-- A tree satisfying the spec's §3.3 invariant (every non-root node has
between `MIN` and `MAX` children) used to exercise delete rebalancing. -/
def tC3 : Internal :=
  .node [⟨4, 2⟩, ⟨8, 4⟩]
    (.cons (.leaves [⟨2, 1⟩, ⟨2, 1⟩] 2)
      (.cons (.leaves [⟨4, 2⟩, ⟨4, 2⟩] 2) .nil))

/-- The tree `delete` leaves behind when removing position `(0, 0)` from
`tC3`: its first child holds a single leaf, below `MIN`. -/
def tC3R : Internal :=
  .node [⟨4, 2⟩, ⟨8, 4⟩]
    (.cons (.leaves [⟨4, 2⟩] 1)
      (.cons (.leaves [⟨4, 2⟩, ⟨4, 2⟩] 2) .nil))

/-- C3: every metric-tree mutation that returns normally preserves the
structural invariants, in the amended reading: summary vectors mirror the
children (`metrics.len() == children.len()` and
`metrics[i] == children[i].metrics()` for internal-holding nodes), every
node has at most `MAX` children, and all leaves sit at one common depth.
The spec's additional `MIN` lower bound for non-root nodes is NOT
preserved (see the counterexample). -/
theorem C3_mutations_preserve_invariants (t : Internal) (h : Nat)
    (needle pos s e d : Metric) (p : Nat) (hw : wfH t h = true) :
    (∀ t', insertTree t needle = some t' → ∃ h', wfH t' h' = true) ∧
    (∀ t', deleteTree t pos = some t' → ∃ h', wfH t' h' = true) ∧
    (∀ res t', deleteRange t s e = some (res, t') → wfH t' h = true) ∧
    (∀ t', addOp t p d = some t' → wfH t' h = true) ∧
    (∀ t', removeOp t p d = some t' → wfH t' h = true) :=
  ⟨fun _ hs => insertTree_wfH hw hs,
   fun _ hs => deleteTree_wfH hw hs,
   fun res t' hs => (deleteRange_wfH t s e res t' hw hs).1,
   fun t' hs => addOp_wfH t p t' hw hs,
   fun t' hs => removeOp_wfH t p t' hw hs⟩

/-- Witness for C3 at a concrete one-leaf root. -/
theorem C3_mutations_preserve_invariants_witness :
    wfH (Internal.leaves [⟨2, 1⟩] 1) 1 = true ∧
    ((∀ t', insertTree (Internal.leaves [⟨2, 1⟩] 1) ⟨2, 1⟩ = some t' →
        ∃ h', wfH t' h' = true) ∧
     (∀ t', deleteTree (Internal.leaves [⟨2, 1⟩] 1) ⟨0, 0⟩ = some t' →
        ∃ h', wfH t' h' = true) ∧
     (∀ res t', deleteRange (Internal.leaves [⟨2, 1⟩] 1) ⟨0, 0⟩ ⟨2, 1⟩ =
        some (res, t') → wfH t' 1 = true) ∧
     (∀ t', addOp (Internal.leaves [⟨2, 1⟩] 1) 0 ⟨1, 1⟩ = some t' →
        wfH t' 1 = true) ∧
     (∀ t', removeOp (Internal.leaves [⟨2, 1⟩] 1) 0 ⟨1, 1⟩ = some t' →
        wfH t' 1 = true)) :=
  ⟨by decide,
   C3_mutations_preserve_invariants (Internal.leaves [⟨2, 1⟩] 1) 1
     ⟨2, 1⟩ ⟨0, 0⟩ ⟨0, 0⟩ ⟨2, 1⟩ ⟨1, 1⟩ 0 (by decide)⟩

/-- C3 counterexample to the spec's full §3.3 claim: `tC3` satisfies the
spec invariant, `delete((0,0))` returns normally, yet the result violates
the `MIN` lower bound (its first child keeps a single leaf) while still
satisfying the amended invariant. -/
theorem C3_counterexample :
    wfSpec tC3 ∧ deleteTree tC3 ⟨0, 0⟩ = some tC3R ∧
      ¬ wfSpec tC3R ∧ wfTree tC3R := by
  refine ⟨⟨2, by decide⟩, by decide, ?_, ⟨2, by decide⟩⟩
  rintro ⟨h, hh⟩
  simp [tC3R, wfSpecH, wfSpecL, MINC] at hh
